import Mathlib

/-!
Shallow embedding of the crawler core of the `scrapper` repository
(`app/crawler/normalizer.py`, `frontier.py`, `ratelimit.py`, `robots.py`,
`crawler.py`, `extract.py`, `storage.py`) together with the parts of
CPython 3.11's `urllib.parse` that `normalizer.py` calls.

Modelling conventions:
* Python `str` values are `List Char` (abbreviated `Str`); concrete inputs are
  written as `"...".data`.
* Python `bytes` values are `List Nat` with every element `< 256`.
* Operations whose behaviour depends on full Unicode tables are modelled in
  their ASCII behaviour, treating non-ASCII characters as inert: `str.lower`
  maps `A`-`Z` to `a`-`z` and leaves everything else unchanged; `int()` accepts
  ASCII digits only; the `_checknetloc` NFKC check of `urlsplit` (which can
  only fire for non-ASCII netlocs) and the `_check_bracketed_host` IP-literal
  validation are omitted, only the matching-bracket check of `urlsplit` is
  kept.
* Functions that can raise are modelled with `Except Unit` / `Option`.
* `float` quantities of the token bucket (`time.time()`, rates, tokens) are
  modelled as exact rationals.
-/

/-- Python `str`, modelled as a list of characters. -/
abbrev Str := List Char

/-- Membership of a character in the set `_WHATWG_C0_CONTROL_OR_SPACE`
(code points `0x00`-`0x1f` and space) stripped from the left of a URL by
`urllib.parse.urlsplit`. -/
def isC0OrSpace (c : Char) : Bool := c.toNat ≤ 0x20

/-- The characters `\t`, `\r`, `\n` (`_UNSAFE_URL_BYTES_TO_REMOVE`), removed
everywhere in a URL by `urllib.parse.urlsplit`. -/
def isUnsafeUrlChar (c : Char) : Bool := c = '\t' ∨ c = '\r' ∨ c = '\n'

/-- `urlsplit` input cleaning: left-strip C0 controls and spaces, then remove
every tab, carriage return and newline. -/
def cleanUrl (s : Str) : Str :=
  (s.dropWhile isC0OrSpace).filter (fun c => ¬ isUnsafeUrlChar c)

/-- ASCII lower-casing of one character (`str.lower`, ASCII fragment). -/
def asciiLowerChar (c : Char) : Char :=
  if 'A' ≤ c ∧ c ≤ 'Z' then Char.ofNat (c.toNat + 32) else c

/-- ASCII lower-casing of a string. -/
def asciiLower (s : Str) : Str := s.map asciiLowerChar

/-- ASCII letter test (`url[0].isascii() and url[0].isalpha()`). -/
def isAsciiAlpha (c : Char) : Bool :=
  ('a' ≤ c ∧ c ≤ 'z') ∨ ('A' ≤ c ∧ c ≤ 'Z')

/-- ASCII digit test. -/
def isAsciiDigit (c : Char) : Bool := '0' ≤ c ∧ c ≤ '9'

/-- Membership in `urllib.parse.scheme_chars`
(`"abcdefghijklmnopqrstuvwxyzABCDEFGHIJKLMNOPQRSTUVWXYZ0123456789+-."`). -/
def isSchemeChar (c : Char) : Bool :=
  isAsciiAlpha c ∨ isAsciiDigit c ∨ c = '+' ∨ c = '-' ∨ c = '.'

/-- Index of the first occurrence of `c` (`str.find`, as an `Option`). -/
def strFind (c : Char) (s : Str) : Option Nat :=
  s.findIdx? (· = c)

/-- Index of the first occurrence of `c` at or after position `start`
(`str.find(c, start)`). -/
def strFindFrom (c : Char) (s : Str) (start : Nat) : Option Nat :=
  (strFind c (s.drop start)).map (· + start)

/-- Index of the last occurrence of `c` (`str.rfind`, as an `Option`). -/
def strRfind (c : Char) (s : Str) : Option Nat :=
  (strFind c s.reverse).map (fun i => s.length - 1 - i)

/-- `s.split(c, 1)`: split at the first occurrence of `c`, if any. -/
def splitOnceLeft (c : Char) (s : Str) : Option (Str × Str) :=
  (strFind c s).map (fun i => (s.take i, s.drop (i + 1)))

/-- `s.rsplit(c, 1)`: split at the last occurrence of `c`, if any. -/
def splitOnceRight (c : Char) (s : Str) : Option (Str × Str) :=
  (strRfind c s).map (fun i => (s.take i, s.drop (i + 1)))

/-- Python single-character `str.split` (all pieces, empty pieces kept;
`''.split(c) == ['']`). -/
def pySplitChar (c : Char) (s : Str) : List Str :=
  s.splitOn c

/-- `c.join(pieces)` for a single-character separator. -/
def pyJoinChar (c : Char) (pieces : List Str) : Str :=
  List.intercalate [c] pieces

/-- `s.endswith(c)` for a single character. -/
def pyEndsWith (c : Char) (s : Str) : Bool :=
  s.getLast? = some c

/-- Python whitespace stripped by `int()` around the digits (ASCII fragment:
space, `\t`, `\n`, `\v`, `\f`, `\r`). -/
def isPyWhitespace (c : Char) : Bool :=
  c = ' ' ∨ c = '\t' ∨ c = '\n' ∨ c = '\x0b' ∨ c = '\x0c' ∨ c = '\r'

/-- Digit-with-underscores grammar of `int()`: after the first digit, each
underscore must be followed by a digit; the string must end in a digit. -/
def parseDigitsTail (acc : Nat) : Str → Option Nat
  | [] => some acc
  | c :: rest =>
      if c = '_' then
        match rest with
        | c2 :: rest2 =>
            if isAsciiDigit c2 then
              parseDigitsTail (acc * 10 + (c2.toNat - '0'.toNat)) rest2
            else none
        | [] => none
      else if isAsciiDigit c then
        parseDigitsTail (acc * 10 + (c.toNat - '0'.toNat)) rest
      else none

/-- Nonempty digit string (underscores allowed between digits). -/
def parseDigits : Str → Option Nat
  | [] => none
  | c :: rest =>
      if isAsciiDigit c then parseDigitsTail (c.toNat - '0'.toNat) rest
      else none

/-- Python `int(s)` on a string, as an `Option` (`none` = `ValueError`):
strip whitespace, optional sign, nonempty digits with underscores. -/
def pyIntOpt (s : Str) : Option Int :=
  let t := (s.dropWhile isPyWhitespace).reverse.dropWhile isPyWhitespace |>.reverse
  match t with
  | '+' :: r => (parseDigits r).map Int.ofNat
  | '-' :: r => (parseDigits r).map (fun n => -(n : Int))
  | r => (parseDigits r).map Int.ofNat

/-- Value of a hexadecimal digit (`0-9a-fA-F`), if any. -/
def hexVal (c : Char) : Option Nat :=
  if isAsciiDigit c then some (c.toNat - '0'.toNat)
  else if 'a' ≤ c ∧ c ≤ 'f' then some (c.toNat - 'a'.toNat + 10)
  else if 'A' ≤ c ∧ c ≤ 'F' then some (c.toNat - 'A'.toNat + 10)
  else none

/-- Upper-case hexadecimal digit of a value `< 16` (as used by CPython's
percent-encoder, which writes `%XX` with upper-case digits). -/
def hexUpper (n : Nat) : Char :=
  if n < 10 then Char.ofNat ('0'.toNat + n) else Char.ofNat ('A'.toNat + n - 10)

/-- UTF-8 encoding of one character (1-4 bytes). -/
def utf8EncodeChar (c : Char) : List Nat :=
  let n := c.toNat
  if n < 0x80 then [n]
  else if n < 0x800 then [0xc0 + n / 0x40, 0x80 + n % 0x40]
  else if n < 0x10000 then
    [0xe0 + n / 0x1000, 0x80 + (n / 0x40) % 0x40, 0x80 + n % 0x40]
  else
    [0xf0 + n / 0x40000, 0x80 + (n / 0x1000) % 0x40, 0x80 + (n / 0x40) % 0x40,
      0x80 + n % 0x40]

/-- UTF-8 encoding of a string (`str.encode('utf-8')`). -/
def pyUtf8Encode : Str → List Nat
  | [] => []
  | c :: cs => utf8EncodeChar c ++ pyUtf8Encode cs

/-- The Unicode replacement character `U+FFFD`. -/
def replChar : Char := Char.ofNat 0xfffd

/-- Continuation-byte test. -/
def isContByte (b : Nat) : Bool := 0x80 ≤ b ∧ b ≤ 0xbf

/-- Lower bound of the admissible second byte for a 3- or 4-byte lead byte
(CPython's UTF-8 decoder rejects over-long forms, surrogates and values above
`U+10FFFF` at the second byte). -/
def utf8SecondLo (b : Nat) : Nat :=
  if b = 0xe0 then 0xa0 else if b = 0xf0 then 0x90 else 0x80

/-- Upper bound of the admissible second byte. -/
def utf8SecondHi (b : Nat) : Nat :=
  if b = 0xed then 0x9f else if b = 0xf4 then 0x8f else 0xbf

/-- One step of CPython's UTF-8 `errors='replace'` decoder: given the first
byte `b` and the remaining bytes, produce the decoded character (or `U+FFFD`)
and the not-yet-consumed suffix.  A truncated or interrupted valid prefix
becomes one `U+FFFD`; an outright invalid byte becomes its own `U+FFFD`. -/
def utf8Step (b : Nat) (rest : List Nat) : Char × List Nat :=
  if b < 0x80 then (Char.ofNat b, rest)
  else if 0xc2 ≤ b ∧ b ≤ 0xdf then
    match rest with
    | [] => (replChar, [])
    | c :: rest2 =>
      if isContByte c then (Char.ofNat ((b - 0xc0) * 0x40 + (c - 0x80)), rest2)
      else (replChar, rest)
  else if 0xe0 ≤ b ∧ b ≤ 0xef then
    match rest with
    | [] => (replChar, [])
    | c :: rest2 =>
      if utf8SecondLo b ≤ c ∧ c ≤ utf8SecondHi b then
        match rest2 with
        | [] => (replChar, [])
        | d :: rest3 =>
          if isContByte d then
            (Char.ofNat ((b - 0xe0) * 0x1000 + (c - 0x80) * 0x40 + (d - 0x80)), rest3)
          else (replChar, rest2)
      else (replChar, rest)
  else if 0xf0 ≤ b ∧ b ≤ 0xf4 then
    match rest with
    | [] => (replChar, [])
    | c :: rest2 =>
      if utf8SecondLo b ≤ c ∧ c ≤ utf8SecondHi b then
        match rest2 with
        | [] => (replChar, [])
        | d :: rest3 =>
          if isContByte d then
            match rest3 with
            | [] => (replChar, [])
            | e :: rest4 =>
              if isContByte e then
                (Char.ofNat ((b - 0xf0) * 0x40000 + (c - 0x80) * 0x1000 +
                    (d - 0x80) * 0x40 + (e - 0x80)), rest4)
              else (replChar, rest3)
          else (replChar, rest2)
      else (replChar, rest)
  else (replChar, rest)

theorem utf8Step_length (b : Nat) (rest : List Nat) :
    (utf8Step b rest).2.length ≤ rest.length := by
  unfold utf8Step
  repeat' split
  all_goals simp_all
  all_goals omega

/-- Iteration of `utf8Step`, fuelled (structurally) by a step budget; with
`fuel ≥` the number of bytes the budget is never exhausted because every step
consumes at least one byte. -/
def utf8DecodeGo : Nat → List Nat → List Char
  | 0, _ => []
  | _, [] => []
  | fuel + 1, b :: rest =>
    (utf8Step b rest).1 :: utf8DecodeGo fuel (utf8Step b rest).2

/-- `bytes.decode('utf-8', errors='replace')`. -/
def utf8DecodeReplace (bs : List Nat) : List Char :=
  utf8DecodeGo bs.length bs

/-- Always-safe bytes of CPython's `quote` (`_ALWAYS_SAFE`): ASCII letters,
digits and `_.-~`. -/
def isAlwaysSafeByte (b : Nat) : Bool :=
  (0x41 ≤ b ∧ b ≤ 0x5a) ∨ (0x61 ≤ b ∧ b ≤ 0x7a) ∨ (0x30 ≤ b ∧ b ≤ 0x39) ∨
    b = 0x5f ∨ b = 0x2e ∨ b = 0x2d ∨ b = 0x7e

/-- Encoding of a single byte by `quote_plus(·, safe='')`: always-safe bytes
stay literal, the space byte becomes `+`, everything else becomes `%XX` with
upper-case hex digits. -/
def quotePlusByte (b : Nat) : Str :=
  if isAlwaysSafeByte b then [Char.ofNat b]
  else if b = 0x20 then ['+']
  else ['%', hexUpper (b / 16), hexUpper (b % 16)]

/-- `urllib.parse.quote_plus(s, safe='')`: percent-encode the UTF-8 bytes of
`s`, mapping spaces to `+`. -/
def quotePlus (s : Str) : Str :=
  (pyUtf8Encode s).flatMap quotePlusByte

/-- `urllib.parse.unquote_to_bytes` on an ASCII string, char-by-char:
`%XX` with two hex digits becomes a byte, a failed `%` stays literal. -/
def unquoteGo : Nat → Str → List Nat
  | 0, _ => []
  | _ + 1, [] => []
  | fuel + 1, c :: rest =>
    if c = '%' then
      match rest with
      | [] => 0x25 :: unquoteGo fuel []
      | [a] => 0x25 :: unquoteGo fuel [a]
      | a :: b :: rest2 =>
        match hexVal a, hexVal b with
        | some x, some y => (16 * x + y) :: unquoteGo fuel rest2
        | some _, none => 0x25 :: unquoteGo fuel (a :: b :: rest2)
        | none, _ => 0x25 :: unquoteGo fuel (a :: b :: rest2)
    else c.toNat :: unquoteGo fuel rest

def unquoteBytesAscii (s : Str) : List Nat := unquoteGo s.length s

/-- ASCII test (`_asciire` run membership in `unquote`). -/
def isAsciiChar (c : Char) : Bool := c.toNat ≤ 0x7f

/-- Fuelled run-splitting loop of `unquote` (the fuel is never exhausted when
it is at least the string length, since each round consumes the leading ASCII
run plus one non-ASCII character). -/
def pyUnquoteGo : Nat → Str → Str
  | 0, _ => []
  | fuel + 1, s =>
    match s.dropWhile isAsciiChar with
    | [] => utf8DecodeReplace (unquoteBytesAscii (s.takeWhile isAsciiChar))
    | c :: rest =>
      utf8DecodeReplace (unquoteBytesAscii (s.takeWhile isAsciiChar)) ++
        c :: pyUnquoteGo fuel rest

/-- `urllib.parse.unquote(s, 'utf-8', 'replace')`: maximal ASCII runs are
percent-decoded to bytes and UTF-8-decoded with replacement; non-ASCII
characters are kept as they are. -/
def pyUnquote (s : Str) : Str :=
  pyUnquoteGo (s.length + 1) s

/-- `+` to space translation done by `parse_qsl` before unquoting. -/
def plusToSpace (s : Str) : Str :=
  s.map (fun c => if c = '+' then ' ' else c)

/-- `name.replace('+', ' ')` followed by `unquote` — the treatment `parse_qsl`
applies to each name and value (equal to `unquote_plus`). -/
def pyUnquotePlus (s : Str) : Str := pyUnquote (plusToSpace s)

/-- Processing of one `&`-separated chunk by
`parse_qsl(qs, keep_blank_values=True)`: empty chunks are dropped, a chunk
without `=` becomes a pair with empty value, otherwise split at the first `=`;
both halves are unquoted. -/
def parseQslChunk (chunk : Str) : Option (Str × Str) :=
  if chunk = [] then none
  else
    match splitOnceLeft '=' chunk with
    | none => some (pyUnquotePlus chunk, [])
    | some (n, v) => some (pyUnquotePlus n, pyUnquotePlus v)

/-- `urllib.parse.parse_qsl(qs, keep_blank_values=True)`. -/
def parseQsl (qs : Str) : List (Str × Str) :=
  if qs = [] then []
  else (pySplitChar '&' qs).filterMap parseQslChunk

/-- Insertion into a Python `dict` of lists as done by `parse_qs`: append the
value to an existing key's list, else append a new key at the end. -/
def dictAppend (k : Str) (v : Str) : List (Str × List Str) → List (Str × List Str)
  | [] => [(k, [v])]
  | (k2, vs) :: rest =>
    if k2 = k then (k2, vs ++ [v]) :: rest else (k2, vs) :: dictAppend k v rest

/-- Grouping of `parse_qsl` pairs into an insertion-ordered dict
(`urllib.parse.parse_qs`). -/
def groupPairs (pairs : List (Str × Str)) : List (Str × List Str) :=
  pairs.foldl (fun d kv => dictAppend kv.1 kv.2 d) []

/-- `urllib.parse.parse_qs(qs, keep_blank_values=True)`. -/
def parseQs (qs : Str) : List (Str × List Str) :=
  groupPairs (parseQsl qs)

/-- `urlencode(items, doseq=False)`: `quote_plus` each name and value, join
pairs with `=` and chunks with `&`. -/
def urlencodeItems (items : List (Str × Str)) : Str :=
  pyJoinChar '&' (items.map (fun kv => quotePlus kv.1 ++ '=' :: quotePlus kv.2))

/-- Tokens of the pattern language of `normalizer.match_pattern`: the repo
builds the regex `^pattern$` after replacing `*` by `.*`, so a `*` matches any
(possibly empty) run of non-newline characters, a `.` matches one non-newline
character, and other characters match literally (regex metacharacters other
than `.` are not modelled; the repo's configured patterns, e.g. `utm_*`,
contain none). -/
inductive GlobTok where
  | lit (c : Char)
  | anyChar
  | star
deriving DecidableEq

/-- Tokenisation of a `match_pattern` pattern. -/
def globToks (pattern : Str) : List GlobTok :=
  pattern.map (fun c => if c = '*' then .star else if c = '.' then .anyChar else .lit c)

/-- Matching of the tokenised pattern against a string, anchored on both
sides; as with `re.match` + `$`, a single trailing newline may be left
unconsumed. -/
def globGo : Nat → List GlobTok → Str → Bool
  | 0, _, _ => false
  | _ + 1, [], s => decide (s = [] ∨ s = ['\n'])
  | _ + 1, .lit _ :: _, [] => false
  | fuel + 1, .lit c :: ts, x :: xs => x == c && globGo fuel ts xs
  | _ + 1, .anyChar :: _, [] => false
  | fuel + 1, .anyChar :: ts, x :: xs => x != '\n' && globGo fuel ts xs
  | fuel + 1, .star :: ts, [] => globGo fuel ts []
  | fuel + 1, .star :: ts, x :: xs =>
    globGo fuel ts (x :: xs) || (x != '\n' && globGo fuel (.star :: ts) xs)

/-- Matching of the tokenised pattern with enough fuel (each recursive call
shrinks the pattern or the string, so `|pattern| + |string| + 1` rounds always
suffice). -/
def globMatch (ts : List GlobTok) (s : Str) : Bool :=
  globGo (ts.length + s.length + 1) ts s

/-- `normalizer.match_pattern(text, pattern)`. -/
def matchPattern (text pattern : Str) : Bool :=
  globMatch (globToks pattern) text

/-- Boolean lexicographic `≤` on strings, as used by Python's `sorted` on
`str` (code-point comparison). -/
def strLeB : Str → Str → Bool
  | [], _ => true
  | _ :: _, [] => false
  | a :: as, b :: bs => if a < b then true else if a = b then strLeB as bs else false

/-- `sorted` on a list of strings. -/
def sortStr (l : List Str) : List Str :=
  l.insertionSort (fun a b => strLeB a b = true)

/-- Result of `urllib.parse.urlsplit`. -/
structure SplitResult where
  scheme : Str
  netloc : Str
  path : Str
  query : Str
  fragment : Str
deriving DecidableEq, Repr

/-- Result of `urllib.parse.urlparse`. -/
structure ParseResult where
  scheme : Str
  netloc : Str
  path : Str
  params : Str
  query : Str
  fragment : Str
deriving DecidableEq, Repr

/-- `urllib.parse.uses_netloc` (schemes for which `urlunsplit` emits `//`). -/
def usesNetloc : List Str :=
  ["", "ftp", "http", "gopher", "nntp", "telnet", "imap", "wais", "file",
    "mms", "https", "shttp", "snews", "prospero", "rtsp", "rtsps", "rtspu",
    "rsync", "svn", "svn+ssh", "sftp", "nfs", "git", "git+ssh", "ws",
    "wss"].map String.data

/-- `urllib.parse.uses_params` (schemes for which `urlparse` splits `;params`
off the last path segment). -/
def usesParams : List Str :=
  ["", "ftp", "hdl", "prospero", "http", "imap", "https", "shttp", "rtsp",
    "rtsps", "rtspu", "sip", "sips", "mms", "sftp", "tel"].map String.data

/-- The netloc terminator characters of `_splitnetloc`. -/
def isNetlocDelim (c : Char) : Bool := c = '/' ∨ c = '?' ∨ c = '#'

/-- Scheme recognition of `urlsplit`: if the text before the first `:` is
nonempty, starts with an ASCII letter and consists of scheme characters, it is
the scheme (lower-cased) and the remainder follows the colon. -/
def splitScheme (url : Str) : Str × Str :=
  match strFind ':' url with
  | some i =>
    if 0 < i ∧ (url.take 1).all isAsciiAlpha ∧ (url.take i).all isSchemeChar then
      (asciiLower (url.take i), url.drop (i + 1))
    else ([], url)
  | none => ([], url)

/-- `urllib.parse.urlsplit(url)` (with `allow_fragments=True` and no default
scheme); `Except.error` models the `ValueError` raised on mismatched netloc
brackets. -/
def pyUrlsplit (url0 : Str) : Except Unit SplitResult := do
  let url1 := cleanUrl url0
  let (scheme, rest) := splitScheme url1
  let (netloc, rest2) :=
    if rest.take 2 = ['/', '/'] then
      ((rest.drop 2).takeWhile (fun c => ¬ isNetlocDelim c),
        (rest.drop 2).dropWhile (fun c => ¬ isNetlocDelim c))
    else ([], rest)
  if ('[' ∈ netloc ∧ ']' ∉ netloc) ∨ (']' ∈ netloc ∧ '[' ∉ netloc) then
    throw ()
  let (rest3, fragment) :=
    match splitOnceLeft '#' rest2 with
    | some (a, b) => (a, b)
    | none => (rest2, [])
  let (path, query) :=
    match splitOnceLeft '?' rest3 with
    | some (a, b) => (a, b)
    | none => (rest3, [])
  return ⟨scheme, netloc, path, query, fragment⟩

/-- `urllib.parse._splitparams`. -/
def splitParams (p : Str) : Str × Str :=
  if '/' ∈ p then
    match strRfind '/' p with
    | some j =>
      match strFindFrom ';' p j with
      | some i => (p.take i, p.drop (i + 1))
      | none => (p, [])
    | none => (p, [])
  else
    match strFind ';' p with
    | some i => (p.take i, p.drop (i + 1))
    | none => (p, [])

/-- `urllib.parse.urlparse(url)`. -/
def pyUrlparse (url : Str) : Except Unit ParseResult := do
  let s ← pyUrlsplit url
  if s.scheme ∈ usesParams ∧ ';' ∈ s.path then
    let (p, par) := splitParams s.path
    return ⟨s.scheme, s.netloc, p, par, s.query, s.fragment⟩
  else
    return ⟨s.scheme, s.netloc, s.path, [], s.query, s.fragment⟩

/-- `urllib.parse.urlunsplit` (fragment argument restricted to the empty
string, which is what `normalize_url` passes). -/
def pyUrlunsplit (scheme netloc path query : Str) : Str :=
  let url := path
  let url :=
    if netloc ≠ [] ∨ (scheme ≠ [] ∧ scheme ∈ usesNetloc ∧ url.take 2 ≠ ['/', '/'])
    then
      '/' :: '/' :: netloc ++
        (if url ≠ [] ∧ url.take 1 ≠ ['/'] then '/' :: url else url)
    else url
  let url := if scheme ≠ [] then scheme ++ ':' :: url else url
  if query ≠ [] then url ++ '?' :: query else url

/-- `urllib.parse.urlunparse` (fragment restricted to the empty string). -/
def pyUrlunparse (scheme netloc path params query : Str) : Str :=
  let url := if params ≠ [] then path ++ ';' :: params else path
  pyUrlunsplit scheme netloc url query

/-- The `.`-and-`..` resolution loop of `normalizer.normalize_path`:
empty and `.` segments are dropped, `..` pops the last resolved segment,
anything else is appended. -/
def resolveComponents : List Str → List Str → List Str
  | [], acc => acc
  | c :: cs, acc =>
    if c = [] ∨ c = ['.'] then resolveComponents cs acc
    else if c = ['.', '.'] then resolveComponents cs acc.dropLast
    else resolveComponents cs (acc ++ [c])

/-- `normalizer.normalize_path`. -/
def normalizePath (path0 : Str) : Str :=
  if path0 = [] then ['/']
  else
    let path := if path0.take 1 ≠ ['/'] then '/' :: path0 else path0
    let resolved := resolveComponents (pySplitChar '/' path) []
    let result := '/' :: pyJoinChar '/' resolved
    if pyEndsWith '/' path ∧ result ≠ ['/'] then
      match resolved.getLast? with
      | some seg => if seg.count '.' = 0 then result ++ ['/'] else result
      | none => result
    else result

/-- The item list rebuilt by `normalizer.normalize_query` from the filtered
parameter dict: keys in sorted order, each key's values sorted. -/
def canonItems (filtered : List (Str × List Str)) : List (Str × Str) :=
  let sortedKeys := sortStr (filtered.map (·.1))
  sortedKeys.flatMap (fun k =>
    (sortStr ((filtered.lookup k).getD [])).map (fun v => (k, v)))

/-- `normalizer.normalize_query`: parse with blanks kept, drop keys matching
an ignore pattern, then re-encode keys in sorted order with each key's values
sorted. -/
def normalizeQuery (ignorePatterns : List Str) (query : Str) : Str :=
  if query = [] then []
  else
    let params := parseQs query
    let filtered := params.filter (fun kv => ¬ ignorePatterns.any (matchPattern kv.1))
    if filtered = [] then []
    else urlencodeItems (canonItems filtered)

/-- The default-port dropping step of `normalizer.normalize_url`: if the
(already lower-cased) netloc contains `:`, `rsplit` it and drop the port when
it is `int`-parseable and is the default port of the scheme. -/
def portDrop (scheme netloc : Str) : Str :=
  if ':' ∈ netloc then
    match splitOnceRight ':' netloc with
    | some (host, port) =>
      match pyIntOpt port with
      | some n =>
        if (scheme = "http".data ∧ n = 80) ∨ (scheme = "https".data ∧ n = 443)
        then host else netloc
      | none => netloc
    | none => netloc
  else netloc

/-- `normalizer.normalize_url` (without a base URL, which is how the frontier
and the crawl worker call it): lower-case the scheme (defaulting to `http`),
lower-case the netloc and drop a default port, normalize the path, filter and
sort the query, drop the fragment, and reassemble. -/
def normalizeUrl (ignorePatterns : List Str) (url : Str) : Except Unit Str := do
  let parsed ← pyUrlparse url
  let scheme := if parsed.scheme ≠ [] then asciiLower parsed.scheme else "http".data
  let netloc := portDrop scheme (asciiLower parsed.netloc)
  let path := normalizePath parsed.path
  let query := normalizeQuery ignorePatterns parsed.query
  return pyUrlunparse scheme netloc path parsed.params query

/-- State of `frontier.CrawlFrontier`: the FIFO of `(normalized_url, depth)`,
the `_visited` and `_in_frontier` sets (modelled as duplicate-free lists) and
the `_stats` counters. -/
structure FrontierState where
  queue : List (Str × Nat)
  visitedSet : List Str
  inFrontierSet : List Str
  statQueued : Nat
  statVisited : Nat
  statOk : Nat
  statFailed : Nat
  statSkipped : Nat
  statEnqueued : Nat
deriving DecidableEq, Repr

/-- The initial frontier (`CrawlFrontier.__init__`). -/
def FrontierState.init : FrontierState := ⟨[], [], [], 0, 0, 0, 0, 0, 0⟩

/-- `CrawlFrontier.enqueue(url, depth)`: normalize; on a normalization
exception return `False` unchanged; if the normalized URL is in `_visited` or
`_in_frontier`, return `False`; else add it to `_in_frontier`, push it, and
bump `enqueued` and `queued`. -/
def enqueueF (pats : List Str) (s : FrontierState) (url : Str) (depth : Nat) :
    Bool × FrontierState :=
  match normalizeUrl pats url with
  | .error _ => (false, s)
  | .ok n =>
    if n ∈ s.visitedSet ∨ n ∈ s.inFrontierSet then (false, s)
    else
      (true, { s with
        inFrontierSet := s.inFrontierSet.insert n
        queue := s.queue ++ [(n, depth)]
        statEnqueued := s.statEnqueued + 1
        statQueued := s.statQueued + 1 })

/-- `CrawlFrontier.dequeue()`: pop the queue head (blocking in the source, so
an empty queue yields no step here), move the URL from `_in_frontier` to
`_visited`, bump `visited`, drop `queued`. -/
def dequeueF (s : FrontierState) : Option ((Str × Nat) × FrontierState) :=
  match s.queue with
  | [] => none
  | (u, d) :: rest =>
    some ((u, d), { s with
      queue := rest
      inFrontierSet := s.inFrontierSet.erase u
      visitedSet := s.visitedSet.insert u
      statQueued := s.statQueued - 1
      statVisited := s.statVisited + 1 })

/-- `CrawlFrontier.mark_success(url)`: re-normalize and bump `ok` only when
the normalized URL is in `_visited` (a normalization exception propagates out
of the stats update, leaving the counters unchanged). -/
def markSuccessF (pats : List Str) (s : FrontierState) (url : Str) : FrontierState :=
  match normalizeUrl pats url with
  | .error _ => s
  | .ok n => if n ∈ s.visitedSet then { s with statOk := s.statOk + 1 } else s

/-- `CrawlFrontier.mark_failure(url, reason)`. -/
def markFailureF (pats : List Str) (s : FrontierState) (url : Str) : FrontierState :=
  match normalizeUrl pats url with
  | .error _ => s
  | .ok n => if n ∈ s.visitedSet then { s with statFailed := s.statFailed + 1 } else s

/-- `CrawlFrontier.mark_skipped(url, reason)`: bumps `skipped` unconditionally. -/
def markSkippedF (s : FrontierState) : FrontierState :=
  { s with statSkipped := s.statSkipped + 1 }

/-- A frontier operation: an `enqueue` call or a (completed) `dequeue` call. -/
inductive FOp where
  | enq (url : Str) (depth : Nat)
  | deq
deriving DecidableEq, Repr

/-- One frontier step; `deq` on an empty queue blocks, hence no state change
and no emitted URL.  The second component is the dequeued URL, if any. -/
def frontStep (pats : List Str) (s : FrontierState) : FOp → FrontierState × Option Str
  | .enq url depth => ((enqueueF pats s url depth).2, none)
  | .deq =>
    match dequeueF s with
    | none => (s, none)
    | some ((u, _), s2) => (s2, some u)

/-- Run a sequence of frontier operations from a state, collecting the trace
of dequeued URLs. -/
def frontRun (pats : List Str) (s : FrontierState) :
    List FOp → FrontierState × List Str
  | [] => (s, [])
  | op :: ops =>
    let (s2, emitted) := frontStep pats s op
    let (s3, trace) := frontRun pats s2 ops
    (s3, emitted.toList ++ trace)

/-- Per-URL outcome of `CrawlWorker._process_url` as seen by the frontier:
exactly one of `mark_success`, `mark_failure`, `mark_skipped` per dequeued
URL (`crawler.py` lines 106-199 and the exception handler in `run`). -/
inductive MarkKind where
  | success
  | failure
  | skipped
deriving DecidableEq, Repr

/-- A crawl-level operation: an enqueue, or a worker iteration that dequeues
the next URL and applies exactly one mark to it. -/
inductive COp where
  | enq (url : Str) (depth : Nat)
  | proc (k : MarkKind)
deriving DecidableEq, Repr

/-- One crawl step.  `proc` dequeues (no-op if the queue is empty, as the
worker would just keep blocking) and applies the mark to the dequeued URL,
exactly as `CrawlWorker.run`/`_process_url` do. -/
def crawlStep (pats : List Str) (s : FrontierState) : COp → FrontierState
  | .enq url depth => (enqueueF pats s url depth).2
  | .proc k =>
    match dequeueF s with
    | none => s
    | some ((u, _), s2) =>
      match k with
      | .success => markSuccessF pats s2 u
      | .failure => markFailureF pats s2 u
      | .skipped => markSkippedF s2

/-- Run a sequence of crawl operations from the initial frontier. -/
def crawlRun (pats : List Str) (ops : List COp) : FrontierState :=
  ops.foldl (crawlStep pats) FrontierState.init

/-- `ratelimit.TokenBucket` (floats modelled as rationals). -/
structure TokenBucket where
  rate : ℚ
  capacity : ℚ
  tokens : ℚ
  lastUpdate : ℚ
deriving DecidableEq, Repr

/-- Python `int(x)` on a non-negative float/rational: truncation (= floor). -/
def pyTruncNonneg (q : ℚ) : ℤ := ⌊q⌋

/-- `TokenBucket.__init__(rate, capacity=None)` at time `now`: the capacity
defaults to `max(1, int(rate))` (`capacity or max(1, int(rate))`, and the
per-domain limiter always constructs `TokenBucket(rate)` with the default);
the bucket starts full. -/
def TokenBucket.init (rate : ℚ) (now : ℚ) : TokenBucket :=
  let cap : ℚ := max 1 ((pyTruncNonneg rate : ℤ) : ℚ)
  ⟨rate, cap, cap, now⟩

/-- `TokenBucket.acquire(tokens=1)` at time `now`: refill by elapsed time
times rate, capped at capacity; set `last_update`; succeed and decrement
exactly when at least one token is available. -/
def TokenBucket.acquire (b : TokenBucket) (now : ℚ) : Bool × TokenBucket :=
  let refilled := min b.capacity (b.tokens + (now - b.lastUpdate) * b.rate)
  if 1 ≤ refilled then
    (true, { b with tokens := refilled - 1, lastUpdate := now })
  else
    (false, { b with tokens := refilled, lastUpdate := now })

/-- `robots.RobotsChecker.can_fetch(url, user_agent)`: the body of the method
in the source returns `True` unconditionally ("robots.txt checking
temporarily disabled"). -/
def canFetch (url : Str) (userAgent : Str) : Bool :=
  true

/-- A saved page record (`storage.CrawlStorage.save_page` arguments). -/
structure PageRec where
  url : Str
  depth : Nat
  articleKeys : List Str
  statusCode : Option Nat
  ok : Bool
  reason : Option Str
deriving DecidableEq, Repr

/-- The environment of one `CrawlWorker._process_url` call: the values the
awaited calls return.  `robotsAllow` is the result of
`robots_checker.can_fetch` (an injected dependency; the repository's
implementation is `canFetch`, which always allows), `rateOk` the result of
`rate_limiter.wait_for_permission(url, timeout=30.0)`, `ctypeAllowed` the
second component of `fetch_and_check_content_type`, `extractOk` the `success`
flag of `extract_page_content`, and `assetResults` whatever
`_capture_assets` produced. -/
structure WorkerEnv where
  respectRobots : Bool
  robotsAllow : Bool
  rateOk : Bool
  ctypeAllowed : Bool
  extractOk : Bool
  articleKeys : List Str
  assetResults : List (Str × Option (List Nat))
deriving Repr

/-- Dispatch outcome of `_process_url`. -/
inductive UrlOutcome where
  | skippedRobots
  | failedRateLimit
  | skippedContentType
  | failedExtract
  | succeeded
deriving DecidableEq, Repr

/-- The mark applied to the frontier for each outcome. -/
def UrlOutcome.mark : UrlOutcome → MarkKind
  | .skippedRobots => .skipped
  | .failedRateLimit => .failure
  | .skippedContentType => .skipped
  | .failedExtract => .failure
  | .succeeded => .success

/-- `CrawlWorker._process_url(url, depth)`: the dispatch order of the source
(robots check when `respect_robots`, then rate limit with 30 s timeout, then
content type, then extraction), together with the page records written by
each branch.  An extraction failure writes a record with `ok=False` and the
reason `"Content extraction failed"`; success writes a record with `ok=True`
and `status_code=200` regardless of `assetResults`. -/
def processUrl (env : WorkerEnv) (url : Str) (depth : Nat) :
    UrlOutcome × List PageRec :=
  if env.respectRobots ∧ ¬ env.robotsAllow then (.skippedRobots, [])
  else if ¬ env.rateOk then (.failedRateLimit, [])
  else if ¬ env.ctypeAllowed then (.skippedContentType, [])
  else if ¬ env.extractOk then
    (.failedExtract,
      [⟨url, depth, [], none, false, some "Content extraction failed".data⟩])
  else
    (.succeeded, [⟨url, depth, env.articleKeys, some 200, true, none⟩])

/-- `extract.download_asset`'s streaming loop: accumulate chunks, returning
`None` as soon as the accumulated content exceeds the byte limit. -/
def dlChunks (maxBytes : Nat) (content : List Nat) :
    List (List Nat) → Option (List Nat)
  | [] => some content
  | ch :: rest =>
    let c2 := content ++ ch
    if c2.length > maxBytes then none else dlChunks maxBytes c2 rest

/-- `extract.download_asset(url, max_size_mb)`: reject on a nonempty
`Content-Length` header above the cap (an unparsable header raises and the
surrounding `except` returns `None`), then stream chunks under the cap. -/
def downloadAsset : Nat → Option Str → List (List Nat) → Option (List Nat)
  | maxSizeMb, none, chunks => dlChunks (maxSizeMb * 1024 * 1024) [] chunks
  | maxSizeMb, some s, chunks =>
    if s ≠ [] then
      match pyIntOpt s with
      | some n =>
        if n > ((maxSizeMb * 1024 * 1024 : Nat) : Int) then none
        else dlChunks (maxSizeMb * 1024 * 1024) [] chunks
      | none => none
    else dlChunks (maxSizeMb * 1024 * 1024) [] chunks

/-- A JSON value, for the export records of `storage.py`. -/
inductive JVal where
  | jstr (s : Str)
  | jnum (n : Int)
  | jbool (b : Bool)
  | jnull
  | jobj (fields : List (Str × JVal))
  | jarr (elems : List JVal)

/-- Python `dict` insertion: overwrite the value of an existing key in place,
else append the new key. -/
def dictInsert (k : Str) (v : JVal) : List (Str × JVal) → List (Str × JVal)
  | [] => [(k, v)]
  | (k2, v2) :: rest =>
    if k2 = k then (k2, v) :: rest else (k2, v2) :: dictInsert k v rest

/-- A stored page file, with the fields `save_page` always writes and the
extractor payload `article_result` as a JSON dict. -/
structure PageData where
  url : Str
  depth : Nat
  statusCode : Option Nat
  ok : Bool
  timestamp : Str
  articleResult : List (Str × JVal)

/-- JSON encoding of an optional status code. -/
def jOfStatus : Option Nat → JVal
  | some n => .jnum n
  | none => .jnull

/-- The five explicit fields of the export record of `export_jsonl`. -/
def exportBase (p : PageData) : List (Str × JVal) :=
  [("url".data, .jstr p.url), ("depth".data, .jnum p.depth),
    ("ok".data, .jbool p.ok), ("status_code".data, jOfStatus p.statusCode),
    ("timestamp".data, .jstr p.timestamp)]

/-- The export record `export_jsonl` builds for one page file: the dict
literal `{url, depth, ok, status_code, timestamp, **article_result}` (the
starred payload is inserted last, with dict override semantics). -/
def exportRecord (p : PageData) : List (Str × JVal) :=
  p.articleResult.foldl (fun d kv => dictInsert kv.1 kv.2 d) (exportBase p)

/-- `storage.CrawlStorage.export_jsonl`: one output line (here: one record)
per stored page file. -/
def exportJsonl (pages : List PageData) : List (List (Str × JVal)) :=
  pages.map exportRecord

/-- C3: on the concrete URL
`HTTP://Example.COM:80/a/./b/../c?b=2&utm_source=x&a=1#frag` with
`ignore_query_patterns=["utm_*"]`, `normalize_url` returns exactly
`http://example.com/a/c?a=1&b=2`: scheme and host lower-cased, default port 80
dropped, `.` and `..` segments resolved, `utm_source` removed by anchored glob
match, remaining query keys sorted, fragment dropped. -/
theorem normalize_url_concrete :
    normalizeUrl ["utm_*".data]
      "HTTP://Example.COM:80/a/./b/../c?b=2&utm_source=x&a=1#frag".data =
      .ok "http://example.com/a/c?a=1&b=2".data := by
  rfl

/-- C2 (divergence witness): the repository's `RobotsChecker.can_fetch`
returns `True` for `http://example.com/private/x` (indeed for every URL and
agent), although the spec requires `False` for a URL disallowed by the cached
body `User-agent: *\nDisallow: /private`; the robots-skip branch of the
worker is therefore unreachable. -/
theorem can_fetch_always_allows :
    canFetch "http://example.com/private/x".data "*".data = true ∧
    ∀ url agent : Str, canFetch url agent = true := by
  exact ⟨rfl, fun _ _ => rfl⟩

/-- C5 counterexample: for rate `r = 3/2` the freshly created bucket has
capacity `max(1, int(1.5)) = 1`, not the claimed `max(1, ⌈1.5⌉) = 2`
(`TokenBucket.__init__` truncates the rate with `int`, it does not take the
ceiling). -/
theorem token_bucket_capacity_not_ceil :
    (TokenBucket.init (3/2) 0).capacity = 1 ∧
    max 1 ((⌈(3/2 : ℚ)⌉ : ℤ) : ℚ) = 2 ∧
    (TokenBucket.init (3/2) 0).capacity ≠ max 1 ((⌈(3/2 : ℚ)⌉ : ℤ) : ℚ) := by
  have hceil : (⌈(3/2 : ℚ)⌉ : ℤ) = 2 := by
    rw [Int.ceil_eq_iff] <;> norm_num
  have hfloor : (⌊(3/2 : ℚ)⌋ : ℤ) = 1 := by
    rw [Int.floor_eq_iff] <;> norm_num
  rw [TokenBucket.init, pyTruncNonneg]
  rw [hceil, hfloor]
  norm_num

/-- C5 amended: for every rate `r > 0`, a freshly created per-domain token
bucket has capacity `max(1, ⌊r⌋)` (truncation of `r`, so capacity 1 for
`r = 1.5`) and starts full; on every acquire it first refills the tokens by
`(now − last_update) · r` capped at the capacity and sets
`last_update = now`, then succeeds and decrements by one exactly when the
refilled amount is at least 1. -/
theorem token_bucket_init_acquire (r now t : ℚ) (b : TokenBucket) (hr : 0 < r) :
    (TokenBucket.init r now).capacity = max 1 ((⌊r⌋ : ℤ) : ℚ) ∧
    (TokenBucket.init r now).tokens = (TokenBucket.init r now).capacity ∧
    (TokenBucket.init r now).lastUpdate = now ∧
    (b.acquire t).2.lastUpdate = t ∧
    ((b.acquire t).1 = true ↔
      1 ≤ min b.capacity (b.tokens + (t - b.lastUpdate) * b.rate)) ∧
    ((b.acquire t).1 = true →
      (b.acquire t).2.tokens =
        min b.capacity (b.tokens + (t - b.lastUpdate) * b.rate) - 1) ∧
    ((b.acquire t).1 = false →
      (b.acquire t).2.tokens =
        min b.capacity (b.tokens + (t - b.lastUpdate) * b.rate)) := by
  refine ⟨rfl, rfl, rfl, ?_, ?_, ?_, ?_⟩ <;>
    simp only [TokenBucket.acquire] <;> split <;> simp_all

/-- C5 witness: the amended statement instantiated at rate `3/2`, creation
time `0`, and an acquire at time `2` on the fresh bucket. -/
theorem token_bucket_init_acquire_witness :
    (0 : ℚ) < 3/2 ∧
    (TokenBucket.init (3/2) 0).capacity = max 1 ((⌊(3/2 : ℚ)⌋ : ℤ) : ℚ) ∧
    ((TokenBucket.init (3/2) 0).acquire 2).2.lastUpdate = 2 := by
  have h := token_bucket_init_acquire (3/2) 0 2 (TokenBucket.init (3/2) 0)
    (by norm_num)
  exact ⟨by norm_num, h.1, h.2.2.2.1⟩

/-- C10: `normalize_path` is total and anchored: for every input string the
result starts with `/`; when every segment resolves away (including the empty
string and paths of only `.`, `..` and empty segments) the result is exactly
`/`; and the `resolved[-1]` access in the trailing-slash heuristic is only
reached when the resolved segment list is nonempty. -/
theorem normalize_path_total_anchored (path : Str) :
    (normalizePath path).take 1 = ['/'] ∧
    (resolveComponents (pySplitChar '/'
        (if path.take 1 ≠ ['/'] then '/' :: path else path)) [] = [] →
      normalizePath path = ['/']) ∧
    (normalizePath path ≠ ['/'] →
      (resolveComponents (pySplitChar '/'
        (if path.take 1 ≠ ['/'] then '/' :: path else path)) []).getLast?.isSome) := by
  by_cases hemp : path = []
  · subst hemp
    refine ⟨rfl, fun _ => rfl, fun h => absurd rfl h⟩
  · have hres : ∀ r : List Str, r = [] →
        ('/' :: pyJoinChar '/' r : Str) = ['/'] := by
      intro r hr; subst hr; rfl
    constructor
    · simp only [normalizePath, hemp, if_neg hemp]
      repeat' split
      all_goals simp [pyJoinChar]
    · constructor
      · intro hnil
        simp only [normalizePath, if_neg hemp]
        rw [hnil, show pyJoinChar '/' ([] : List Str) = [] from rfl]
        simp
      · intro hne
        rw [Option.isSome_iff_ne_none, Ne, List.getLast?_eq_none_iff]
        intro hnil
        apply hne
        simp only [normalizePath, if_neg hemp]
        rw [hnil, show pyJoinChar '/' ([] : List Str) = [] from rfl]
        simp

/-- C10 witness: the statement instantiated at the path `a/../`, whose
segments all resolve away. -/
theorem normalize_path_total_anchored_witness :
    normalizePath "a/../".data = ['/'] := by
  have h := normalize_path_total_anchored "a/../".data
  exact h.2.1 rfl

theorem dlChunks_some_le (m : Nat) :
    ∀ (l : List (List Nat)) (c out : List Nat),
      c.length ≤ m → dlChunks m c l = some out → out.length ≤ m := by
  intro l
  induction l with
  | nil =>
    intro c out hc h
    simp only [dlChunks] at h
    cases h
    exact hc
  | cons ch rest ih =>
    intro c out hc h
    simp only [dlChunks] at h
    by_cases h2 : (c ++ ch).length > m
    · rw [if_pos h2] at h
      cases h
    · rw [if_neg h2] at h
      exact ih (c ++ ch) out (by omega) h

theorem dlChunks_overflow_none (m : Nat) :
    ∀ (l : List (List Nat)) (c : List Nat),
      c.length ≤ m → (c ++ l.flatten).length > m → dlChunks m c l = none := by
  intro l
  induction l with
  | nil =>
    intro c hc hover
    simp at hover
    omega
  | cons ch rest ih =>
    intro c hc hover
    simp only [dlChunks]
    by_cases h2 : (c ++ ch).length > m
    · rw [if_pos h2]
    · rw [if_neg h2]
      refine ih (c ++ ch) (by omega) ?_
      simp only [List.flatten_cons, List.length_append] at hover ⊢
      omega

theorem downloadAsset_none_eq (mb : Nat) (chunks : List (List Nat)) :
    downloadAsset mb none chunks = dlChunks (mb * 1024 * 1024) [] chunks := rfl

theorem downloadAsset_some_eq (mb : Nat) (s : Str) (chunks : List (List Nat)) :
    downloadAsset mb (some s) chunks =
      (if s ≠ [] then
        match pyIntOpt s with
        | some n =>
          if n > ((mb * 1024 * 1024 : Nat) : Int) then none
          else dlChunks (mb * 1024 * 1024) [] chunks
        | none => none
      else dlChunks (mb * 1024 * 1024) [] chunks) := rfl

/-- C8: the asset size cap.  `download_asset` never returns a byte string
longer than `max_asset_size_mb * 1024 * 1024`; it returns `None` when the
`Content-Length` header exceeds the cap or the streamed total exceeds it; and
in the success branch of `_process_url` the parent page is saved with
`ok=true` irrespective of the asset capture results. -/
theorem download_asset_cap (mb : Nat) (cl : Option Str) (chunks : List (List Nat))
    (s : Str) (n : Int) (env : WorkerEnv) (url : Str) (depth : Nat) :
    (∀ content, downloadAsset mb cl chunks = some content →
      content.length ≤ mb * 1024 * 1024) ∧
    (s ≠ [] → pyIntOpt s = some n → n > ((mb * 1024 * 1024 : Nat) : Int) →
      downloadAsset mb (some s) chunks = none) ∧
    (chunks.flatten.length > mb * 1024 * 1024 → downloadAsset mb cl chunks = none) ∧
    ((env.respectRobots = true → env.robotsAllow = true) → env.rateOk = true →
      env.ctypeAllowed = true → env.extractOk = true →
      processUrl env url depth =
        (.succeeded, [⟨url, depth, env.articleKeys, some 200, true, none⟩])) := by
  have base : ∀ content, dlChunks (mb * 1024 * 1024) [] chunks = some content →
      content.length ≤ mb * 1024 * 1024 :=
    fun content hh => dlChunks_some_le _ chunks [] content (by simp) hh
  refine ⟨?_, ?_, ?_, ?_⟩
  · intro content h
    rcases cl with _ | s2
    · rw [downloadAsset_none_eq] at h
      exact base content h
    · rw [downloadAsset_some_eq] at h
      by_cases hs : s2 = ([] : Str)
      · rw [if_neg (by simp [hs])] at h
        exact base content h
      · rw [if_pos hs] at h
        rcases hint : pyIntOpt s2 with _ | n2 <;> rw [hint] at h <;>
          dsimp only at h
        · cases h
        · by_cases hgt : n2 > ((mb * 1024 * 1024 : Nat) : Int)
          · rw [if_pos hgt] at h
            cases h
          · rw [if_neg hgt] at h
            exact base content h
  · intro hs hint hgt
    rw [downloadAsset_some_eq, if_pos hs, hint]
    dsimp only
    rw [if_pos hgt]
  · intro hover
    have bnone : dlChunks (mb * 1024 * 1024) [] chunks = none :=
      dlChunks_overflow_none _ chunks [] (by simp) (by simpa using hover)
    rcases cl with _ | s2
    · rw [downloadAsset_none_eq]
      exact bnone
    · rw [downloadAsset_some_eq]
      by_cases hs : s2 = ([] : Str)
      · rw [if_neg (by simp [hs])]
        exact bnone
      · rw [if_pos hs]
        rcases hint : pyIntOpt s2 with _ | n2 <;> dsimp only
        by_cases hgt : n2 > ((mb * 1024 * 1024 : Nat) : Int)
        · rw [if_pos hgt]
        · rw [if_neg hgt]
          exact bnone
  · intro h1 h2 h3 h4
    have hra : env.respectRobots ∧ ¬ env.robotsAllow → False := by
      rintro ⟨ha, hb⟩
      exact hb (by simp [h1 ha])
    simp [processUrl, h2, h3, h4, hra]
    exact h1

/-- C8 witness: the cap statement instantiated at `max_asset_size_mb = 1`, a
`Content-Length` header of 2000000 (above the 1 MiB cap, so the asset is
dropped) and a worker environment whose checks all pass. -/
theorem download_asset_cap_witness :
    downloadAsset 1 (some "2000000".data) [[0]] = none ∧
    (processUrl ⟨true, true, true, true, true, [], []⟩ "u".data 0).2 =
      [⟨"u".data, 0, [], some 200, true, none⟩] := by
  have h := download_asset_cap 1 (some "2000000".data) [[0]] "2000000".data
    2000000 ⟨true, true, true, true, true, [], []⟩ "u".data 0
  refine ⟨h.2.1 (by simp) (by rfl) (by norm_num), ?_⟩
  rw [h.2.2.2 (fun _ => rfl) rfl rfl rfl]

theorem lookup_cons_eq (k : Str) (kv : Str × JVal) (rest : List (Str × JVal))
    (h : k = kv.1) : ((kv :: rest).lookup k) = some kv.2 := by
  have hb : (k == kv.1) = true := by simpa using h
  simp [List.lookup, hb]

theorem lookup_cons_ne (k : Str) (kv : Str × JVal) (rest : List (Str × JVal))
    (h : ¬ k = kv.1) : ((kv :: rest).lookup k) = rest.lookup k := by
  have hb : (k == kv.1) = false := by simpa using h
  simp [List.lookup, hb]

theorem lookup_append (k : Str) (xs ys : List (Str × JVal)) :
    (xs ++ ys).lookup k = ((xs.lookup k).or (ys.lookup k)) := by
  induction xs with
  | nil => simp
  | cons kv rest ih =>
    by_cases h : k = kv.1
    · rw [List.cons_append, lookup_cons_eq k kv (rest ++ ys) h,
        lookup_cons_eq k kv rest h]
      rfl
    · rw [List.cons_append, lookup_cons_ne k kv (rest ++ ys) h,
        lookup_cons_ne k kv rest h, ih]

theorem dictInsert_lookup (k : Str) (v : JVal) (d : List (Str × JVal)) (k2 : Str) :
    (dictInsert k v d).lookup k2 = if k2 = k then some v else d.lookup k2 := by
  induction d with
  | nil =>
    simp only [dictInsert]
    by_cases h : k2 = k
    · rw [lookup_cons_eq k2 (k, v) [] h, if_pos h]
    · rw [lookup_cons_ne k2 (k, v) [] h, if_neg h]
  | cons kv rest ih =>
    simp only [dictInsert]
    by_cases hk : kv.1 = k
    · rw [if_pos hk]
      by_cases h : k2 = k
      · rw [lookup_cons_eq k2 (kv.1, v) rest (by simpa [hk] using h), if_pos h]
      · rw [lookup_cons_ne k2 (kv.1, v) rest (by simpa [hk] using h), if_neg h,
          lookup_cons_ne k2 kv rest (by simpa [hk] using h)]
    · rw [if_neg hk]
      by_cases h2 : k2 = kv.1
      · have hne : ¬ k2 = k := fun hh => hk (h2 ▸ hh)
        rw [lookup_cons_eq k2 kv (dictInsert k v rest) h2, if_neg hne,
          lookup_cons_eq k2 kv rest h2]
      · rw [lookup_cons_ne k2 kv (dictInsert k v rest) h2, ih,
          lookup_cons_ne k2 kv rest h2]

theorem foldl_dictInsert_lookup (l : List (Str × JVal)) :
    ∀ (base : List (Str × JVal)) (k : Str),
      (l.foldl (fun d kv => dictInsert kv.1 kv.2 d) base).lookup k =
        ((l.reverse.lookup k).or (base.lookup k)) := by
  induction l with
  | nil => simp
  | cons kv rest ih =>
    intro base k
    simp only [List.foldl_cons, List.reverse_cons]
    rw [ih, lookup_append, Option.or_assoc, dictInsert_lookup]
    by_cases h : k = kv.1
    · rw [lookup_cons_eq k kv [] h, if_pos h]
      rfl
    · rw [lookup_cons_ne k kv [] h, if_neg h]
      rfl

/-- C9: the JSONL export writes exactly one record per stored page (so 3 OK
pages and 1 failure yield exactly 4 lines); each record carries the keys
`url`, `depth`, `ok`, `status_code` and `timestamp`, and the extractor
payload `article_result` is spread at the top level with dict override
semantics (the looked-up value of a payload key is the payload's, later
duplicates winning). -/
theorem export_jsonl_shape (pages : List PageData) (p : PageData) :
    (exportJsonl pages).length = pages.length ∧
    (∀ k : Str, (exportRecord p).lookup k =
      ((p.articleResult.reverse.lookup k).or ((exportBase p).lookup k))) ∧
    ((exportRecord p).lookup "url".data).isSome ∧
    ((exportRecord p).lookup "depth".data).isSome ∧
    ((exportRecord p).lookup "ok".data).isSome ∧
    ((exportRecord p).lookup "status_code".data).isSome ∧
    ((exportRecord p).lookup "timestamp".data).isSome := by
  have hspread : ∀ k : Str, (exportRecord p).lookup k =
      ((p.articleResult.reverse.lookup k).or ((exportBase p).lookup k)) :=
    fun k => foldl_dictInsert_lookup p.articleResult (exportBase p) k
  have hbase : ∀ k : Str, ((exportBase p).lookup k).isSome →
      ((exportRecord p).lookup k).isSome := by
    intro k hk
    rw [hspread k]
    cases harticle : p.articleResult.reverse.lookup k
    · rw [Option.none_or]
      exact hk
    · rw [Option.or_some]
      rfl
  refine ⟨by simp [exportJsonl], hspread, ?_, ?_, ?_, ?_, ?_⟩ <;>
    apply hbase <;> rfl

/-- C6: worker failure semantics per dequeued URL, following the dispatch
order of `_process_url`: a robots rejection or a disallowed content type
yields a skip mark and no page record; a rate-limit timeout yields a failure
mark and no page record; an extraction failure yields a failure mark and a
page record with `ok=false` and the reason `Content extraction failed`. -/
theorem process_url_failure_semantics (env : WorkerEnv) (url : Str) (depth : Nat) :
    (env.respectRobots = true → env.robotsAllow = false →
      processUrl env url depth = (.skippedRobots, []) ∧
      (processUrl env url depth).1.mark = .skipped) ∧
    ((env.respectRobots = true → env.robotsAllow = true) → env.rateOk = false →
      processUrl env url depth = (.failedRateLimit, []) ∧
      (processUrl env url depth).1.mark = .failure) ∧
    ((env.respectRobots = true → env.robotsAllow = true) → env.rateOk = true →
      env.ctypeAllowed = false →
      processUrl env url depth = (.skippedContentType, []) ∧
      (processUrl env url depth).1.mark = .skipped) ∧
    ((env.respectRobots = true → env.robotsAllow = true) → env.rateOk = true →
      env.ctypeAllowed = true → env.extractOk = false →
      processUrl env url depth =
        (.failedExtract, [⟨url, depth, [], none, false,
          some "Content extraction failed".data⟩]) ∧
      (processUrl env url depth).1.mark = .failure) := by
  refine ⟨?_, ?_, ?_, ?_⟩
  · intro h1 h2
    have : processUrl env url depth = (.skippedRobots, []) := by
      simp [processUrl, h1, h2]
    exact ⟨this, by rw [this]; rfl⟩
  · intro h1 h2
    have hra : ¬ (env.respectRobots = true ∧ env.robotsAllow = false) := by
      rintro ⟨ha, hb⟩
      rw [h1 ha] at hb
      cases hb
    have : processUrl env url depth = (.failedRateLimit, []) := by
      simp [processUrl, h2, hra]
    exact ⟨this, by rw [this]; rfl⟩
  · intro h1 h2 h3
    have hra : ¬ (env.respectRobots = true ∧ env.robotsAllow = false) := by
      rintro ⟨ha, hb⟩
      rw [h1 ha] at hb
      cases hb
    have : processUrl env url depth = (.skippedContentType, []) := by
      simp [processUrl, h2, h3, hra]
    exact ⟨this, by rw [this]; rfl⟩
  · intro h1 h2 h3 h4
    have hra : ¬ (env.respectRobots = true ∧ env.robotsAllow = false) := by
      rintro ⟨ha, hb⟩
      rw [h1 ha] at hb
      cases hb
    have : processUrl env url depth =
        (.failedExtract, [⟨url, depth, [], none, false,
          some "Content extraction failed".data⟩]) := by
      simp [processUrl, h2, h3, h4, hra]
    exact ⟨this, by rw [this]; rfl⟩

/-- C6 witness: the four dispatch branches exercised on concrete worker
environments (robots rejection, rate-limit timeout, content-type rejection,
extraction failure). -/
theorem process_url_failure_semantics_witness :
    processUrl ⟨true, false, true, true, true, [], []⟩ "u".data 0 =
      (.skippedRobots, []) ∧
    processUrl ⟨true, true, false, true, true, [], []⟩ "u".data 0 =
      (.failedRateLimit, []) ∧
    processUrl ⟨true, true, true, false, true, [], []⟩ "u".data 0 =
      (.skippedContentType, []) ∧
    processUrl ⟨true, true, true, true, false, [], []⟩ "u".data 0 =
      (.failedExtract, [⟨"u".data, 0, [], none, false,
        some "Content extraction failed".data⟩]) := by
  refine ⟨?_, ?_, ?_, ?_⟩
  · exact ((process_url_failure_semantics
      ⟨true, false, true, true, true, [], []⟩ "u".data 0).1 rfl rfl).1
  · exact ((process_url_failure_semantics
      ⟨true, true, false, true, true, [], []⟩ "u".data 0).2.1
      (fun _ => rfl) rfl).1
  · exact ((process_url_failure_semantics
      ⟨true, true, true, false, true, [], []⟩ "u".data 0).2.2.1
      (fun _ => rfl) rfl rfl).1
  · exact ((process_url_failure_semantics
      ⟨true, true, true, true, false, [], []⟩ "u".data 0).2.2.2
      (fun _ => rfl) rfl rfl rfl).1

/-- Invariant of a frontier state: queued URLs are pairwise distinct and all
registered in `_in_frontier`, `_in_frontier` is disjoint from `_visited`, and
both sets are duplicate-free. -/
def InvF (s : FrontierState) : Prop :=
  (s.queue.map Prod.fst).Nodup ∧
  (∀ p ∈ s.queue, p.1 ∈ s.inFrontierSet) ∧
  (∀ u ∈ s.inFrontierSet, u ∉ s.visitedSet) ∧
  s.inFrontierSet.Nodup ∧
  s.visitedSet.Nodup

theorem invF_init : InvF FrontierState.init := by
  refine ⟨?_, ?_, ?_, ?_, ?_⟩ <;> simp [FrontierState.init]


theorem nodup_insertStr (a : Str) (l : List Str) (h : l.Nodup) :
    (l.insert a).Nodup := by
  rw [List.insert_eq]
  split
  · exact h
  · exact List.nodup_cons.mpr ⟨by assumption, h⟩

theorem enqueueF_visitedSet (pats : List Str) (s : FrontierState) (url : Str)
    (depth : Nat) : (enqueueF pats s url depth).2.visitedSet = s.visitedSet := by
  simp only [enqueueF]
  cases normalizeUrl pats url
  · rfl
  · dsimp only
    split <;> rfl

theorem enqueueF_invF (pats : List Str) (s : FrontierState) (url : Str)
    (depth : Nat) (hs : InvF s) : InvF (enqueueF pats s url depth).2 := by
  obtain ⟨hq, hqf, hdisj, hfn, hvn⟩ := hs
  simp only [enqueueF]
  cases hnorm : normalizeUrl pats url
  · exact ⟨hq, hqf, hdisj, hfn, hvn⟩
  · dsimp only
    split
    · exact ⟨hq, hqf, hdisj, hfn, hvn⟩
    · rename_i n hmem
      push_neg at hmem
      obtain ⟨hnv, hnf⟩ := hmem
      dsimp only [InvF]
      refine ⟨?_, ?_, ?_, ?_, hvn⟩
      · rw [List.map_append, List.nodup_append]
        refine ⟨hq, by simp, ?_⟩
        intro x hx
        simp only [List.map_cons, List.map_nil, List.mem_singleton]
        rintro rfl
        obtain ⟨p, hp, hp2⟩ := List.mem_map.mp hx
        exact hnf (hp2 ▸ hqf p hp)
      · intro p hp
        rcases List.mem_append.mp hp with h | h
        · exact List.mem_insert_iff.mpr (Or.inr (hqf p h))
        · simp only [List.mem_singleton] at h
          subst h
          exact List.mem_insert_iff.mpr (Or.inl rfl)
      · intro u hu
        rcases List.mem_insert_iff.mp hu with rfl | h
        · exact hnv
        · exact hdisj u h
      · exact nodup_insertStr n s.inFrontierSet hfn

theorem dequeueF_invF (s : FrontierState) (u : Str) (d : Nat)
    (s2 : FrontierState) (hs : InvF s) (h : dequeueF s = some ((u, d), s2)) :
    InvF s2 ∧ u ∉ s.visitedSet ∧ u ∈ s2.visitedSet ∧
      s.visitedSet ⊆ s2.visitedSet := by
  obtain ⟨hq, hqf, hdisj, hfn, hvn⟩ := hs
  rcases hqe : s.queue with _ | ⟨⟨u2, d2⟩, rest⟩
  · rw [dequeueF, hqe] at h
    cases h
  · rw [dequeueF, hqe] at h
    dsimp only at h
    injection h with h'
    injection h' with h1 h2
    obtain ⟨hu, hd⟩ := Prod.mk.inj h1
    rw [hu] at h2
    rw [hu, hd] at hqe
    subst h2
    rw [hqe] at hq hqf
    rw [List.map_cons] at hq
    obtain ⟨hnotmem, hqrest⟩ := List.nodup_cons.mp hq
    have huf : u ∈ s.inFrontierSet := hqf (u, d) (by simp)
    have huv : u ∉ s.visitedSet := hdisj u huf
    refine ⟨⟨hqrest, ?_, ?_, ?_, ?_⟩, huv, ?_, ?_⟩
    · intro p hp
      dsimp only at hp ⊢
      have hne : p.1 ≠ u := by
        intro hpe
        have hmm : p.1 ∈ rest.map Prod.fst := List.mem_map_of_mem Prod.fst hp
        rw [hpe] at hmm
        exact hnotmem hmm
      rw [List.mem_erase_of_ne hne]
      exact hqf p (by simp [hp])
    · intro v hv
      dsimp only at hv ⊢
      have hvf : v ∈ s.inFrontierSet := List.erase_subset _ _ hv
      have hvne : v ≠ u := by
        intro he
        exact (hfn.not_mem_erase) (he ▸ hv)
      rw [List.mem_insert_iff]
      push_neg
      exact ⟨hvne, hdisj v hvf⟩
    · exact ((List.erase_sublist _ _).nodup) hfn
    · exact nodup_insertStr u s.visitedSet hvn
    · exact List.mem_insert_self u s.visitedSet
    · intro v hv
      exact List.mem_insert_of_mem hv

theorem count_le_one_of_nodupStr (u : Str) (l : List Str) (h : l.Nodup) :
    l.count u ≤ 1 := by
  induction l with
  | nil => simp
  | cons x xs ih =>
    obtain ⟨hx, hxs⟩ := List.nodup_cons.mp h
    by_cases he : x = u
    · subst he
      have hz : xs.count x = 0 := List.count_eq_zero.mpr hx
      simp [List.count_cons, hz]
    · have hb : (x == u) = false := by simpa using he
      simp [List.count_cons, hb]
      exact ih hxs

theorem frontRun_nodup (pats : List Str) :
    ∀ (ops : List FOp) (s : FrontierState), InvF s →
      (frontRun pats s ops).2.Nodup ∧
      ∀ u ∈ (frontRun pats s ops).2, u ∉ s.visitedSet := by
  intro ops
  induction ops with
  | nil =>
    intro s hs
    exact ⟨List.nodup_nil, by simp [frontRun]⟩
  | cons op rest ih =>
    intro s hs
    rcases op with ⟨url, depth⟩ | _
    · have hstep : frontRun pats s (FOp.enq url depth :: rest) =
          ((frontRun pats (enqueueF pats s url depth).2 rest).1,
            (frontRun pats (enqueueF pats s url depth).2 rest).2) := by
        simp [frontRun, frontStep]
      rw [hstep]
      obtain ⟨h1, h2⟩ := ih (enqueueF pats s url depth).2
        (enqueueF_invF pats s url depth hs)
      refine ⟨h1, fun u hu => ?_⟩
      have := h2 u hu
      rw [enqueueF_visitedSet] at this
      exact this
    · rcases hdq : dequeueF s with _ | ⟨⟨u2, d2⟩, s2⟩
      · have hstep : frontRun pats s (FOp.deq :: rest) =
            ((frontRun pats s rest).1, (frontRun pats s rest).2) := by
          simp [frontRun, frontStep, hdq]
        rw [hstep]
        exact ih s hs
      · obtain ⟨hinv2, huv, huv2, hsub⟩ := dequeueF_invF s u2 d2 s2 hs hdq
        have hstep : frontRun pats s (FOp.deq :: rest) =
            ((frontRun pats s2 rest).1, u2 :: (frontRun pats s2 rest).2) := by
          simp [frontRun, frontStep, hdq]
        rw [hstep]
        obtain ⟨h1, h2⟩ := ih s2 hinv2
        refine ⟨List.nodup_cons.mpr ⟨fun hmem => (h2 u2 hmem) huv2, h1⟩, ?_⟩
        intro u hu
        rcases List.mem_cons.mp hu with rfl | hmem
        · exact huv
        · intro hin
          exact (h2 u hmem) (hsub hin)

/-- C1: deduplicating enqueue and at-most-once dequeue.  When normalization
succeeds, `enqueue` returns `False` and leaves the state unchanged whenever
the normalized URL is already seen (visited or in frontier), and otherwise
returns `True` and pushes it exactly once (registering it in `_in_frontier`
and bumping `enqueued`); consequently, over any sequence of frontier
operations starting from a fresh frontier, each normalized URL is dequeued at
most once. -/
theorem frontier_dedup_at_most_once (pats : List Str) (s : FrontierState)
    (url : Str) (depth : Nat) (n : Str) (ops : List FOp) (u : Str) :
    (normalizeUrl pats url = .ok n →
      ((n ∈ s.visitedSet ∨ n ∈ s.inFrontierSet) →
        enqueueF pats s url depth = (false, s)) ∧
      (n ∉ s.visitedSet → n ∉ s.inFrontierSet →
        (enqueueF pats s url depth).1 = true ∧
        (enqueueF pats s url depth).2.queue = s.queue ++ [(n, depth)] ∧
        (enqueueF pats s url depth).2.inFrontierSet = s.inFrontierSet.insert n ∧
        (enqueueF pats s url depth).2.statEnqueued = s.statEnqueued + 1)) ∧
    (frontRun pats FrontierState.init ops).2.count u ≤ 1 := by
  constructor
  · intro hn
    constructor
    · intro hmem
      simp only [enqueueF]
      rw [hn]
      dsimp only
      rw [if_pos hmem]
    · intro h1 h2
      simp only [enqueueF]
      rw [hn]
      dsimp only
      rw [if_neg (by push_neg; exact ⟨h1, h2⟩)]
      exact ⟨rfl, rfl, rfl, rfl⟩
  · have h := frontRun_nodup pats ops FrontierState.init invF_init
    exact count_le_one_of_nodupStr u _ h.1

/-- C1 witness: the enqueue contract and the dequeue-at-most-once bound
instantiated on a concrete run (enqueue the same URL twice and dequeue
twice). -/
theorem frontier_dedup_at_most_once_witness :
    (enqueueF [] FrontierState.init "http://e.com/a".data 0).1 = true ∧
    (frontRun [] FrontierState.init
      [FOp.enq "http://e.com/a".data 0, FOp.enq "http://e.com/a".data 0,
        FOp.deq, FOp.deq]).2.count "http://e.com/a".data ≤ 1 := by
  have h := frontier_dedup_at_most_once [] FrontierState.init
    "http://e.com/a".data 0 "http://e.com/a".data
    [FOp.enq "http://e.com/a".data 0, FOp.enq "http://e.com/a".data 0,
      FOp.deq, FOp.deq] "http://e.com/a".data
  refine ⟨((h.1 (by rfl)).2 (by simp [FrontierState.init])
    (by simp [FrontierState.init])).1, h.2⟩

/-- Invariant for the stats identity: `visited = ok + failed + skipped`,
`enqueued = visited + |queue|`, and every queued URL is a fixpoint of
normalization. -/
def InvC (pats : List Str) (s : FrontierState) : Prop :=
  s.statVisited = s.statOk + s.statFailed + s.statSkipped ∧
  s.statEnqueued = s.statVisited + s.queue.length ∧
  (∀ p ∈ s.queue, normalizeUrl pats p.1 = .ok p.1)

theorem invC_init (pats : List Str) : InvC pats FrontierState.init := by
  refine ⟨rfl, rfl, ?_⟩
  intro p hp
  simp [FrontierState.init] at hp

theorem crawlStep_invC (pats : List Str) (s : FrontierState) (op : COp)
    (hs : InvC pats s)
    (hop : ∀ url depth, op = COp.enq url depth →
      ∀ n, normalizeUrl pats url = .ok n → normalizeUrl pats n = .ok n) :
    InvC pats (crawlStep pats s op) := by
  obtain ⟨hid, henq, hqfix⟩ := hs
  rcases op with ⟨url, depth⟩ | k
  · simp only [crawlStep, enqueueF]
    rcases hnorm : normalizeUrl pats url with _ | n
    · exact ⟨hid, henq, hqfix⟩
    · dsimp only
      split
      · exact ⟨hid, henq, hqfix⟩
      · refine ⟨hid, ?_, ?_⟩
        · dsimp only
          rw [List.length_append]
          simp only [List.length_cons, List.length_nil]
          omega
        · intro p hp
          dsimp only at hp
          rcases List.mem_append.mp hp with h | h
          · exact hqfix p h
          · simp only [List.mem_singleton] at h
            subst h
            exact hop url depth rfl n hnorm
  · simp only [crawlStep]
    rcases hqe : s.queue with _ | ⟨⟨u, d⟩, rest⟩
    · rw [dequeueF, hqe]
      exact ⟨hid, henq, hqfix⟩
    · rw [dequeueF, hqe]
      dsimp only
      rw [hqe] at henq hqfix
      have hufix : normalizeUrl pats u = .ok u := hqfix (u, d) (by simp)
      have hrest : ∀ p ∈ rest, normalizeUrl pats p.1 = .ok p.1 :=
        fun p hp => hqfix p (by simp [hp])
      rcases k with _ | _ | _
      · simp only [markSuccessF]
        rw [hufix]
        dsimp only
        rw [if_pos (List.mem_insert_self u s.visitedSet)]
        refine ⟨by dsimp only; omega, by dsimp only; simp at henq; omega, hrest⟩
      · simp only [markFailureF]
        rw [hufix]
        dsimp only
        rw [if_pos (List.mem_insert_self u s.visitedSet)]
        refine ⟨by dsimp only; omega, by dsimp only; simp at henq; omega, hrest⟩
      · simp only [markSkippedF]
        refine ⟨by dsimp only; omega, by dsimp only; simp at henq; omega, hrest⟩

theorem crawlRun_invC_aux (pats : List Str) :
    ∀ (ops : List COp) (s : FrontierState), InvC pats s →
      (∀ url depth, COp.enq url depth ∈ ops →
        ∀ n, normalizeUrl pats url = .ok n → normalizeUrl pats n = .ok n) →
      InvC pats (ops.foldl (crawlStep pats) s) := by
  intro ops
  induction ops with
  | nil => exact fun s hs _ => hs
  | cons op rest ih =>
    intro s hs hfix
    rw [List.foldl_cons]
    refine ih (crawlStep pats s op) ?_ ?_
    · refine crawlStep_invC pats s op hs ?_
      intro url depth hop n h1
      exact hfix url depth (hop ▸ List.mem_cons_self op rest) n h1
    · intro url depth hmem n h1
      exact hfix url depth (List.mem_cons_of_mem op hmem) n h1

/-- C7 counterexample: the claim fails on the code.  Enqueue the URL
`http://example.com:80:80/x` (whose normalized form
`http://example.com:80/x` is not a fixpoint of normalization) and let a
worker process it successfully: `mark_success` re-normalizes the dequeued URL
to `http://example.com/x`, misses the `_visited` set, and does not bump `ok`,
so after termination `visited = 1` while `ok + failed + skipped = 0`. -/
theorem crawl_stats_identity_fails :
    ¬ ((crawlRun [] [COp.enq "http://example.com:80:80/x".data 0,
        COp.proc .success]).statVisited =
      (crawlRun [] [COp.enq "http://example.com:80:80/x".data 0,
        COp.proc .success]).statOk +
      (crawlRun [] [COp.enq "http://example.com:80:80/x".data 0,
        COp.proc .success]).statFailed +
      (crawlRun [] [COp.enq "http://example.com:80:80/x".data 0,
        COp.proc .success]).statSkipped) := by
  intro h
  have h1 : (crawlRun [] [COp.enq "http://example.com:80:80/x".data 0,
      COp.proc .success]).statVisited = 1 := by rfl
  have h2 : (crawlRun [] [COp.enq "http://example.com:80:80/x".data 0,
      COp.proc .success]).statOk = 0 := by rfl
  have h3 : (crawlRun [] [COp.enq "http://example.com:80:80/x".data 0,
      COp.proc .success]).statFailed = 0 := by rfl
  have h4 : (crawlRun [] [COp.enq "http://example.com:80:80/x".data 0,
      COp.proc .success]).statSkipped = 0 := by rfl
  rw [h1, h2, h3, h4] at h
  cases h

/-- C7 amended: for every crawl job whose enqueued URLs normalize to
fixpoints of the canonicalizer (the worker discipline being: each dequeued
URL receives exactly one of `mark_success`, `mark_failure`, `mark_skipped`),
the frontier statistics satisfy `visited = ok + failed + skipped` and
`enqueued ≥ visited` at every point, in particular at termination. -/
theorem crawl_stats_identity (pats : List Str) (ops : List COp)
    (hfix : ∀ url depth, COp.enq url depth ∈ ops →
      ∀ n, normalizeUrl pats url = .ok n → normalizeUrl pats n = .ok n) :
    (crawlRun pats ops).statVisited =
      (crawlRun pats ops).statOk + (crawlRun pats ops).statFailed +
        (crawlRun pats ops).statSkipped ∧
    (crawlRun pats ops).statVisited ≤ (crawlRun pats ops).statEnqueued := by
  have h := crawlRun_invC_aux pats ops FrontierState.init (invC_init pats) hfix
  simp only [crawlRun]
  exact ⟨h.1, by have := h.2.1; omega⟩

/-- C7 witness: the amended statement on the concrete job that enqueues
`http://example.com/x` (a normalization fixpoint) and processes it with a
success mark. -/
theorem crawl_stats_identity_witness :
    (crawlRun [] [COp.enq "http://example.com/x".data 0,
      COp.proc .success]).statVisited =
      (crawlRun [] [COp.enq "http://example.com/x".data 0,
        COp.proc .success]).statOk +
      (crawlRun [] [COp.enq "http://example.com/x".data 0,
        COp.proc .success]).statFailed +
      (crawlRun [] [COp.enq "http://example.com/x".data 0,
        COp.proc .success]).statSkipped := by
  refine (crawl_stats_identity [] [COp.enq "http://example.com/x".data 0,
    COp.proc .success] ?_).1
  intro url depth hmem n h1
  simp only [List.mem_cons, List.not_mem_nil, or_false] at hmem
  rcases hmem with h | h
  · cases h
    rw [show normalizeUrl [] "http://example.com/x".data =
      .ok "http://example.com/x".data from rfl] at h1
    cases h1
    rfl
  · cases h

theorem char_toNat_ofNat (n : Nat) (h : n.isValidChar) :
    (Char.ofNat n).toNat = n := by
  simp only [Char.ofNat, h, dif_pos, Char.ofNatAux, Char.toNat, UInt32.toNat]
  simp

theorem utf8EncodeChar_ne_nil (c : Char) : utf8EncodeChar c ≠ [] := by
  unfold utf8EncodeChar
  dsimp only
  split
  · simp
  · split
    · simp
    · split <;> simp

theorem utf8Step_encode (c : Char) (bs : List Nat) :
    ∃ hd tl, utf8EncodeChar c = hd :: tl ∧ utf8Step hd (tl ++ bs) = (c, bs) := by
  have hv : c.toNat < 0xd800 ∨ (0xe000 ≤ c.toNat ∧ c.toNat < 0x110000) := c.valid
  unfold utf8EncodeChar
  by_cases h1 : c.toNat < 0x80
  · refine ⟨c.toNat, [], by rw [if_pos h1], ?_⟩
    rw [utf8Step.eq_def, if_pos (by omega)]
    rw [show Char.ofNat c.toNat = c from Char.ofNat_toNat c]
    simp
  · by_cases h2 : c.toNat < 0x800
    · refine ⟨0xc0 + c.toNat / 0x40, [0x80 + c.toNat % 0x40],
        by rw [if_neg h1, if_pos h2], ?_⟩
      rw [utf8Step.eq_def, if_neg (by omega), if_pos (by constructor <;> omega)]
      simp only [List.cons_append, isContByte]
      rw [if_pos (by simp; omega)]
      have harith : (0xc0 + c.toNat / 0x40 - 0xc0) * 0x40 +
          (0x80 + c.toNat % 0x40 - 0x80) = c.toNat := by omega
      rw [harith, Char.ofNat_toNat]
      simp
    · by_cases h3 : c.toNat < 0x10000
      · refine ⟨0xe0 + c.toNat / 0x1000,
          [0x80 + (c.toNat / 0x40) % 0x40, 0x80 + c.toNat % 0x40],
          by rw [if_neg h1, if_neg h2, if_pos h3], ?_⟩
        have hq : c.toNat / 0x1000 < 0x10 := by omega
        rw [utf8Step.eq_def, if_neg (by omega), if_neg (by omega),
          if_pos (by constructor <;> omega)]
        simp only [List.cons_append]
        rw [if_pos ?side]
        case side =>
          simp only [utf8SecondLo, utf8SecondHi]
          constructor
          · split
            · rename_i he
              have : c.toNat / 0x1000 = 0 := by omega
              omega
            · split <;> omega
          · split
            · rename_i he
              have : c.toNat / 0x1000 = 0xd := by omega
              omega
            · split <;> omega
        simp only [isContByte]
        rw [if_pos (by simp; omega)]
        have harith : (0xe0 + c.toNat / 0x1000 - 0xe0) * 0x1000 +
            (0x80 + (c.toNat / 0x40) % 0x40 - 0x80) * 0x40 +
            (0x80 + c.toNat % 0x40 - 0x80) = c.toNat := by omega
        rw [harith, Char.ofNat_toNat]
        simp
      · refine ⟨0xf0 + c.toNat / 0x40000,
          [0x80 + (c.toNat / 0x1000) % 0x40, 0x80 + (c.toNat / 0x40) % 0x40,
            0x80 + c.toNat % 0x40],
          by rw [if_neg h1, if_neg h2, if_neg h3], ?_⟩
        have hq : c.toNat / 0x40000 ≤ 4 := by omega
        rw [utf8Step.eq_def, if_neg (by omega), if_neg (by omega), if_neg (by omega),
          if_pos (by constructor <;> omega)]
        simp only [List.cons_append]
        rw [if_pos ?side2]
        case side2 =>
          simp only [utf8SecondLo, utf8SecondHi]
          constructor
          · split
            · omega
            · split
              · rename_i hne he
                have : c.toNat / 0x40000 = 0 := by omega
                omega
              · omega
          · split
            · rename_i he
              have : c.toNat / 0x40000 = 4 := by omega
              omega
            · split <;> omega
        simp only [isContByte]
        rw [if_pos (by simp; omega), if_pos (by simp; omega)]
        have harith : (0xf0 + c.toNat / 0x40000 - 0xf0) * 0x40000 +
            (0x80 + (c.toNat / 0x1000) % 0x40 - 0x80) * 0x1000 +
            (0x80 + (c.toNat / 0x40) % 0x40 - 0x80) * 0x40 +
            (0x80 + c.toNat % 0x40 - 0x80) = c.toNat := by omega
        rw [harith, Char.ofNat_toNat]
        simp

theorem utf8DecodeGo_encode :
    ∀ (s : List Char) (fuel : Nat), (pyUtf8Encode s).length ≤ fuel →
      utf8DecodeGo fuel (pyUtf8Encode s) = s := by
  intro s
  induction s with
  | nil =>
    intro fuel _
    cases fuel <;> rfl
  | cons c cs ih =>
    intro fuel hf
    obtain ⟨hd, tl, henc, hstep⟩ := utf8Step_encode c (pyUtf8Encode cs)
    have hlen : (pyUtf8Encode (c :: cs)).length =
        (utf8EncodeChar c).length + (pyUtf8Encode cs).length := by
      simp [pyUtf8Encode]
    rcases fuel with _ | f
    · rw [henc] at hlen
      simp at hlen
      omega
    · show utf8DecodeGo (f + 1) (pyUtf8Encode (c :: cs)) = c :: cs
      have hexp : pyUtf8Encode (c :: cs) = hd :: (tl ++ pyUtf8Encode cs) := by
        show utf8EncodeChar c ++ pyUtf8Encode cs = _
        rw [henc]
        simp
      rw [hexp]
      rw [utf8DecodeGo, hstep]
      rw [henc] at hlen
      simp only [List.length_cons] at hlen
      rw [hexp] at hf
      simp only [List.length_cons, List.length_append] at hf
      exact congrArg (c :: ·) (ih f (by omega))

theorem utf8DecodeReplace_encode (s : List Char) :
    utf8DecodeReplace (pyUtf8Encode s) = s :=
  utf8DecodeGo_encode s (pyUtf8Encode s).length le_rfl

theorem unquoteGo_congr :
    ∀ (f1 : Nat) (f2 : Nat) (s : Str), s.length ≤ f1 → s.length ≤ f2 →
      unquoteGo f1 s = unquoteGo f2 s := by
  intro f1
  induction f1 with
  | zero =>
    intro f2 s h1 _
    have : s = [] := List.length_eq_zero.mp (Nat.le_zero.mp h1)
    subst this
    cases f2 <;> rfl
  | succ f ih =>
    intro f2 s h1 h2
    rcases s with _ | ⟨c, rest⟩
    · cases f2 <;> rfl
    · rcases f2 with _ | f2p
      · simp at h2
      · simp only [List.length_cons] at h1 h2
        rw [unquoteGo.eq_def, unquoteGo.eq_def]
        dsimp only
        by_cases hc : c = '%'
        · rw [if_pos hc, if_pos hc]
          rcases rest with _ | ⟨a, rest1⟩
          · dsimp only
            rw [ih f2p [] (by omega) (by omega)]
          · rcases rest1 with _ | ⟨b, rest2⟩
            · dsimp only
              rw [ih f2p [a] (by simp at h1 ⊢; omega) (by simp at h2 ⊢; omega)]
            · dsimp only
              simp only [List.length_cons] at h1 h2
              rcases ha : hexVal a with _ | x <;>
                rcases hb2 : hexVal b with _ | y <;> dsimp only
              · rw [ih f2p (a :: b :: rest2)
                  (by simp; omega) (by simp; omega)]
              · rw [ih f2p (a :: b :: rest2)
                  (by simp; omega) (by simp; omega)]
              · rw [ih f2p (a :: b :: rest2)
                  (by simp; omega) (by simp; omega)]
              · rw [ih f2p rest2 (by omega) (by omega)]
        · rw [if_neg hc, if_neg hc, ih f2p rest (by omega) (by omega)]

theorem unquoteBytesAscii_cons_ne (c : Char) (rest : Str) (h : ¬ c = '%') :
    unquoteBytesAscii (c :: rest) = c.toNat :: unquoteBytesAscii rest := by
  show unquoteGo (rest.length + 1) (c :: rest) = _
  rw [unquoteGo.eq_def]
  dsimp only
  rw [if_neg h]
  rfl

theorem unquoteBytesAscii_pct (a b : Char) (rest : Str) (x y : Nat)
    (ha : hexVal a = some x) (hb : hexVal b = some y) :
    unquoteBytesAscii ('%' :: a :: b :: rest) =
      (16 * x + y) :: unquoteBytesAscii rest := by
  show unquoteGo (rest.length + 3) ('%' :: a :: b :: rest) = _
  rw [show rest.length + 3 = (rest.length + 2) + 1 from rfl, unquoteGo.eq_def]
  dsimp only
  rw [if_pos rfl]
  rw [ha, hb]
  dsimp only
  rw [unquoteGo_congr (rest.length + 2) rest.length rest (by omega) le_rfl]
  rfl

theorem hexVal_hexUpper : ∀ x : Nat, x < 16 → hexVal (hexUpper x) = some x := by
  decide

theorem hexUpper_ne_plus : ∀ x : Nat, x < 16 → ¬ hexUpper x = '+' := by
  decide

theorem hexUpper_ne_pct : ∀ x : Nat, x < 16 → ¬ hexUpper x = '%' := by
  decide

theorem utf8EncodeChar_lt (c : Char) : ∀ b ∈ utf8EncodeChar c, b < 256 := by
  have hv : c.toNat < 0xd800 ∨ (0xe000 ≤ c.toNat ∧ c.toNat < 0x110000) := c.valid
  unfold utf8EncodeChar
  dsimp only
  split
  · intro b hb
    simp at hb
    omega
  · split
    · intro b hb
      simp at hb
      rcases hb with h | h <;> omega
    · split
      · intro b hb
        simp at hb
        rcases hb with h | h | h <;> omega
      · intro b hb
        simp at hb
        rcases hb with h | h | h | h <;> omega

theorem pyUtf8Encode_lt (s : Str) : ∀ b ∈ pyUtf8Encode s, b < 256 := by
  induction s with
  | nil => simp [pyUtf8Encode]
  | cons c cs ih =>
    intro b hb
    rcases List.mem_append.mp hb with h | h
    · exact utf8EncodeChar_lt c b h
    · exact ih b h

theorem plusToSpace_append (s t : Str) :
    plusToSpace (s ++ t) = plusToSpace s ++ plusToSpace t := by
  simp [plusToSpace]

theorem unquote_plusToSpace_quoteByte (b : Nat) (hb : b < 256) (rest : Str) :
    unquoteBytesAscii (plusToSpace (quotePlusByte b ++ rest)) =
      b :: unquoteBytesAscii (plusToSpace rest) := by
  rw [plusToSpace_append]
  by_cases hsafe : isAlwaysSafeByte b
  · rw [show quotePlusByte b = [Char.ofNat b] by rw [quotePlusByte, if_pos hsafe]]
    have hvalid : (Nat.isValidChar b) := Or.inl (by omega)
    have htn : (Char.ofNat b).toNat = b := char_toNat_ofNat b hvalid
    have hne : ¬ Char.ofNat b = '+' := by
      intro he
      rw [he] at htn
      revert hsafe
      rw [show ('+').toNat = 0x2b from rfl] at htn
      rw [← htn]
      decide
    have hne2 : ¬ Char.ofNat b = '%' := by
      intro he
      rw [he] at htn
      revert hsafe
      rw [show ('%').toNat = 0x25 from rfl] at htn
      rw [← htn]
      decide
    rw [show plusToSpace [Char.ofNat b] = [Char.ofNat b] by
      simp [plusToSpace, hne]]
    rw [List.singleton_append, unquoteBytesAscii_cons_ne _ _ hne2, htn]
  · by_cases hsp : b = 0x20
    · rw [show quotePlusByte b = ['+'] by
        rw [quotePlusByte, if_neg hsafe, if_pos hsp]]
      rw [show plusToSpace ['+'] = [' '] from rfl]
      rw [List.singleton_append, unquoteBytesAscii_cons_ne _ _ (by decide), hsp]
      rfl
    · rw [show quotePlusByte b = ['%', hexUpper (b / 16), hexUpper (b % 16)] by
        rw [quotePlusByte, if_neg hsafe, if_neg hsp]]
      have h16 : b / 16 < 16 := by omega
      have h16b : b % 16 < 16 := by omega
      rw [show plusToSpace ['%', hexUpper (b / 16), hexUpper (b % 16)] =
          ['%', hexUpper (b / 16), hexUpper (b % 16)] by
        simp [plusToSpace, hexUpper_ne_plus _ h16, hexUpper_ne_plus _ h16b]]
      rw [List.cons_append, List.cons_append, List.cons_append, List.nil_append]
      rw [unquoteBytesAscii_pct _ _ _ _ _ (hexVal_hexUpper _ h16)
        (hexVal_hexUpper _ h16b)]
      congr 1
      omega

theorem unquote_plusToSpace_quote_bytes :
    ∀ (bytes : List Nat), (∀ b ∈ bytes, b < 256) →
      unquoteBytesAscii (plusToSpace (bytes.flatMap quotePlusByte)) = bytes := by
  intro bytes
  induction bytes with
  | nil => intro _; rfl
  | cons b bs ih =>
    intro hlt
    rw [List.flatMap_cons,
      unquote_plusToSpace_quoteByte b (hlt b (by simp)) (bs.flatMap quotePlusByte),
      ih (fun b2 hb2 => hlt b2 (by simp [hb2]))]

/-- Characters that `quote_plus` can emit: always-safe bytes, `%`, `+`. -/
def isQuoteSafeChar (c : Char) : Bool :=
  isAlwaysSafeByte c.toNat ∨ c.toNat = 0x25 ∨ c.toNat = 0x2b

theorem hexUpper_quoteSafe : ∀ x : Nat, x < 16 →
    isQuoteSafeChar (hexUpper x) = true := by
  decide

theorem quotePlusByte_class (b : Nat) (hb : b < 256) :
    ∀ c ∈ quotePlusByte b, isQuoteSafeChar c = true := by
  intro c hc
  unfold quotePlusByte at hc
  by_cases hsafe : isAlwaysSafeByte b
  · rw [if_pos hsafe] at hc
    simp only [List.mem_singleton] at hc
    subst hc
    have htn : (Char.ofNat b).toNat = b := char_toNat_ofNat b (Or.inl (by omega))
    simp [isQuoteSafeChar, htn, hsafe]
  · rw [if_neg hsafe] at hc
    by_cases hsp : b = 0x20
    · rw [if_pos hsp] at hc
      simp only [List.mem_singleton] at hc
      subst hc
      decide
    · rw [if_neg hsp] at hc
      simp only [List.mem_cons, List.mem_singleton, List.not_mem_nil,
        or_false] at hc
      rcases hc with h | h | h
      · subst h; decide
      · subst h; exact hexUpper_quoteSafe _ (by omega)
      · subst h; exact hexUpper_quoteSafe _ (by omega)

theorem quotePlus_class (s : Str) :
    ∀ c ∈ quotePlus s, isQuoteSafeChar c = true := by
  intro c hc
  unfold quotePlus at hc
  obtain ⟨b, hb, hcb⟩ := List.mem_flatMap.mp hc
  exact quotePlusByte_class b (pyUtf8Encode_lt s b hb) c hcb

theorem quoteSafe_toNat (c : Char) (h : isQuoteSafeChar c = true) :
    0x25 ≤ c.toNat ∧ c.toNat ≤ 0x7e := by
  simp only [isQuoteSafeChar, isAlwaysSafeByte, decide_eq_true_eq,
    Bool.or_eq_true] at h
  rcases h with h | h
  · rcases h with h | h | h | h | h | h | h <;> omega
  · rcases h with h | h <;> omega

theorem quoteSafe_ascii (c : Char) (h : isQuoteSafeChar c = true) :
    isAsciiChar c = true := by
  have := quoteSafe_toNat c h
  simp only [isAsciiChar, decide_eq_true_eq]
  omega

theorem quoteSafe_ne (c : Char) (h : isQuoteSafeChar c = true) (k : Char)
    (hk : isQuoteSafeChar k = false) : ¬ c = k := by
  intro he
  rw [he, hk] at h
  cases h

theorem plusToSpace_ascii (l : Str) (h : ∀ c ∈ l, isAsciiChar c = true) :
    ∀ c ∈ plusToSpace l, isAsciiChar c = true := by
  intro c hc
  obtain ⟨c2, hc2, hcc⟩ := List.mem_map.mp hc
  by_cases hp : c2 = '+'
  · rw [if_pos hp] at hcc
    subst hcc
    decide
  · rw [if_neg hp] at hcc
    subst hcc
    exact h c2 hc2

theorem pyUnquote_allAscii (t : Str) (h : ∀ c ∈ t, isAsciiChar c = true) :
    pyUnquote t = utf8DecodeReplace (unquoteBytesAscii t) := by
  have hdrop : t.dropWhile isAsciiChar = [] :=
    List.dropWhile_eq_nil_iff.mpr h
  have htake : t.takeWhile isAsciiChar = t := by
    have := List.takeWhile_append_dropWhile (p := isAsciiChar) (l := t)
    rw [hdrop] at this
    simpa using this
  show pyUnquoteGo (t.length + 1) t = _
  rw [pyUnquoteGo, hdrop, htake]

theorem pyUnquotePlus_quotePlus (s : Str) : pyUnquotePlus (quotePlus s) = s := by
  unfold pyUnquotePlus
  rw [pyUnquote_allAscii _ (plusToSpace_ascii _
    (fun c hc => quoteSafe_ascii c (quotePlus_class s c hc)))]
  rw [show unquoteBytesAscii (plusToSpace (quotePlus s)) = pyUtf8Encode s from
    unquote_plusToSpace_quote_bytes (pyUtf8Encode s) (pyUtf8Encode_lt s)]
  exact utf8DecodeReplace_encode s

theorem strFind_append_cons (c : Char) (xs ys : Str) (h : c ∉ xs) :
    strFind c (xs ++ c :: ys) = some xs.length := by
  induction xs with
  | nil => simp [strFind, List.findIdx?_cons]
  | cons x rest ih =>
    have hx : ¬ x = c := fun he => h (by simp [he])
    have hr : c ∉ rest := fun hm => h (by simp [hm])
    simp only [List.cons_append, strFind, List.findIdx?_cons]
    rw [if_neg (by simpa using hx)]
    rw [show (0 + 1 : Nat) = 0 + 1 from rfl, List.findIdx?_succ]
    have := ih hr
    simp only [strFind] at this
    rw [this]
    simp

theorem splitOnceLeft_append_cons (c : Char) (xs ys : Str) (h : c ∉ xs) :
    splitOnceLeft c (xs ++ c :: ys) = some (xs, ys) := by
  rw [splitOnceLeft, strFind_append_cons c xs ys h]
  simp only [Option.map]
  congr 1
  refine Prod.ext ?_ ?_
  · simp [List.take_left]
  · show (xs ++ c :: ys).drop (xs.length + 1) = ys
    rw [List.drop_append 1]
    rfl

theorem splitOn_intercalate_sep (sep : Char) (pieces : List Str)
    (hne : pieces ≠ []) (hsep : ∀ p ∈ pieces, sep ∉ p) :
    pySplitChar sep (pyJoinChar sep pieces) = pieces :=
  List.splitOn_intercalate pieces sep hsep hne

theorem filterMap_eq_self_of_some {α : Type} (f : α → Option α) :
    ∀ (l : List α), (∀ x ∈ l, f x = some x) → l.filterMap f = l := by
  intro l
  induction l with
  | nil => intro _; rfl
  | cons x rest ih =>
    intro h
    rw [List.filterMap_cons, h x (by simp), ih (fun y hy => h y (by simp [hy]))]

theorem eq_ne_of_quoteSafe (c : Char) (h : isQuoteSafeChar c = true) :
    ¬ c = '=' ∧ ¬ c = '&' := by
  exact ⟨quoteSafe_ne c h '=' (by decide), quoteSafe_ne c h '&' (by decide)⟩

theorem parseQslChunk_urlencode (kv : Str × Str) :
    parseQslChunk (quotePlus kv.1 ++ '=' :: quotePlus kv.2) = some kv := by
  have hne : quotePlus kv.1 ++ '=' :: quotePlus kv.2 ≠ [] := by simp
  rw [parseQslChunk, if_neg (by simpa using hne)]
  rw [splitOnceLeft_append_cons '=' _ _
    (fun hm => (eq_ne_of_quoteSafe _ (quotePlus_class kv.1 _ hm)).1 rfl)]
  dsimp only
  rw [pyUnquotePlus_quotePlus, pyUnquotePlus_quotePlus]

theorem parseQsl_urlencode (items : List (Str × Str)) :
    parseQsl (urlencodeItems items) = items := by
  rcases items with _ | ⟨kv, rest⟩
  · rfl
  · have hqs : urlencodeItems (kv :: rest) =
        pyJoinChar '&' ((kv :: rest).map
          (fun kv => quotePlus kv.1 ++ '=' :: quotePlus kv.2)) := rfl
    have hchunks : pySplitChar '&' (urlencodeItems (kv :: rest)) =
        (kv :: rest).map (fun kv => quotePlus kv.1 ++ '=' :: quotePlus kv.2) := by
      rw [hqs]
      refine splitOn_intercalate_sep '&' _ (by simp) ?_
      intro p hp hmem
      obtain ⟨kv2, _, hkv2⟩ := List.mem_map.mp hp
      subst hkv2
      rcases List.mem_append.mp hmem with h | h
      · exact (eq_ne_of_quoteSafe _ (quotePlus_class kv2.1 _ h)).2 rfl
      · rcases List.mem_cons.mp h with h | h
        · cases h
        · exact (eq_ne_of_quoteSafe _ (quotePlus_class kv2.2 _ h)).2 rfl
    have hne : urlencodeItems (kv :: rest) ≠ [] := by
      intro he
      have : parseQslChunk (quotePlus kv.1 ++ '=' :: quotePlus kv.2) = some kv :=
        parseQslChunk_urlencode kv
      have hmem : (quotePlus kv.1 ++ '=' :: quotePlus kv.2) ∈
          pySplitChar '&' (urlencodeItems (kv :: rest)) := by
        rw [hchunks]
        simp
      rw [he] at hmem
      have : ('=' : Char) ∈ (quotePlus kv.1 ++ '=' :: quotePlus kv.2) := by simp
      have hsub : (quotePlus kv.1 ++ '=' :: quotePlus kv.2) = [] ∨
          (quotePlus kv.1 ++ '=' :: quotePlus kv.2) = [] := by
        simpa [pySplitChar] using hmem
      rcases hsub with h | h <;> simp [h] at this
    rw [parseQsl, if_neg hne, hchunks, List.filterMap_map]
    exact filterMap_eq_self_of_some _ _ (fun kv2 _ => parseQslChunk_urlencode kv2)

theorem strLeB_total : ∀ a b : Str, strLeB a b = true ∨ strLeB b a = true := by
  intro a
  induction a with
  | nil => intro b; left; rfl
  | cons x xs ih =>
    intro b
    rcases b with _ | ⟨y, ys⟩
    · right; rfl
    · rcases lt_trichotomy x y with h | h | h
      · left
        simp [strLeB, h]
      · subst h
        rcases ih ys with h2 | h2
        · left
          simp [strLeB, h2]
        · right
          simp [strLeB, h2]
      · right
        simp [strLeB, h]

theorem strLeB_trans : ∀ a b c : Str, strLeB a b = true → strLeB b c = true →
    strLeB a c = true := by
  intro a
  induction a with
  | nil => intro b c _ _; rfl
  | cons x xs ih =>
    intro b c hab hbc
    rcases b with _ | ⟨y, ys⟩
    · cases hab
    · rcases c with _ | ⟨z, zs⟩
      · cases hbc
      · simp only [strLeB] at hab hbc ⊢
        split at hab
        · rename_i hxy
          split at hbc
          · rename_i hyz
            rw [if_pos (lt_trans hxy hyz)]
          · split at hbc
            · rename_i hyz
              rw [if_pos (hyz ▸ hxy)]
            · cases hbc
        · split at hab
          · rename_i hxy
            subst hxy
            split at hbc
            · rename_i hxz
              rw [if_pos hxz]
            · split at hbc
              · rename_i hxz
                rw [if_neg (by assumption), if_pos hxz]
                exact ih ys zs hab hbc
              · cases hbc
          · cases hab

instance : IsTotal Str (fun a b => strLeB a b = true) := ⟨strLeB_total⟩

instance : IsTrans Str (fun a b => strLeB a b = true) :=
  ⟨fun a b c => strLeB_trans a b c⟩

theorem sortStr_sorted (l : List Str) :
    (sortStr l).Sorted (fun a b => strLeB a b = true) :=
  List.sorted_insertionSort _ l

theorem sortStr_eq_self (l : List Str)
    (h : l.Sorted (fun a b => strLeB a b = true)) : sortStr l = l :=
  h.insertionSort_eq

theorem sortStr_perm (l : List Str) : (sortStr l).Perm l :=
  List.perm_insertionSort _ l

theorem dictAppend_of_not_mem (k : Str) (v : Str) :
    ∀ (d : List (Str × List Str)), k ∉ d.map Prod.fst →
      dictAppend k v d = d ++ [(k, [v])] := by
  intro d
  induction d with
  | nil => intro _; rfl
  | cons kv rest ih =>
    intro h
    have h1 : ¬ kv.1 = k := fun he => h (by simp [he.symm])
    have h2 : k ∉ rest.map Prod.fst := fun hm => h (by simp [hm])
    show dictAppend k v (kv :: rest) = _
    rcases kv with ⟨k2, vs⟩
    rw [dictAppend, if_neg h1, ih h2]
    rfl

theorem dictAppend_last (k : Str) (v : Str) :
    ∀ (d1 : List (Str × List Str)) (vs : List Str), k ∉ d1.map Prod.fst →
      dictAppend k v (d1 ++ [(k, vs)]) = d1 ++ [(k, vs ++ [v])] := by
  intro d1
  induction d1 with
  | nil => intro vs _; simp [dictAppend]
  | cons kv rest ih =>
    intro vs h
    have h1 : ¬ kv.1 = k := fun he => h (by simp [he.symm])
    have h2 : k ∉ rest.map Prod.fst := fun hm => h (by simp [hm])
    rcases kv with ⟨k2, vs2⟩
    rw [List.cons_append, dictAppend, if_neg h1, ih vs h2]
    rfl

theorem dictAppend_keys (k : Str) (v : Str) :
    ∀ (d : List (Str × List Str)),
      (dictAppend k v d).map Prod.fst =
        if k ∈ d.map Prod.fst then d.map Prod.fst else d.map Prod.fst ++ [k] := by
  intro d
  induction d with
  | nil => simp [dictAppend]
  | cons kv rest ih =>
    rcases kv with ⟨k2, vs⟩
    by_cases h1 : k2 = k
    · subst h1
      rw [dictAppend, if_pos rfl]
      simp
    · rw [dictAppend, if_neg h1]
      simp only [List.map_cons, ih]
      by_cases h2 : k ∈ rest.map Prod.fst
      · rw [if_pos h2, if_pos (by simp [h2])]
      · rw [if_neg h2, if_neg (by
          simp only [List.map_cons, List.mem_cons]
          push_neg
          exact ⟨fun he => h1 he.symm, h2⟩)]
        simp

theorem dictAppend_values_ne (k : Str) (v : Str) :
    ∀ (d : List (Str × List Str)), (∀ kv ∈ d, kv.2 ≠ []) →
      ∀ kv ∈ dictAppend k v d, kv.2 ≠ [] := by
  intro d
  induction d with
  | nil =>
    intro _ kv hkv
    simp only [dictAppend, List.mem_singleton] at hkv
    subst hkv
    simp
  | cons kv2 rest ih =>
    intro h kv hkv
    rcases kv2 with ⟨k2, vs2⟩
    rw [dictAppend] at hkv
    split at hkv
    · rcases List.mem_cons.mp hkv with he | hm
      · subst he
        simp
      · exact h kv (by simp [hm])
    · rcases List.mem_cons.mp hkv with he | hm
      · subst he
        exact h (k2, vs2) (by simp)
      · exact ih (fun kv3 hkv3 => h kv3 (by simp [hkv3])) kv hm

theorem groupPairs_aux_keys_nodup :
    ∀ (pairs : List (Str × Str)) (d : List (Str × List Str)),
      (d.map Prod.fst).Nodup →
      ((pairs.foldl (fun d kv => dictAppend kv.1 kv.2 d) d).map Prod.fst).Nodup := by
  intro pairs
  induction pairs with
  | nil => exact fun d hd => hd
  | cons kv rest ih =>
    intro d hd
    rw [List.foldl_cons]
    refine ih _ ?_
    rw [dictAppend_keys]
    split
    · exact hd
    · rw [List.nodup_append]
      exact ⟨hd, by simp, by simpa using (by assumption : kv.1 ∉ d.map Prod.fst)⟩

theorem groupPairs_keys_nodup (pairs : List (Str × Str)) :
    ((groupPairs pairs).map Prod.fst).Nodup :=
  groupPairs_aux_keys_nodup pairs [] (by simp)

theorem groupPairs_aux_values_ne :
    ∀ (pairs : List (Str × Str)) (d : List (Str × List Str)),
      (∀ kv ∈ d, kv.2 ≠ []) →
      ∀ kv ∈ pairs.foldl (fun d kv => dictAppend kv.1 kv.2 d) d, kv.2 ≠ [] := by
  intro pairs
  induction pairs with
  | nil => exact fun d hd => hd
  | cons kv rest ih =>
    intro d hd
    rw [List.foldl_cons]
    exact ih _ (dictAppend_values_ne kv.1 kv.2 d hd)

theorem groupPairs_values_ne (pairs : List (Str × Str)) :
    ∀ kv ∈ groupPairs pairs, kv.2 ≠ [] :=
  groupPairs_aux_values_ne pairs [] (by simp)

theorem foldl_dictAppend_block (k : Str) :
    ∀ (vs : List Str) (d1 : List (Str × List Str)) (acc : List Str),
      k ∉ d1.map Prod.fst →
      ((vs.map (fun v => (k, v))).foldl (fun d kv => dictAppend kv.1 kv.2 d)
        (d1 ++ [(k, acc)])) = d1 ++ [(k, acc ++ vs)] := by
  intro vs
  induction vs with
  | nil => intro d1 acc _; simp
  | cons v rest ih =>
    intro d1 acc h
    rw [List.map_cons, List.foldl_cons]
    dsimp only
    rw [dictAppend_last k v d1 acc h, ih d1 (acc ++ [v]) h]
    simp

theorem foldl_dictAppend_block_start (k : Str) (v : Str) (vs : List Str)
    (d1 : List (Str × List Str)) (h : k ∉ d1.map Prod.fst) :
    (((v :: vs).map (fun v => (k, v))).foldl
      (fun d kv => dictAppend kv.1 kv.2 d) d1) = d1 ++ [(k, v :: vs)] := by
  rw [List.map_cons, List.foldl_cons]
  dsimp only
  rw [dictAppend_of_not_mem k v d1 h, foldl_dictAppend_block k vs d1 [v] h]
  simp

theorem foldl_dictAppend_flat (f : Str → List Str) :
    ∀ (ks : List Str) (d1 : List (Str × List Str)),
      ks.Nodup → (∀ k ∈ ks, f k ≠ []) →
      (∀ k ∈ ks, k ∉ d1.map Prod.fst) →
      ((ks.flatMap (fun k => (f k).map (fun v => (k, v)))).foldl
        (fun d kv => dictAppend kv.1 kv.2 d) d1)
        = d1 ++ ks.map (fun k => (k, f k)) := by
  intro ks
  induction ks with
  | nil => intro d1 _ _ _; simp
  | cons k rest ih =>
    intro d1 hnd hne hdisj
    rw [List.flatMap_cons, List.foldl_append]
    rcases hfk : f k with _ | ⟨v, vs⟩
    · exact absurd hfk (hne k (by simp))
    · rw [foldl_dictAppend_block_start k v vs d1 (hdisj k (by simp))]
      rw [← hfk]
      have hknr : k ∉ rest := (List.nodup_cons.mp hnd).1
      rw [ih (d1 ++ [(k, f k)]) (List.nodup_cons.mp hnd).2
        (fun k2 h2 => hne k2 (by simp [h2]))
        (fun k2 h2 => by
          simp only [List.map_append, List.map_cons, List.map_nil,
            List.mem_append, List.mem_singleton]
          push_neg
          exact ⟨hdisj k2 (by simp [h2]), fun he => hknr (he ▸ h2)⟩)]
      simp

theorem groupPairs_flat (f : Str → List Str) (ks : List Str)
    (hnd : ks.Nodup) (hne : ∀ k ∈ ks, f k ≠ []) :
    groupPairs (ks.flatMap (fun k => (f k).map (fun v => (k, v))))
      = ks.map (fun k => (k, f k)) := by
  have h := foldl_dictAppend_flat f ks [] hnd hne (by simp)
  simpa [groupPairs] using h

theorem lookupS_cons_eq {β : Type} (k : Str) (kv : Str × β)
    (rest : List (Str × β)) (h : k = kv.1) :
    ((kv :: rest).lookup k) = some kv.2 := by
  have hb : (k == kv.1) = true := by simpa using h
  simp [List.lookup, hb]

theorem lookupS_cons_ne {β : Type} (k : Str) (kv : Str × β)
    (rest : List (Str × β)) (h : ¬ k = kv.1) :
    ((kv :: rest).lookup k) = rest.lookup k := by
  have hb : (k == kv.1) = false := by simpa using h
  simp [List.lookup, hb]

theorem lookup_of_mem_keys {β : Type} :
    ∀ (d : List (Str × β)) (k : Str), k ∈ d.map Prod.fst →
      ∃ vs, d.lookup k = some vs ∧ (k, vs) ∈ d := by
  intro d
  induction d with
  | nil => intro k h; simp at h
  | cons kv rest ih =>
    intro k hmem
    rcases kv with ⟨k2, v2⟩
    by_cases h : k = k2
    · subst h
      exact ⟨v2, lookupS_cons_eq k (k, v2) rest rfl, List.mem_cons_self _ _⟩
    · have hm2 : k ∈ rest.map Prod.fst := by
        have hmem2 : k = k2 ∨ k ∈ rest.map Prod.fst := by
          simpa only [List.map_cons, List.mem_cons] using hmem
        rcases hmem2 with he | hm
        · exact absurd he h
        · exact hm
      obtain ⟨vs, hl, hmm⟩ := ih k hm2
      refine ⟨vs, ?_, List.mem_cons_of_mem _ hmm⟩
      rw [lookupS_cons_ne k (k2, v2) rest h]
      exact hl

theorem lookup_map_self (f : Str → List Str) :
    ∀ (ks : List Str) (k : Str), k ∈ ks →
      (ks.map (fun k2 => (k2, f k2))).lookup k = some (f k) := by
  intro ks
  induction ks with
  | nil => intro k h; cases h
  | cons k2 rest ih =>
    intro k hmem
    rw [List.map_cons]
    by_cases h : k = k2
    · subst h
      exact lookupS_cons_eq k (k, f k) _ rfl
    · rw [lookupS_cons_ne k (k2, f k2) _ h]
      refine ih k ?_
      rcases List.mem_cons.mp hmem with he | hm
      · exact absurd he h
      · exact hm

theorem sortStr_ne_nil (l : List Str) (h : l ≠ []) : sortStr l ≠ [] := by
  intro he
  have hlen := (sortStr_perm l).length_eq
  rw [he] at hlen
  exact h (List.eq_nil_of_length_eq_zero hlen.symm)

theorem flatMap_congr_mem {α β : Type} (f g : α → List β) :
    ∀ (l : List α), (∀ a ∈ l, f a = g a) → l.flatMap f = l.flatMap g := by
  intro l
  induction l with
  | nil => intro _; rfl
  | cons a rest ih =>
    intro h
    rw [List.flatMap_cons, List.flatMap_cons, h a (by simp),
      ih (fun b hb => h b (by simp [hb]))]

theorem urlencodeItems_ne_nil (kv : Str × Str) (rest : List (Str × Str)) :
    urlencodeItems (kv :: rest) ≠ [] := by
  intro he
  have h := parseQsl_urlencode (kv :: rest)
  rw [he] at h
  simp [parseQsl] at h

theorem map_fst_map_pair (f : Str → List Str) :
    ∀ ks : List Str, (ks.map (fun k => (k, f k))).map (fun x => x.1) = ks := by
  intro ks
  induction ks with
  | nil => rfl
  | cons k rest ih => simp only [List.map_cons, ih]

theorem canonItems_flat (filtered : List (Str × List Str)) :
    canonItems filtered = (sortStr (filtered.map (fun x => x.1))).flatMap
      (fun k => (sortStr ((filtered.lookup k).getD [])).map (fun v => (k, v))) := rfl

theorem canon_keys_nodup (filtered : List (Str × List Str))
    (hknd : (filtered.map Prod.fst).Nodup) :
    (sortStr (filtered.map (fun x => x.1))).Nodup :=
  ((sortStr_perm _).nodup_iff).mpr hknd

theorem canon_vals_ne (filtered : List (Str × List Str))
    (hvals : ∀ kv ∈ filtered, kv.2 ≠ []) :
    ∀ k ∈ sortStr (filtered.map (fun x => x.1)),
      sortStr ((filtered.lookup k).getD []) ≠ [] := by
  intro k hk
  have hkm : k ∈ filtered.map Prod.fst := (sortStr_perm _).mem_iff.mp hk
  obtain ⟨vs, hl, hmm⟩ := lookup_of_mem_keys filtered k hkm
  rw [hl]
  exact sortStr_ne_nil vs (hvals (k, vs) hmm)

theorem canonItems_parse (filtered : List (Str × List Str))
    (hknd : (filtered.map Prod.fst).Nodup)
    (hvals : ∀ kv ∈ filtered, kv.2 ≠ []) :
    parseQs (urlencodeItems (canonItems filtered)) =
      (sortStr (filtered.map (fun x => x.1))).map
        (fun k => (k, sortStr ((filtered.lookup k).getD []))) := by
  show groupPairs (parseQsl (urlencodeItems (canonItems filtered))) = _
  rw [parseQsl_urlencode, canonItems_flat]
  exact groupPairs_flat _ _ (canon_keys_nodup filtered hknd)
    (canon_vals_ne filtered hvals)

theorem canonItems_parse_canon (filtered : List (Str × List Str)) :
    canonItems ((sortStr (filtered.map (fun x => x.1))).map
        (fun k => (k, sortStr ((filtered.lookup k).getD [])))) =
      canonItems filtered := by
  rw [canonItems_flat, canonItems_flat, map_fst_map_pair,
    sortStr_eq_self _ (sortStr_sorted _)]
  refine flatMap_congr_mem _ _ _ ?_
  intro k hk
  rw [lookup_map_self _ _ k hk, Option.getD_some,
    sortStr_eq_self _ (sortStr_sorted _)]

theorem normalizeQuery_idem (pats : List Str) (q : Str) :
    normalizeQuery pats (normalizeQuery pats q) = normalizeQuery pats q := by
  by_cases hq : q = []
  · subst hq
    have h0 : normalizeQuery pats [] = [] := rfl
    rw [h0, h0]
  · have key : ∀ s : Str, normalizeQuery pats q = s → normalizeQuery pats s = s := by
      intro s hs
      simp only [normalizeQuery] at hs
      rw [if_neg hq] at hs
      by_cases hf : (parseQs q).filter
          (fun kv => ¬ pats.any (matchPattern kv.1)) = []
      · rw [if_pos hf] at hs
        subst hs
        rfl
      · rw [if_neg hf] at hs
        subst hs
        have hknd : (((parseQs q).filter
            (fun kv => ¬ pats.any (matchPattern kv.1))).map Prod.fst).Nodup := by
          have h1 := groupPairs_keys_nodup (parseQsl q)
          exact h1.sublist ((List.filter_sublist _).map Prod.fst)
        have hvals : ∀ kv ∈ (parseQs q).filter
            (fun kv => ¬ pats.any (matchPattern kv.1)), kv.2 ≠ [] := by
          intro kv hkv
          exact groupPairs_values_ne (parseQsl q) kv (List.mem_filter.mp hkv).1
        have hksne : sortStr (((parseQs q).filter
            (fun kv => ¬ pats.any (matchPattern kv.1))).map (fun x => x.1)) ≠ [] := by
          apply sortStr_ne_nil
          intro he
          exact hf (List.map_eq_nil_iff.mp he)
        have hQne : urlencodeItems (canonItems ((parseQs q).filter
            (fun kv => ¬ pats.any (matchPattern kv.1)))) ≠ [] := by
          rcases hitems : canonItems ((parseQs q).filter
              (fun kv => ¬ pats.any (matchPattern kv.1))) with _ | ⟨kv0, rest⟩
          · exfalso
            rw [canonItems_flat] at hitems
            rcases hks : sortStr (((parseQs q).filter
                (fun kv => ¬ pats.any (matchPattern kv.1))).map (fun x => x.1))
              with _ | ⟨k0, ks2⟩
            · exact hksne hks
            · rw [hks] at hitems
              have h0 := List.flatMap_eq_nil_iff.mp hitems k0 (by simp)
              have h2 := canon_vals_ne _ hvals k0 (by rw [hks]; simp)
              rw [List.map_eq_nil_iff] at h0
              exact h2 h0
          · exact urlencodeItems_ne_nil kv0 rest
        simp only [normalizeQuery]
        rw [if_neg hQne, canonItems_parse _ hknd hvals]
        have hfilter2 : (((sortStr (((parseQs q).filter
              (fun kv => ¬ pats.any (matchPattern kv.1))).map (fun x => x.1))).map
              (fun k => (k, sortStr ((((parseQs q).filter
                (fun kv => ¬ pats.any (matchPattern kv.1))).lookup k).getD [])))).filter
              (fun kv => ¬ pats.any (matchPattern kv.1))) =
            ((sortStr (((parseQs q).filter
              (fun kv => ¬ pats.any (matchPattern kv.1))).map (fun x => x.1))).map
              (fun k => (k, sortStr ((((parseQs q).filter
                (fun kv => ¬ pats.any (matchPattern kv.1))).lookup k).getD [])))) := by
          apply List.filter_eq_self.mpr
          intro kv hkv
          obtain ⟨k, hk, hkv2⟩ := List.mem_map.mp hkv
          subst hkv2
          have hk2 : k ∈ ((parseQs q).filter
              (fun kv => ¬ pats.any (matchPattern kv.1))).map Prod.fst :=
            (sortStr_perm _).mem_iff.mp hk
          obtain ⟨vs, hl, hmm⟩ := lookup_of_mem_keys _ k hk2
          exact (List.mem_filter.mp hmm).2
        rw [hfilter2]
        have hMne : ((sortStr (((parseQs q).filter
              (fun kv => ¬ pats.any (matchPattern kv.1))).map (fun x => x.1))).map
              (fun k => (k, sortStr ((((parseQs q).filter
                (fun kv => ¬ pats.any (matchPattern kv.1))).lookup k).getD [])))) ≠ [] := by
          intro he
          exact hksne (List.map_eq_nil_iff.mp he)
        rw [if_neg hMne, canonItems_parse_canon]
    exact key _ rfl

theorem intercalate_cons_cons2 (sep x y : Str) (zs : List Str) :
    List.intercalate sep (x :: y :: zs) = x ++ sep ++ List.intercalate sep (y :: zs) := by
  rw [List.intercalate, List.intercalate, List.intersperse_cons₂,
    List.flatten_cons, List.flatten_cons, List.append_assoc]

theorem intercalate_single (sep x : Str) : List.intercalate sep [x] = x := by
  simp [List.intercalate]

theorem intercalate_append_nil (sep : Str) :
    ∀ (pieces : List Str), pieces ≠ [] →
      List.intercalate sep (pieces ++ [[]]) = List.intercalate sep pieces ++ sep := by
  intro pieces
  induction pieces with
  | nil => intro h; exact absurd rfl h
  | cons x rest ih =>
    intro _
    rcases rest with _ | ⟨y, zs⟩
    · rw [List.cons_append, List.nil_append, intercalate_cons_cons2,
        intercalate_single, intercalate_single]
      simp
    · rw [List.cons_append, List.cons_append, intercalate_cons_cons2,
        ← List.cons_append y zs [[]], ih (by simp), intercalate_cons_cons2]
      simp [List.append_assoc]

theorem intercalate_getLast (sep : Str) :
    ∀ (pieces : List Str) (lp : Str), pieces.getLast? = some lp → lp ≠ [] →
      (List.intercalate sep pieces).getLast? = lp.getLast? := by
  intro pieces
  induction pieces with
  | nil => intro lp h _; cases h
  | cons x rest ih =>
    intro lp hl hne
    rcases rest with _ | ⟨y, zs⟩
    · have hx : x = lp := by simpa using hl
      subst hx
      rw [intercalate_single]
    · rw [intercalate_cons_cons2, List.getLast?_append,
        ih lp (by simpa using hl) hne]
      rcases hlp : lp.getLast? with _ | l0
      · exact absurd (List.getLast?_eq_none_iff.mp hlp) hne
      · rfl

theorem splitOnP_no_sep (p : Char → Bool) :
    ∀ (s : Str), ∀ piece ∈ s.splitOnP p, ∀ x ∈ piece, p x = false := by
  intro s
  induction s with
  | nil =>
    intro piece hp x hx
    rw [List.splitOnP_nil] at hp
    rw [List.mem_singleton] at hp
    subst hp
    cases hx
  | cons a as ih =>
    intro piece hp x hx
    rw [List.splitOnP_cons] at hp
    by_cases hpa : p a = true
    · rw [if_pos hpa] at hp
      rcases List.mem_cons.mp hp with he | hm
      · subst he; cases hx
      · exact ih piece hm x hx
    · rw [if_neg hpa] at hp
      rcases hsp : as.splitOnP p with _ | ⟨h0, t⟩
      · exact absurd hsp (List.splitOnP_ne_nil p as)
      · rw [hsp, List.modifyHead_cons] at hp
        rcases List.mem_cons.mp hp with he | hm
        · subst he
          rcases List.mem_cons.mp hx with hxe | hxm
          · subst hxe
            exact Bool.eq_false_iff.mpr hpa
          · exact ih h0 (by rw [hsp]; exact List.mem_cons_self _ _) x hxm
        · exact ih piece (by rw [hsp]; exact List.mem_cons_of_mem _ hm) x hx

theorem splitOn_no_sep (c : Char) (s : Str) :
    ∀ piece ∈ pySplitChar c s, c ∉ piece := by
  intro piece hp hmem
  have h := splitOnP_no_sep (fun x => x == c) s piece hp c hmem
  simp at h

theorem resolveComponents_mem :
    ∀ (cs : List Str) (acc : List Str),
      (∀ s ∈ cs, '/' ∉ s) →
      (∀ s ∈ acc, s ≠ [] ∧ s ≠ ['.'] ∧ s ≠ ['.', '.'] ∧ '/' ∉ s) →
      ∀ s ∈ resolveComponents cs acc,
        s ≠ [] ∧ s ≠ ['.'] ∧ s ≠ ['.', '.'] ∧ '/' ∉ s := by
  intro cs
  induction cs with
  | nil =>
    intro acc _ hacc s hs
    exact hacc s hs
  | cons c rest ih =>
    intro acc hcs hacc s hs
    rw [resolveComponents] at hs
    by_cases h1 : c = [] ∨ c = ['.']
    · rw [if_pos h1] at hs
      exact ih acc (fun t ht => hcs t (List.mem_cons_of_mem _ ht)) hacc s hs
    · rw [if_neg h1] at hs
      by_cases h2 : c = ['.', '.']
      · rw [if_pos h2] at hs
        exact ih acc.dropLast (fun t ht => hcs t (List.mem_cons_of_mem _ ht))
          (fun t ht => hacc t ((List.dropLast_sublist acc).subset ht)) s hs
      · rw [if_neg h2] at hs
        refine ih (acc ++ [c]) (fun t ht => hcs t (List.mem_cons_of_mem _ ht)) ?_ s hs
        intro t ht
        rcases List.mem_append.mp ht with hta | htc
        · exact hacc t hta
        · rw [List.mem_singleton] at htc
          subst htc
          push_neg at h1
          exact ⟨h1.1, h1.2, h2, hcs t (List.mem_cons_self _ _)⟩

theorem resolveComponents_append :
    ∀ (xs ys : List Str) (acc : List Str),
      resolveComponents (xs ++ ys) acc =
        resolveComponents ys (resolveComponents xs acc) := by
  intro xs
  induction xs with
  | nil => intro ys acc; rfl
  | cons c rest ih =>
    intro ys acc
    rw [List.cons_append, resolveComponents, resolveComponents]
    by_cases h1 : c = [] ∨ c = ['.']
    · rw [if_pos h1, if_pos h1, ih]
    · rw [if_neg h1, if_neg h1]
      by_cases h2 : c = ['.', '.']
      · rw [if_pos h2, if_pos h2, ih]
      · rw [if_neg h2, if_neg h2, ih]

theorem resolveComponents_fixed :
    ∀ (cs : List Str) (acc : List Str),
      (∀ s ∈ cs, s ≠ [] ∧ s ≠ ['.'] ∧ s ≠ ['.', '.']) →
      resolveComponents cs acc = acc ++ cs := by
  intro cs
  induction cs with
  | nil => intro acc _; simp [resolveComponents]
  | cons c rest ih =>
    intro acc h
    obtain ⟨h1, h2, h3⟩ := h c (List.mem_cons_self _ _)
    rw [resolveComponents, if_neg (by push_neg; exact ⟨h1, h2⟩), if_neg h3,
      ih (acc ++ [c]) (fun t ht => h t (List.mem_cons_of_mem _ ht))]
    simp

theorem resolveComponents_canon (resolved : List Str)
    (hgood3 : ∀ s ∈ resolved, s ≠ [] ∧ s ≠ ['.'] ∧ s ≠ ['.', '.']) :
    resolveComponents ([] :: resolved) [] = resolved := by
  rw [resolveComponents, if_pos (Or.inl rfl),
    resolveComponents_fixed resolved [] hgood3]
  rfl

theorem resolveComponents_canon_slash (resolved : List Str)
    (hgood3 : ∀ s ∈ resolved, s ≠ [] ∧ s ≠ ['.'] ∧ s ≠ ['.', '.']) :
    resolveComponents (([] :: resolved) ++ [[]]) [] = resolved := by
  rw [resolveComponents_append, resolveComponents_canon resolved hgood3,
    resolveComponents, if_pos (Or.inl rfl), resolveComponents]

theorem normalizePath_canon_noslash (resolved : List Str)
    (hne : resolved ≠ [])
    (hgood : ∀ s ∈ resolved, s ≠ [] ∧ s ≠ ['.'] ∧ s ≠ ['.', '.'] ∧ '/' ∉ s) :
    normalizePath ('/' :: pyJoinChar '/' resolved) = '/' :: pyJoinChar '/' resolved := by
  have htake : ('/' :: pyJoinChar '/' resolved).take 1 = ['/'] := by simp
  have hjoin : '/' :: pyJoinChar '/' resolved = pyJoinChar '/' ([] :: resolved) := by
    rcases resolved with _ | ⟨r0, rs⟩
    · exact absurd rfl hne
    · show _ = List.intercalate ['/'] ([] :: r0 :: rs)
      rw [intercalate_cons_cons2]
      rfl
  have hsplit : pySplitChar '/' ('/' :: pyJoinChar '/' resolved) = [] :: resolved := by
    rw [hjoin]
    refine splitOn_intercalate_sep '/' ([] :: resolved) (by simp) ?_
    intro p hp
    rcases List.mem_cons.mp hp with he | hm
    · subst he; simp
    · exact (hgood p hm).2.2.2
  have hres : resolveComponents ([] :: resolved) [] = resolved :=
    resolveComponents_canon resolved
      (fun s hs => ⟨(hgood s hs).1, (hgood s hs).2.1, (hgood s hs).2.2.1⟩)
  have hlastP : pyEndsWith '/' ('/' :: pyJoinChar '/' resolved) = false := by
    rcases hl : resolved.getLast? with _ | lp
    · exact absurd (List.getLast?_eq_none_iff.mp hl) hne
    · have hlpg := hgood lp (List.mem_of_getLast?_eq_some hl)
      have hJ : (pyJoinChar '/' resolved).getLast? = lp.getLast? :=
        intercalate_getLast ['/'] resolved lp hl hlpg.1
      rcases hl0 : lp.getLast? with _ | c0
      · exact absurd (List.getLast?_eq_none_iff.mp hl0) hlpg.1
      · have hc0 : c0 ∈ lp := List.mem_of_getLast?_eq_some hl0
        have hc0ne : c0 ≠ '/' := fun he => hlpg.2.2.2 (he ▸ hc0)
        show decide ((('/' :: pyJoinChar '/' resolved).getLast?) = some '/') = false
        rw [show ('/' :: pyJoinChar '/' resolved) =
          ['/'] ++ pyJoinChar '/' resolved from rfl,
          List.getLast?_append, hJ, hl0]
        simp [Option.or, hc0ne]
  have hPne : ('/' :: pyJoinChar '/' resolved) ≠ [] := by simp
  simp only [normalizePath]
  rw [if_neg hPne,
    if_neg (show ¬(('/' :: pyJoinChar '/' resolved).take 1 ≠ ['/'])
      from fun hc => hc htake),
    hsplit, hres,
    if_neg (show ¬(pyEndsWith '/' ('/' :: pyJoinChar '/' resolved) = true ∧
        ('/' :: pyJoinChar '/' resolved) ≠ ['/'])
      from fun hc => by rw [hlastP] at hc; exact Bool.false_ne_true hc.1)]

theorem normalizePath_canon_slash (resolved : List Str) (lp : Str)
    (hgood : ∀ s ∈ resolved, s ≠ [] ∧ s ≠ ['.'] ∧ s ≠ ['.', '.'] ∧ '/' ∉ s)
    (hlast : resolved.getLast? = some lp)
    (hdot : lp.count '.' = 0) :
    normalizePath ('/' :: (pyJoinChar '/' resolved ++ ['/'])) =
      '/' :: (pyJoinChar '/' resolved ++ ['/']) := by
  have hne : resolved ≠ [] := by
    intro he; rw [he] at hlast; cases hlast
  have hlpg := hgood lp (List.mem_of_getLast?_eq_some hlast)
  have htake : ('/' :: (pyJoinChar '/' resolved ++ ['/'])).take 1 = ['/'] := by simp
  have hjoin : '/' :: (pyJoinChar '/' resolved ++ ['/']) =
      pyJoinChar '/' (([] :: resolved) ++ [[]]) := by
    show _ = List.intercalate ['/'] (([] :: resolved) ++ [[]])
    rw [intercalate_append_nil ['/'] ([] :: resolved) (by simp)]
    rcases resolved with _ | ⟨r0, rs⟩
    · exact absurd rfl hne
    · rw [intercalate_cons_cons2]
      rfl
  have hsplit : pySplitChar '/' ('/' :: (pyJoinChar '/' resolved ++ ['/'])) =
      ([] :: resolved) ++ [[]] := by
    rw [hjoin]
    refine splitOn_intercalate_sep '/' _ (by simp) ?_
    intro p hp
    rcases List.mem_append.mp hp with h1 | h2
    · rcases List.mem_cons.mp h1 with he | hm
      · subst he; simp
      · exact (hgood p hm).2.2.2
    · rw [List.mem_singleton] at h2; subst h2; simp
  have hres : resolveComponents (([] :: resolved) ++ [[]]) [] = resolved :=
    resolveComponents_canon_slash resolved
      (fun s hs => ⟨(hgood s hs).1, (hgood s hs).2.1, (hgood s hs).2.2.1⟩)
  have hJ : (pyJoinChar '/' resolved).getLast? = lp.getLast? :=
    intercalate_getLast ['/'] resolved lp hlast hlpg.1
  have hJne : pyJoinChar '/' resolved ≠ [] := by
    intro he
    rw [he] at hJ
    exact hlpg.1 (List.getLast?_eq_none_iff.mp hJ.symm)
  have hlastP : pyEndsWith '/' ('/' :: (pyJoinChar '/' resolved ++ ['/'])) = true := by
    have h1 : ('/' :: (pyJoinChar '/' resolved ++ ['/'])).getLast? = some '/' := by
      rw [show ('/' :: (pyJoinChar '/' resolved ++ ['/'])) =
        ('/' :: pyJoinChar '/' resolved) ++ ['/'] from rfl]
      exact List.getLast?_concat _
    simp [pyEndsWith, h1]
  have hPne : ('/' :: (pyJoinChar '/' resolved ++ ['/'])) ≠ [] := by simp
  simp only [normalizePath]
  rw [if_neg hPne,
    if_neg (show ¬(('/' :: (pyJoinChar '/' resolved ++ ['/'])).take 1 ≠ ['/'])
      from fun hc => hc htake),
    hsplit, hres,
    if_pos (show pyEndsWith '/' ('/' :: (pyJoinChar '/' resolved ++ ['/'])) = true ∧
        ('/' :: pyJoinChar '/' resolved) ≠ ['/']
      from ⟨hlastP, fun he => hJne (List.cons.inj he).2⟩),
    hlast]
  dsimp only
  rw [if_pos hdot, List.cons_append]

theorem normalizePath_idem (p0 : Str) :
    normalizePath (normalizePath p0) = normalizePath p0 := by
  have hkey : ∀ s : Str, normalizePath p0 = s → normalizePath s = s := by
    intro s hs
    by_cases h0 : p0 = []
    · rw [h0] at hs
      rw [show normalizePath [] = ['/'] from rfl] at hs
      subst hs
      rfl
    · simp only [normalizePath] at hs
      rw [if_neg h0] at hs
      have hgood := resolveComponents_mem (pySplitChar '/'
          (if p0.take 1 ≠ ['/'] then '/' :: p0 else p0)) []
        (splitOn_no_sep '/' _) (by intro t ht; cases ht)
      rcases hres : resolveComponents (pySplitChar '/'
          (if p0.take 1 ≠ ['/'] then '/' :: p0 else p0)) [] with _ | ⟨r0, rs⟩
      · rw [hres] at hs
        rw [if_neg (show ¬(pyEndsWith '/'
              (if p0.take 1 ≠ ['/'] then '/' :: p0 else p0) = true ∧
              ('/' :: pyJoinChar '/' ([] : List Str)) ≠ ['/'])
            from fun hc => hc.2 rfl)] at hs
        subst hs
        rfl
      · rw [hres] at hs hgood
        by_cases hcond : pyEndsWith '/'
            (if p0.take 1 ≠ ['/'] then '/' :: p0 else p0) = true ∧
            ('/' :: pyJoinChar '/' (r0 :: rs)) ≠ ['/']
        · rw [if_pos hcond] at hs
          rcases hlast : (r0 :: rs).getLast? with _ | lp
          · rw [List.getLast?_eq_none_iff] at hlast
            cases hlast
          · rw [hlast] at hs
            dsimp only at hs
            by_cases hdot : lp.count '.' = 0
            · rw [if_pos hdot] at hs
              subst hs
              show normalizePath ('/' :: (pyJoinChar '/' (r0 :: rs) ++ ['/'])) =
                '/' :: (pyJoinChar '/' (r0 :: rs) ++ ['/'])
              exact normalizePath_canon_slash (r0 :: rs) lp hgood hlast hdot
            · rw [if_neg hdot] at hs
              subst hs
              exact normalizePath_canon_noslash (r0 :: rs) (by simp) hgood
        · rw [if_neg hcond] at hs
          subst hs
          exact normalizePath_canon_noslash (r0 :: rs) (by simp) hgood
  exact hkey _ rfl

theorem char_le_iff (a b : Char) : a ≤ b ↔ a.toNat ≤ b.toNat := by
  rw [Char.le_def, UInt32.le_def, BitVec.le_def]
  rfl

theorem asciiLowerChar_toNat_of_upper (c : Char) (hc : 'A' ≤ c ∧ c ≤ 'Z') :
    (asciiLowerChar c).toNat = c.toNat + 32 := by
  have hc1 : 0x41 ≤ c.toNat := (char_le_iff _ _).mp hc.1
  have hc2 : c.toNat ≤ 0x5a := (char_le_iff _ _).mp hc.2
  rw [asciiLowerChar, if_pos hc]
  exact char_toNat_ofNat (c.toNat + 32) (Or.inl (by omega))

theorem asciiLowerChar_eq_bad (c b : Char)
    (hb1 : ¬ (0x61 ≤ b.toNat ∧ b.toNat ≤ 0x7a))
    (hb2 : ¬ (0x41 ≤ b.toNat ∧ b.toNat ≤ 0x5a)) :
    asciiLowerChar c = b ↔ c = b := by
  constructor
  · intro h
    by_cases hc : 'A' ≤ c ∧ c ≤ 'Z'
    · exfalso
      have hc1 : 0x41 ≤ c.toNat := (char_le_iff _ _).mp hc.1
      have hc2 : c.toNat ≤ 0x5a := (char_le_iff _ _).mp hc.2
      have ht := asciiLowerChar_toNat_of_upper c hc
      rw [h] at ht
      exact hb1 ⟨by omega, by omega⟩
    · rw [asciiLowerChar, if_neg hc] at h
      exact h
  · intro h
    subst h
    rw [asciiLowerChar, if_neg]
    intro hc
    exact hb2 ⟨(char_le_iff _ _).mp hc.1, (char_le_iff _ _).mp hc.2⟩

theorem mem_asciiLower_bad (b : Char) (l : Str)
    (hb1 : ¬ (0x61 ≤ b.toNat ∧ b.toNat ≤ 0x7a))
    (hb2 : ¬ (0x41 ≤ b.toNat ∧ b.toNat ≤ 0x5a)) :
    b ∈ asciiLower l ↔ b ∈ l := by
  rw [asciiLower, List.mem_map]
  constructor
  · rintro ⟨c, hc, he⟩
    rw [asciiLowerChar_eq_bad c b hb1 hb2] at he
    exact he ▸ hc
  · intro hb
    exact ⟨b, hb, (asciiLowerChar_eq_bad b b hb1 hb2).mpr rfl⟩

theorem count_asciiLower_bad (b : Char) (l : Str)
    (hb1 : ¬ (0x61 ≤ b.toNat ∧ b.toNat ≤ 0x7a))
    (hb2 : ¬ (0x41 ≤ b.toNat ∧ b.toNat ≤ 0x5a)) :
    (asciiLower l).count b = l.count b := by
  induction l with
  | nil => rfl
  | cons c rest ih =>
    rw [asciiLower, List.map_cons, List.count_cons, List.count_cons]
    rw [show List.map asciiLowerChar rest = asciiLower rest from rfl, ih]
    congr 1
    simp only [beq_iff_eq]
    by_cases he : asciiLowerChar c = b
    · rw [if_pos he, if_pos ((asciiLowerChar_eq_bad c b hb1 hb2).mp he)]
    · rw [if_neg he, if_neg (fun h2 => he ((asciiLowerChar_eq_bad c b hb1 hb2).mpr h2))]

theorem asciiLowerChar_fixchar (x : Char) (hx : ¬ ('A' ≤ x ∧ x ≤ 'Z')) :
    asciiLowerChar x = x := by
  rw [asciiLowerChar, if_neg hx]

theorem asciiLowerChar_idem (c : Char) :
    asciiLowerChar (asciiLowerChar c) = asciiLowerChar c := by
  by_cases hc : 'A' ≤ c ∧ c ≤ 'Z'
  · have ht := asciiLowerChar_toNat_of_upper c hc
    have hc1 : 0x41 ≤ c.toNat := (char_le_iff _ _).mp hc.1
    refine asciiLowerChar_fixchar _ ?_
    intro hcc
    have h2 : (asciiLowerChar c).toNat ≤ 0x5a := (char_le_iff _ _).mp hcc.2
    omega
  · rw [asciiLowerChar_fixchar c hc]
    exact asciiLowerChar_fixchar c hc

theorem asciiLower_fix (l : Str) (h : ∀ c ∈ l, asciiLowerChar c = c) :
    asciiLower l = l := by
  induction l with
  | nil => rfl
  | cons c rest ih =>
    rw [asciiLower, List.map_cons, h c (List.mem_cons_self _ _)]
    rw [show List.map asciiLowerChar rest = asciiLower rest from rfl,
      ih (fun c2 h2 => h c2 (List.mem_cons_of_mem _ h2))]

theorem asciiLower_idem (l : Str) : asciiLower (asciiLower l) = asciiLower l := by
  refine asciiLower_fix _ ?_
  intro c hc
  rw [asciiLower, List.mem_map] at hc
  obtain ⟨c0, _, he⟩ := hc
  rw [← he]
  exact asciiLowerChar_idem c0

theorem cleanUrl_eq_self (s : Str)
    (h1 : ∀ c ∈ s.take 1, isC0OrSpace c = false)
    (h2 : ∀ c ∈ s, isUnsafeUrlChar c = false) :
    cleanUrl s = s := by
  rw [cleanUrl]
  have hd : s.dropWhile isC0OrSpace = s := by
    rcases s with _ | ⟨a, rest⟩
    · rfl
    · rw [List.dropWhile_cons, if_neg]
      rw [h1 a (by simp)]
      simp
  rw [hd]
  apply List.filter_eq_self.mpr
  intro c hc
  rw [h2 c hc]
  simp

theorem cleanUrl_no_unsafe (u : Str) :
    ∀ c ∈ cleanUrl u, isUnsafeUrlChar c = false := by
  intro c hc
  rw [cleanUrl] at hc
  have h := (List.mem_filter.mp hc).2
  simpa using h

theorem strFind_spec (c : Char) :
    ∀ (s : Str) (i : Nat), strFind c s = some i →
      c ∉ s.take i ∧ s = s.take i ++ c :: s.drop (i + 1) := by
  intro s
  induction s with
  | nil => intro i h; simp [strFind] at h
  | cons a rest ih =>
    intro i h
    simp only [strFind, List.findIdx?_cons] at h
    by_cases ha : a = c
    · rw [if_pos (by simpa using ha)] at h
      have h0 : 0 = i := Option.some.inj h
      subst h0
      refine ⟨by simp, ?_⟩
      simp [ha]
    · rw [if_neg (by simpa using ha), List.findIdx?_succ] at h
      rcases hr : List.findIdx? (fun x => x = c) rest with _ | j
      · rw [hr] at h; cases h
      · rw [hr] at h
        have hij : j + 1 = i := by simpa using h
        subst hij
        obtain ⟨h1, h2⟩ := ih j (by simpa [strFind] using hr)
        refine ⟨?_, ?_⟩
        · rw [List.take_succ_cons]
          intro hm
          rcases List.mem_cons.mp hm with he | hm2
          · exact ha he.symm
          · exact h1 hm2
        · rw [List.take_succ_cons, List.drop_succ_cons, List.cons_append]
          congr 1

theorem splitOnceLeft_eq_some (c : Char) (s a b : Str)
    (h : splitOnceLeft c s = some (a, b)) :
    s = a ++ c :: b ∧ c ∉ a := by
  rw [splitOnceLeft] at h
  rcases hf : strFind c s with _ | i
  · rw [hf] at h; cases h
  · rw [hf] at h
    simp only [Option.map] at h
    obtain ⟨ha, hb⟩ := Prod.mk.inj (Option.some.inj h)
    obtain ⟨h1, h2⟩ := strFind_spec c s i hf
    subst ha
    subst hb
    exact ⟨h2, h1⟩

theorem splitOnceLeft_eq_none (c : Char) (s : Str)
    (h : splitOnceLeft c s = none) : c ∉ s := by
  rw [splitOnceLeft] at h
  rcases hf : strFind c s with _ | i
  · rw [strFind] at hf
    intro hm
    have h2 := List.findIdx?_eq_none_iff.mp hf c hm
    simp at h2
  · rw [hf] at h; cases h

theorem splitOnceRight_eq_some (c : Char) (s a b : Str)
    (h : splitOnceRight c s = some (a, b)) :
    s = a ++ c :: b ∧ c ∉ b := by
  rw [splitOnceRight] at h
  rcases hf : strRfind c s with _ | j
  · rw [hf] at h; cases h
  · rw [hf] at h
    simp only [Option.map] at h
    obtain ⟨ha, hb⟩ := Prod.mk.inj (Option.some.inj h)
    rw [strRfind] at hf
    rcases hr : strFind c s.reverse with _ | i
    · rw [hr] at hf; cases hf
    · rw [hr] at hf
      simp only [Option.map] at hf
      have hj : s.length - 1 - i = j := Option.some.inj hf
      obtain ⟨h1, h2⟩ := strFind_spec c s.reverse i hr
      have hs : s = (s.reverse.drop (i + 1)).reverse ++
          c :: (s.reverse.take i).reverse := by
        have h3 := congrArg List.reverse h2
        rw [List.reverse_reverse] at h3
        conv_lhs => rw [h3]
        rw [List.reverse_append, List.reverse_cons, List.append_assoc,
          List.singleton_append]
      have hilen : i < s.length := by
        have hl := congrArg List.length h2
        simp only [List.length_append, List.length_take, List.length_drop,
          List.length_reverse, List.length_cons] at hl
        omega
      have hXlen : (s.reverse.drop (i + 1)).reverse.length = j := by
        simp only [List.length_reverse, List.length_drop]
        omega
      have htake : ((s.reverse.drop (i + 1)).reverse ++
          c :: (s.reverse.take i).reverse).take j =
          (s.reverse.drop (i + 1)).reverse := List.take_left' hXlen
      have hdrop : ((s.reverse.drop (i + 1)).reverse ++
          c :: (s.reverse.take i).reverse).drop (j + 1) =
          (s.reverse.take i).reverse := by
        rw [show (s.reverse.drop (i + 1)).reverse ++
            c :: (s.reverse.take i).reverse =
          ((s.reverse.drop (i + 1)).reverse ++ [c]) ++
            (s.reverse.take i).reverse from by
          rw [List.append_assoc, List.singleton_append]]
        exact List.drop_left' (by simp [hXlen])
      have hYa : s.take j = (s.reverse.drop (i + 1)).reverse := by
        conv_lhs => rw [hs]
        exact htake
      have hYb : s.drop (j + 1) = (s.reverse.take i).reverse := by
        conv_lhs => rw [hs]
        exact hdrop
      constructor
      · rw [← ha, ← hb, hYa, hYb]
        exact hs
      · rw [← hb, hYb]
        intro hm
        exact h1 (List.mem_reverse.mp hm)

theorem not_mem_left_of_count_le_one (c : Char) (a b : Str)
    (hcb : c ∉ b) (hcnt : (a ++ c :: b).count c ≤ 1) : c ∉ a := by
  rw [List.count_append, List.count_cons] at hcnt
  have hb0 : b.count c = 0 := List.count_eq_zero.mpr hcb
  rw [hb0] at hcnt
  simp only [beq_self_eq_true, if_pos] at hcnt
  have ha0 : a.count c = 0 := by omega
  exact List.count_eq_zero.mp ha0

theorem parseDigitsTail_chars :
    ∀ (r : Str) (acc n : Nat), parseDigitsTail acc r = some n →
      ∀ c ∈ r, isAsciiDigit c = true ∨ c = '_' := by
  intro r
  induction r with
  | nil => intro acc n _ c hc; cases hc
  | cons c rest ih =>
    intro acc n h c2 hc2
    rw [parseDigitsTail.eq_def] at h
    split at h
    · rename_i hq
      exact absurd hq (by simp)
    · rename_i c3 rest3 hinj
      obtain ⟨h1a, h1b⟩ := List.cons.inj hinj
      subst h1a
      subst h1b
      by_cases hc : c = '_'
      · rw [if_pos hc] at h
        split at h
        · rename_i x r0 d rest2
          by_cases hd : isAsciiDigit d = true
          · rw [if_pos hd] at h
            have hdne : ¬ d = '_' := by
              intro he
              rw [he] at hd
              exact absurd hd (by decide)
            have hrest : parseDigitsTail acc (d :: rest2) = some n := by
              rw [parseDigitsTail.eq_def]
              split
              · rename_i hq3
                exact absurd hq3 (by simp)
              · rename_i d4 rest4 hinj4
                obtain ⟨h4a, h4b⟩ := List.cons.inj hinj4
                subst h4a
                subst h4b
                rw [if_neg hdne, if_pos hd]
                exact h
            rcases List.mem_cons.mp hc2 with he | hm
            · exact Or.inr (he.trans hc)
            · exact ih acc n hrest c2 hm
          · rw [if_neg hd] at h
            cases h
        · cases h
      · rw [if_neg hc] at h
        by_cases hd : isAsciiDigit c = true
        · rw [if_pos hd] at h
          rcases List.mem_cons.mp hc2 with he | hm
          · exact Or.inl (he ▸ hd)
          · exact ih _ n h c2 hm
        · rw [if_neg hd] at h
          cases h

theorem parseDigits_chars (r : Str) (n : Nat) (h : parseDigits r = some n) :
    ∀ c ∈ r, isAsciiDigit c = true ∨ c = '_' := by
  intro c hc
  rcases r with _ | ⟨d, rest⟩
  · cases hc
  · rw [parseDigits] at h
    by_cases hd : isAsciiDigit d = true
    · rw [if_pos hd] at h
      rcases List.mem_cons.mp hc with he | hm
      · exact Or.inl (he ▸ hd)
      · exact parseDigitsTail_chars rest _ n h c hm
    · rw [if_neg hd] at h
      cases h

theorem mem_dropWhile_or (p : Char → Bool) (l : Str) :
    ∀ c ∈ l, p c = true ∨ c ∈ l.dropWhile p := by
  intro c hc
  have hsplit := @List.takeWhile_append_dropWhile _ p l
  rw [← hsplit] at hc
  rcases List.mem_append.mp hc with h1 | h2
  · exact Or.inl (List.mem_takeWhile_imp h1)
  · exact Or.inr h2

theorem pyIntOpt_chars (s : Str) (n : Int) (h : pyIntOpt s = some n) :
    ∀ c ∈ s, isPyWhitespace c = true ∨ c = '+' ∨ c = '-' ∨
      isAsciiDigit c = true ∨ c = '_' := by
  intro c hc
  rcases mem_dropWhile_or isPyWhitespace s c hc with hw | h1
  · exact Or.inl hw
  have h1r : c ∈ (s.dropWhile isPyWhitespace).reverse := List.mem_reverse.mpr h1
  rcases mem_dropWhile_or isPyWhitespace _ c h1r with hw | h2
  · exact Or.inl hw
  have hmem : c ∈ ((s.dropWhile isPyWhitespace).reverse.dropWhile
      isPyWhitespace).reverse := List.mem_reverse.mpr h2
  simp only [pyIntOpt] at h
  revert hmem
  generalize ((s.dropWhile isPyWhitespace).reverse.dropWhile
      isPyWhitespace).reverse = t at h
  intro hmem
  split at h
  · rename_i r
    rcases List.mem_cons.mp hmem with he | hm
    · exact Or.inr (Or.inl he)
    · rcases hp : parseDigits r with _ | m
      · rw [hp] at h; cases h
      · rcases parseDigits_chars r m hp c hm with hd | hu
        · exact Or.inr (Or.inr (Or.inr (Or.inl hd)))
        · exact Or.inr (Or.inr (Or.inr (Or.inr hu)))
  · rename_i r
    rcases List.mem_cons.mp hmem with he | hm
    · exact Or.inr (Or.inr (Or.inl he))
    · rcases hp : parseDigits r with _ | m
      · rw [hp] at h; cases h
      · rcases parseDigits_chars r m hp c hm with hd | hu
        · exact Or.inr (Or.inr (Or.inr (Or.inl hd)))
        · exact Or.inr (Or.inr (Or.inr (Or.inr hu)))
  · rcases hp : parseDigits t with _ | m
    · rw [hp] at h; cases h
    · rcases parseDigits_chars t m hp c hmem with hd | hu
      · exact Or.inr (Or.inr (Or.inr (Or.inl hd)))
      · exact Or.inr (Or.inr (Or.inr (Or.inr hu)))

theorem mem_intersperse (sep : Str) :
    ∀ (pieces : List Str) (l : Str), l ∈ List.intersperse sep pieces →
      l = sep ∨ l ∈ pieces := by
  intro pieces
  induction pieces with
  | nil => intro l h; cases h
  | cons x rest ih =>
    intro l h
    rcases rest with _ | ⟨y, zs⟩
    · rw [List.intersperse_single] at h
      rcases List.mem_cons.mp h with he | hm
      · exact Or.inr (by simp [he])
      · cases hm
    · rw [List.intersperse_cons₂] at h
      rcases List.mem_cons.mp h with he | hm
      · exact Or.inr (by simp [he])
      · rcases List.mem_cons.mp hm with he2 | hm2
        · exact Or.inl he2
        · rcases ih l hm2 with hs | hp
          · exact Or.inl hs
          · exact Or.inr (List.mem_cons_of_mem _ hp)

theorem mem_intersperse_of_mem (sep : Str) :
    ∀ (pieces : List Str) (p : Str), p ∈ pieces →
      p ∈ List.intersperse sep pieces := by
  intro pieces
  induction pieces with
  | nil => intro p h; cases h
  | cons x rest ih =>
    intro p h
    rcases rest with _ | ⟨y, zs⟩
    · rw [List.intersperse_single]
      exact h
    · rw [List.intersperse_cons₂]
      rcases List.mem_cons.mp h with he | hm
      · exact he ▸ List.mem_cons_self _ _
      · exact List.mem_cons_of_mem _ (List.mem_cons_of_mem _ (ih p hm))

theorem mem_intercalate_cases (sep : Str) (pieces : List Str) (x : Char)
    (h : x ∈ List.intercalate sep pieces) :
    x ∈ sep ∨ ∃ p ∈ pieces, x ∈ p := by
  rw [List.intercalate] at h
  obtain ⟨l, hl, hx⟩ := List.mem_flatten.mp h
  rcases mem_intersperse sep pieces l hl with hs | hp
  · exact Or.inl (hs ▸ hx)
  · exact Or.inr ⟨l, hp, hx⟩

theorem mem_intercalate_of_piece (sep : Str) (pieces : List Str) (p : Str)
    (hp : p ∈ pieces) (x : Char) (hx : x ∈ p) :
    x ∈ List.intercalate sep pieces := by
  rw [List.intercalate]
  exact List.mem_flatten.mpr ⟨p, mem_intersperse_of_mem sep pieces p hp, hx⟩

theorem mem_splitOn_subset (c : Char) (s : Str) :
    ∀ p ∈ pySplitChar c s, ∀ x ∈ p, x ∈ s := by
  intro p hp x hx
  have h := mem_intercalate_of_piece [c] (s.splitOn c) p hp x hx
  rw [List.intercalate_splitOn] at h
  exact h

theorem resolveComponents_subset :
    ∀ (cs : List Str) (acc : List Str),
      ∀ s ∈ resolveComponents cs acc, s ∈ cs ∨ s ∈ acc := by
  intro cs
  induction cs with
  | nil => intro acc s hs; exact Or.inr hs
  | cons c rest ih =>
    intro acc s hs
    rw [resolveComponents] at hs
    by_cases h1 : c = [] ∨ c = ['.']
    · rw [if_pos h1] at hs
      rcases ih acc s hs with h | h
      · exact Or.inl (List.mem_cons_of_mem _ h)
      · exact Or.inr h
    · rw [if_neg h1] at hs
      by_cases h2 : c = ['.', '.']
      · rw [if_pos h2] at hs
        rcases ih acc.dropLast s hs with h | h
        · exact Or.inl (List.mem_cons_of_mem _ h)
        · exact Or.inr ((List.dropLast_sublist acc).subset h)
      · rw [if_neg h2] at hs
        rcases ih (acc ++ [c]) s hs with h | h
        · exact Or.inl (List.mem_cons_of_mem _ h)
        · rcases List.mem_append.mp h with h3 | h3
          · exact Or.inr h3
          · rw [List.mem_singleton] at h3
            exact Or.inl (h3 ▸ List.mem_cons_self _ _)

theorem normalizePath_shape (p0 : Str) :
    normalizePath p0 = ['/'] ∨
    ∃ resolved, resolved ≠ [] ∧
      (∀ s ∈ resolved, s ≠ [] ∧ s ≠ ['.'] ∧ s ≠ ['.', '.'] ∧ '/' ∉ s) ∧
      (∀ s ∈ resolved, ∀ x ∈ s, x ∈ p0) ∧
      (normalizePath p0 = '/' :: pyJoinChar '/' resolved ∨
       normalizePath p0 = '/' :: (pyJoinChar '/' resolved ++ ['/'])) := by
  by_cases h0 : p0 = []
  · left
    rw [h0]
    rfl
  · simp only [normalizePath]
    rw [if_neg h0]
    have hgood := resolveComponents_mem (pySplitChar '/'
        (if p0.take 1 ≠ ['/'] then '/' :: p0 else p0)) []
      (splitOn_no_sep '/' _) (by intro t ht; cases ht)
    have hsub : ∀ s ∈ resolveComponents (pySplitChar '/'
        (if p0.take 1 ≠ ['/'] then '/' :: p0 else p0)) [], ∀ x ∈ s, x ∈ p0 := by
      intro s hsm x hx
      rcases resolveComponents_subset _ _ s hsm with hin | hin
      · have hxp := mem_splitOn_subset '/' _ s hin x hx
        have hxslash : ¬ x = '/' := fun he => (hgood s hsm).2.2.2 (he ▸ hx)
        split at hxp
        · rcases List.mem_cons.mp hxp with he | hm
          · exact absurd he hxslash
          · exact hm
        · exact hxp
      · cases hin
    rcases hres : resolveComponents (pySplitChar '/'
        (if p0.take 1 ≠ ['/'] then '/' :: p0 else p0)) [] with _ | ⟨r0, rs⟩
    · left
      rw [if_neg (show ¬(pyEndsWith '/'
            (if p0.take 1 ≠ ['/'] then '/' :: p0 else p0) = true ∧
            ('/' :: pyJoinChar '/' ([] : List Str)) ≠ ['/'])
          from fun hc => hc.2 rfl)]
      rfl
    · right
      rw [hres] at hgood hsub
      refine ⟨r0 :: rs, by simp, hgood, hsub, ?_⟩
      by_cases hcond : pyEndsWith '/'
          (if p0.take 1 ≠ ['/'] then '/' :: p0 else p0) = true ∧
          ('/' :: pyJoinChar '/' (r0 :: rs)) ≠ ['/']
      · rw [if_pos hcond]
        rcases hlast : (r0 :: rs).getLast? with _ | lp
        · rw [List.getLast?_eq_none_iff] at hlast
          cases hlast
        · dsimp only
          by_cases hdot : lp.count '.' = 0
          · rw [if_pos hdot]
            right
            rw [List.cons_append]
          · rw [if_neg hdot]
            left
            rfl
      · rw [if_neg hcond]
        left
        rfl

theorem intercalate_head_append (sep : Str) (r0 : Str) (rs : List Str) :
    ∃ t, List.intercalate sep (r0 :: rs) = r0 ++ t := by
  rcases rs with _ | ⟨y, zs⟩
  · exact ⟨[], by rw [intercalate_single]; simp⟩
  · exact ⟨sep ++ List.intercalate sep (y :: zs),
      by rw [intercalate_cons_cons2, List.append_assoc]⟩

theorem normalizePath_chars (p0 : Str) :
    ∀ x ∈ normalizePath p0, x = '/' ∨ x ∈ p0 := by
  rcases normalizePath_shape p0 with h | ⟨resolved, _, _, hsub, h⟩
  · rw [h]
    intro x hx
    rw [List.mem_singleton] at hx
    exact Or.inl hx
  · intro x hx
    have hJ : x ∈ pyJoinChar '/' resolved → x = '/' ∨ x ∈ p0 := by
      intro hxj
      rcases mem_intercalate_cases ['/'] resolved x hxj with hs | ⟨p, hp, hxp⟩
      · exact Or.inl (by simpa using hs)
      · exact Or.inr (hsub p hp x hxp)
    rcases h with h | h <;> rw [h] at hx
    · rcases List.mem_cons.mp hx with he | hm
      · exact Or.inl he
      · exact hJ hm
    · rcases List.mem_cons.mp hx with he | hm
      · exact Or.inl he
      · rcases List.mem_append.mp hm with h2 | h2
        · exact hJ h2
        · exact Or.inl (by simpa using h2)

theorem normalizePath_take1 (p0 : Str) : (normalizePath p0).take 1 = ['/'] := by
  rcases normalizePath_shape p0 with h | ⟨resolved, _, _, _, h⟩
  · rw [h]
    rfl
  · rcases h with h | h <;> rw [h] <;> rfl

theorem normalizePath_ne_nil (p0 : Str) : normalizePath p0 ≠ [] := by
  intro he
  have h := normalizePath_take1 p0
  rw [he] at h
  cases h

theorem normalizePath_take2 (p0 : Str) :
    (normalizePath p0).take 2 ≠ ['/', '/'] := by
  rcases normalizePath_shape p0 with h | ⟨resolved, hne, hgood, _, h⟩
  · rw [h]
    decide
  · rcases resolved with _ | ⟨r0, rs⟩
    · exact absurd rfl hne
    have h1 := (hgood r0 (List.mem_cons_self _ _)).1
    have h4 := (hgood r0 (List.mem_cons_self _ _)).2.2.2
    obtain ⟨t, ht⟩ := intercalate_head_append ['/'] r0 rs
    have ht2 : pyJoinChar '/' (r0 :: rs) = r0 ++ t := ht
    rcases hr0 : r0 with _ | ⟨c0, r0t⟩
    · rw [hr0] at h1
      exact absurd rfl h1
    rw [hr0] at ht2 h4
    have hc0 : ¬ c0 = '/' := fun he => h4 (he ▸ List.mem_cons_self _ _)
    rcases h with h | h
    · rw [h, hr0, ht2, List.cons_append]
      have htake : ('/' :: c0 :: (r0t ++ t)).take 2 = ['/', c0] := rfl
      rw [htake]
      intro hc
      have := List.cons.inj hc
      exact hc0 ((List.cons.inj this.2).1)
    · rw [h, hr0, ht2, List.cons_append, List.cons_append]
      have htake : ('/' :: c0 :: ((r0t ++ t) ++ ['/'])).take 2 = ['/', c0] := rfl
      rw [htake]
      intro hc
      have := List.cons.inj hc
      exact hc0 ((List.cons.inj this.2).1)

theorem alpha_not_c0 (c : Char) (h : isAsciiAlpha c = true) :
    isC0OrSpace c = false := by
  have hd : ('a' ≤ c ∧ c ≤ 'z') ∨ ('A' ≤ c ∧ c ≤ 'Z') := of_decide_eq_true h
  apply decide_eq_false
  intro hle
  rcases hd with hc | hc
  · have h1 : 0x61 ≤ c.toNat := (char_le_iff _ _).mp hc.1
    omega
  · have h1 : 0x41 ≤ c.toNat := (char_le_iff _ _).mp hc.1
    omega

theorem schemeChar_not_colon (c : Char) (h : isSchemeChar c = true) : c ≠ ':' := by
  intro he
  rw [he] at h
  exact absurd h (by decide)

theorem schemeChar_not_unsafe (c : Char) (h : isSchemeChar c = true) :
    isUnsafeUrlChar c = false := by
  cases hu : isUnsafeUrlChar c
  · rfl
  · exfalso
    have hd : c = '\t' ∨ c = '\r' ∨ c = '\n' := of_decide_eq_true hu
    rcases hd with he | he | he <;> rw [he] at h <;> exact absurd h (by decide)

theorem asciiLowerChar_alpha (c : Char) (h : isAsciiAlpha c = true) :
    isAsciiAlpha (asciiLowerChar c) = true := by
  by_cases hc : 'A' ≤ c ∧ c ≤ 'Z'
  · have ht := asciiLowerChar_toNat_of_upper c hc
    have hc1 : 0x41 ≤ c.toNat := (char_le_iff _ _).mp hc.1
    have hc2 : c.toNat ≤ 0x5a := (char_le_iff _ _).mp hc.2
    apply decide_eq_true
    left
    exact ⟨(char_le_iff _ _).mpr
        (show (97 : Nat) ≤ (asciiLowerChar c).toNat by rw [ht]; omega),
      (char_le_iff _ _).mpr
        (show (asciiLowerChar c).toNat ≤ (122 : Nat) by rw [ht]; omega)⟩
  · rw [asciiLowerChar_fixchar c hc]
    exact h

theorem asciiLowerChar_scheme (c : Char) (h : isSchemeChar c = true) :
    isSchemeChar (asciiLowerChar c) = true := by
  have hd := of_decide_eq_true h
  rcases hd with ha | hrest
  · apply decide_eq_true
    left
    exact asciiLowerChar_alpha c ha
  · have hfix : asciiLowerChar c = c := by
      apply asciiLowerChar_fixchar
      intro hc
      have hc1 : 0x41 ≤ c.toNat := (char_le_iff _ _).mp hc.1
      have hc2 : c.toNat ≤ 0x5a := (char_le_iff _ _).mp hc.2
      rcases hrest with hdig | he | he | he
      · have := of_decide_eq_true hdig
        have d1 : 0x30 ≤ c.toNat := (char_le_iff _ _).mp this.1
        have d2 : c.toNat ≤ 0x39 := (char_le_iff _ _).mp this.2
        omega
      · rw [he] at hc1
        exact absurd hc1 (by decide)
      · rw [he] at hc1
        exact absurd hc1 (by decide)
      · rw [he] at hc1
        exact absurd hc1 (by decide)
    rw [hfix]
    exact h

theorem urlencodeItems_class (items : List (Str × Str)) :
    ∀ c ∈ urlencodeItems items, isQuoteSafeChar c = true ∨ c = '=' ∨ c = '&' := by
  intro c hc
  rw [urlencodeItems] at hc
  rcases mem_intercalate_cases ['&'] _ c hc with hs | ⟨p, hp, hcp⟩
  · exact Or.inr (Or.inr (by simpa using hs))
  · obtain ⟨kv, _, hkv⟩ := List.mem_map.mp hp
    subst hkv
    rcases List.mem_append.mp hcp with h1 | h1
    · exact Or.inl (quotePlus_class _ c h1)
    · rcases List.mem_cons.mp h1 with he | hm
      · exact Or.inr (Or.inl he)
      · exact Or.inl (quotePlus_class _ c hm)

theorem normalizeQuery_class (pats : List Str) (q : Str) :
    ∀ c ∈ normalizeQuery pats q, isQuoteSafeChar c = true ∨ c = '=' ∨ c = '&' := by
  intro c hc
  simp only [normalizeQuery] at hc
  split at hc
  · cases hc
  · split at hc
    · cases hc
    · exact urlencodeItems_class _ c hc

theorem queryChar_not_bad (c : Char)
    (h : isQuoteSafeChar c = true ∨ c = '=' ∨ c = '&') :
    isUnsafeUrlChar c = false ∧ c ≠ '#' := by
  rcases h with h | h | h
  · constructor
    · cases hu : isUnsafeUrlChar c
      · rfl
      · exfalso
        have hd : c = '\t' ∨ c = '\r' ∨ c = '\n' := of_decide_eq_true hu
        rcases hd with he | he | he <;> rw [he] at h <;> exact absurd h (by decide)
    · intro he
      rw [he] at h
      exact absurd h (by decide)
  · subst h
    exact ⟨by decide, by decide⟩
  · subst h
    exact ⟨by decide, by decide⟩

theorem takeWhile_append_of_stop (p : Char → Bool) :
    ∀ (N tail : Str), (∀ c ∈ N, p c = true) →
      (∀ t0 ∈ tail.take 1, p t0 = false) →
      (N ++ tail).takeWhile p = N ∧ (N ++ tail).dropWhile p = tail := by
  intro N
  induction N with
  | nil =>
    intro tail _ hstop
    rcases tail with _ | ⟨t0, tr⟩
    · exact ⟨rfl, rfl⟩
    · constructor
      · rw [List.nil_append, List.takeWhile_cons, hstop t0 (by simp)]
        simp
      · rw [List.nil_append, List.dropWhile_cons, hstop t0 (by simp)]
        simp
  | cons a N ih =>
    intro tail hN hstop
    obtain ⟨ht, hd⟩ := ih tail (fun c hc => hN c (by simp [hc])) hstop
    have ha := hN a (by simp)
    constructor
    · rw [List.cons_append, List.takeWhile_cons, ha]
      simp [ht]
    · rw [List.cons_append, List.dropWhile_cons, ha]
      simpa using hd

theorem splitOnceLeft_of_not_mem (c : Char) (s : Str) (h : c ∉ s) :
    splitOnceLeft c s = none := by
  rw [splitOnceLeft]
  have hf : strFind c s = none := by
    rw [strFind]
    refine List.findIdx?_eq_none_iff.mpr ?_
    intro x hx
    simp only [decide_eq_false_iff_not]
    intro he
    exact h (he ▸ hx)
  rw [hf]
  rfl

theorem take2_append (P X : Str) (h1 : P.take 1 = ['/'])
    (h2 : P.take 2 ≠ ['/', '/']) (hX : X.take 1 ≠ ['/']) :
    (P ++ X).take 2 ≠ ['/', '/'] := by
  rcases P with _ | ⟨p0, Pt⟩
  · cases h1
  have hp0 : p0 = '/' := by simpa using h1
  subst hp0
  rcases Pt with _ | ⟨p1, Pt2⟩
  · rw [List.singleton_append]
    intro hc
    rw [show ('/' :: X).take 2 = '/' :: X.take 1 from rfl] at hc
    exact hX (List.cons.inj hc).2
  · intro hc
    rw [List.cons_append, List.cons_append] at hc
    rw [show ('/' :: p1 :: (Pt2 ++ X)).take 2 = ['/', p1] from rfl] at hc
    have hp1 : p1 = '/' := (List.cons.inj ((List.cons.inj hc).2)).1
    exact h2 (by rw [show ('/' :: p1 :: Pt2).take 2 = ['/', p1] from rfl, hp1])

theorem splitScheme_spec (u : Str) :
    splitScheme u = ([], u) ∨
    ∃ i, strFind ':' u = some i ∧ 0 < i ∧
      (u.take 1).all isAsciiAlpha = true ∧ (u.take i).all isSchemeChar = true ∧
      splitScheme u = (asciiLower (u.take i), u.drop (i + 1)) := by
  rcases hf : strFind ':' u with _ | i
  · left
    rw [splitScheme, hf]
  · by_cases hcond : 0 < i ∧ (u.take 1).all isAsciiAlpha = true ∧
        (u.take i).all isSchemeChar = true
    · right
      refine ⟨i, rfl, hcond.1, hcond.2.1, hcond.2.2, ?_⟩
      rw [splitScheme, hf]
      dsimp only
      rw [if_pos hcond]
    · left
      rw [splitScheme, hf]
      dsimp only
      rw [if_neg hcond]

theorem splitScheme_rest_subset (u : Str) : ∀ c ∈ (splitScheme u).2, c ∈ u := by
  rcases splitScheme_spec u with h | ⟨i, _, _, _, _, h⟩ <;> rw [h] <;> intro c hc
  · exact hc
  · exact List.drop_subset _ _ hc

theorem pyUrlsplit_inv (url0 : Str) (s : SplitResult)
    (h : pyUrlsplit url0 = .ok s) :
    ∃ rest rest2,
      (s.scheme, rest) = splitScheme (cleanUrl url0) ∧
      ((rest.take 2 = ['/', '/'] ∧
          s.netloc = (rest.drop 2).takeWhile (fun c => ¬ isNetlocDelim c) ∧
          rest2 = (rest.drop 2).dropWhile (fun c => ¬ isNetlocDelim c)) ∨
        (rest.take 2 ≠ ['/', '/'] ∧ s.netloc = [] ∧ rest2 = rest)) ∧
      ¬ (('[' ∈ s.netloc ∧ ']' ∉ s.netloc) ∨ (']' ∈ s.netloc ∧ '[' ∉ s.netloc)) ∧
      ∃ rest3,
        ((∃ b, splitOnceLeft '#' rest2 = some (rest3, b)) ∨
          (splitOnceLeft '#' rest2 = none ∧ rest3 = rest2)) ∧
        ((∃ bq, splitOnceLeft '?' rest3 = some (s.path, bq) ∧ s.query = bq) ∨
          (splitOnceLeft '?' rest3 = none ∧ s.path = rest3 ∧ s.query = [])) := by
  simp only [pyUrlsplit] at h
  rcases hss : splitScheme (cleanUrl url0) with ⟨scheme, rest⟩
  rw [hss] at h
  dsimp only at h
  by_cases hnl : rest.take 2 = ['/', '/']
  · rw [if_pos hnl] at h
    dsimp only at h
    by_cases hbr : ('[' ∈ (rest.drop 2).takeWhile (fun c => ¬ isNetlocDelim c) ∧
          ']' ∉ (rest.drop 2).takeWhile (fun c => ¬ isNetlocDelim c)) ∨
        (']' ∈ (rest.drop 2).takeWhile (fun c => ¬ isNetlocDelim c) ∧
          '[' ∉ (rest.drop 2).takeWhile (fun c => ¬ isNetlocDelim c))
    · rw [if_pos hbr] at h
      cases h
    · rw [if_neg hbr] at h
      rcases hfr : splitOnceLeft '#'
          ((rest.drop 2).dropWhile (fun c => ¬ isNetlocDelim c)) with _ | ⟨a, b⟩ <;>
        rw [hfr] at h <;> dsimp only at h
      · rcases hq : splitOnceLeft '?'
            ((rest.drop 2).dropWhile (fun c => ¬ isNetlocDelim c)) with _ | ⟨p, q⟩ <;>
          rw [hq] at h <;> dsimp only at h <;>
          obtain rfl := (Except.ok.inj h).symm
        · exact ⟨rest, _, rfl, Or.inl ⟨hnl, rfl, rfl⟩, hbr, _,
            Or.inr ⟨hfr, rfl⟩, Or.inr ⟨hq, rfl, rfl⟩⟩
        · exact ⟨rest, _, rfl, Or.inl ⟨hnl, rfl, rfl⟩, hbr, _,
            Or.inr ⟨hfr, rfl⟩, Or.inl ⟨q, hq, rfl⟩⟩
      · rcases hq : splitOnceLeft '?' a with _ | ⟨p, q⟩ <;>
          rw [hq] at h <;> dsimp only at h <;>
          obtain rfl := (Except.ok.inj h).symm
        · exact ⟨rest, _, rfl, Or.inl ⟨hnl, rfl, rfl⟩, hbr, a,
            Or.inl ⟨b, hfr⟩, Or.inr ⟨hq, rfl, rfl⟩⟩
        · exact ⟨rest, _, rfl, Or.inl ⟨hnl, rfl, rfl⟩, hbr, a,
            Or.inl ⟨b, hfr⟩, Or.inl ⟨q, hq, rfl⟩⟩
  · rw [if_neg hnl] at h
    dsimp only at h
    by_cases hbr : ('[' ∈ ([] : Str) ∧ ']' ∉ ([] : Str)) ∨
        (']' ∈ ([] : Str) ∧ '[' ∉ ([] : Str))
    · rw [if_pos hbr] at h
      cases h
    · rw [if_neg hbr] at h
      rcases hfr : splitOnceLeft '#' rest with _ | ⟨a, b⟩ <;>
        rw [hfr] at h <;> dsimp only at h
      · rcases hq : splitOnceLeft '?' rest with _ | ⟨p, q⟩ <;>
          rw [hq] at h <;> dsimp only at h <;>
          obtain rfl := (Except.ok.inj h).symm
        · exact ⟨rest, rest, rfl, Or.inr ⟨hnl, rfl, rfl⟩, hbr, rest,
            Or.inr ⟨hfr, rfl⟩, Or.inr ⟨hq, rfl, rfl⟩⟩
        · exact ⟨rest, rest, rfl, Or.inr ⟨hnl, rfl, rfl⟩, hbr, rest,
            Or.inr ⟨hfr, rfl⟩, Or.inl ⟨q, hq, rfl⟩⟩
      · rcases hq : splitOnceLeft '?' a with _ | ⟨p, q⟩ <;>
          rw [hq] at h <;> dsimp only at h <;>
          obtain rfl := (Except.ok.inj h).symm
        · exact ⟨rest, rest, rfl, Or.inr ⟨hnl, rfl, rfl⟩, hbr, a,
            Or.inl ⟨b, hfr⟩, Or.inr ⟨hq, rfl, rfl⟩⟩
        · exact ⟨rest, rest, rfl, Or.inr ⟨hnl, rfl, rfl⟩, hbr, a,
            Or.inl ⟨b, hfr⟩, Or.inl ⟨q, hq, rfl⟩⟩

theorem take_one_take (u : Str) (i : Nat) (hi : 0 < i) :
    (u.take i).take 1 = u.take 1 := by
  rcases u with _ | ⟨a, rest⟩
  · simp
  · rcases i with _ | i2
    · omega
    · rfl

theorem pyUrlsplit_ok (url0 : Str) (s : SplitResult)
    (h : pyUrlsplit url0 = .ok s) :
    (∀ c ∈ s.netloc, isNetlocDelim c = false ∧ isUnsafeUrlChar c = false) ∧
    '#' ∉ s.path ∧ '?' ∉ s.path ∧
    (∀ c ∈ s.path, isUnsafeUrlChar c = false) ∧
    (∀ c ∈ s.query, isUnsafeUrlChar c = false) ∧
    ¬ (('[' ∈ s.netloc ∧ ']' ∉ s.netloc) ∨ (']' ∈ s.netloc ∧ '[' ∉ s.netloc)) ∧
    (s.scheme = [] ∨ (s.scheme ≠ [] ∧ (s.scheme.take 1).all isAsciiAlpha = true ∧
      s.scheme.all isSchemeChar = true ∧ asciiLower s.scheme = s.scheme)) := by
  obtain ⟨rest, rest2, hsch, hnet, hbr, rest3, hfr, hq⟩ := pyUrlsplit_inv url0 s h
  have hrest_sub : ∀ c ∈ rest, c ∈ cleanUrl url0 := by
    intro c hc
    have h2 := splitScheme_rest_subset (cleanUrl url0) c
    rw [← hsch] at h2
    exact h2 hc
  have hrest2_sub : ∀ c ∈ rest2, c ∈ rest := by
    rcases hnet with ⟨_, _, hr2⟩ | ⟨_, _, hr2⟩
    · rw [hr2]
      intro c hc
      exact List.drop_subset _ _ ((List.dropWhile_sublist _).subset hc)
    · rw [hr2]
      exact fun c hc => hc
  have hnetsub : ∀ c ∈ s.netloc, c ∈ rest := by
    rcases hnet with ⟨_, hn, _⟩ | ⟨_, hn, _⟩
    · rw [hn]
      intro c hc
      exact List.drop_subset _ _ ((List.takeWhile_sublist _).subset hc)
    · rw [hn]
      intro c hc
      cases hc
  have hrest3_sub : ∀ c ∈ rest3, c ∈ rest2 := by
    rcases hfr with ⟨b, hsp⟩ | ⟨_, hr3⟩
    · obtain ⟨heq, _⟩ := splitOnceLeft_eq_some '#' rest2 rest3 b hsp
      rw [heq]
      intro c hc
      exact List.mem_append.mpr (Or.inl hc)
    · rw [hr3]
      exact fun c hc => hc
  have hhash3 : '#' ∉ rest3 := by
    rcases hfr with ⟨b, hsp⟩ | ⟨hnone, hr3⟩
    · exact (splitOnceLeft_eq_some '#' rest2 rest3 b hsp).2
    · rw [hr3]
      exact splitOnceLeft_eq_none '#' rest2 hnone
  have hpathsub : ∀ c ∈ s.path, c ∈ rest3 := by
    rcases hq with ⟨bq, hsp, _⟩ | ⟨_, hp3, _⟩
    · obtain ⟨heq, _⟩ := splitOnceLeft_eq_some '?' rest3 s.path bq hsp
      rw [heq]
      intro c hc
      exact List.mem_append.mpr (Or.inl hc)
    · rw [hp3]
      exact fun c hc => hc
  have hqsub : ∀ c ∈ s.query, c ∈ rest3 := by
    rcases hq with ⟨bq, hsp, hqe⟩ | ⟨_, _, hqe⟩
    · obtain ⟨heq, _⟩ := splitOnceLeft_eq_some '?' rest3 s.path bq hsp
      rw [hqe, heq]
      intro c hc
      exact List.mem_append.mpr (Or.inr (List.mem_cons_of_mem _ hc))
    · rw [hqe]
      intro c hc
      cases hc
  refine ⟨?_, ?_, ?_, ?_, ?_, hbr, ?_⟩
  · intro c hc
    constructor
    · rcases hnet with ⟨_, hn, _⟩ | ⟨_, hn, _⟩
      · rw [hn] at hc
        have hp := List.mem_takeWhile_imp hc
        simpa using hp
      · rw [hn] at hc
        cases hc
    · exact cleanUrl_no_unsafe url0 c (hrest_sub c (hnetsub c hc))
  · intro hm
    exact hhash3 (hpathsub _ hm)
  · rcases hq with ⟨bq, hsp, _⟩ | ⟨hnone, hp3, _⟩
    · exact (splitOnceLeft_eq_some '?' rest3 s.path bq hsp).2
    · rw [hp3]
      exact splitOnceLeft_eq_none '?' rest3 hnone
  · intro c hc
    exact cleanUrl_no_unsafe url0 c
      (hrest_sub c (hrest2_sub c (hrest3_sub c (hpathsub c hc))))
  · intro c hc
    exact cleanUrl_no_unsafe url0 c
      (hrest_sub c (hrest2_sub c (hrest3_sub c (hqsub c hc))))
  · rcases splitScheme_spec (cleanUrl url0) with hsp | ⟨i, hfind, hpos, halpha, hall, hsp⟩
    · left
      rw [hsp] at hsch
      exact (Prod.mk.inj hsch).1
    · right
      rw [hsp] at hsch
      have hse : s.scheme = asciiLower ((cleanUrl url0).take i) := (Prod.mk.inj hsch).1
      obtain ⟨_, hdec⟩ := strFind_spec ':' (cleanUrl url0) i hfind
      have htne : (cleanUrl url0).take i ≠ [] := by
        intro he
        have hlen := congrArg List.length hdec
        rw [he] at hlen
        have hlen2 := congrArg List.length he
        simp only [List.length_take, List.length_nil] at hlen2
        simp only [List.nil_append, List.length_cons] at hlen
        omega
      refine ⟨?_, ?_, ?_, ?_⟩
      · rw [hse]
        intro he
        exact htne (List.map_eq_nil_iff.mp he)
      · rw [hse]
        show ((List.map asciiLowerChar ((cleanUrl url0).take i)).take 1).all
          isAsciiAlpha = true
        rw [← List.map_take, take_one_take _ i hpos]
        rw [List.all_eq_true]
        intro x hx
        obtain ⟨c0, hc0, he⟩ := List.mem_map.mp hx
        rw [← he]
        exact asciiLowerChar_alpha c0 (List.all_eq_true.mp halpha c0 hc0)
      · rw [hse]
        rw [List.all_eq_true]
        intro x hx
        obtain ⟨c0, hc0, he⟩ := List.mem_map.mp hx
        rw [← he]
        exact asciiLowerChar_scheme c0 (List.all_eq_true.mp hall c0 hc0)
      · rw [hse]
        exact asciiLower_idem _

theorem pyUrlparse_of_urlsplit (url : Str) (s : SplitResult)
    (hs : pyUrlsplit url = .ok s) (hsemi : ';' ∉ s.path) :
    pyUrlparse url = .ok ⟨s.scheme, s.netloc, s.path, [], s.query, s.fragment⟩ := by
  rw [pyUrlparse, hs]
  show (if s.scheme ∈ usesParams ∧ ';' ∈ s.path then _ else _) = _
  rw [if_neg (fun hcond => hsemi hcond.2)]
  rfl

theorem portDrop_subset (S nl : Str) : ∀ c ∈ portDrop S nl, c ∈ nl := by
  intro c hc
  by_cases hcol : ':' ∈ nl
  · rw [portDrop, if_pos hcol] at hc
    rcases hsp : splitOnceRight ':' nl with _ | ⟨host, port⟩
    · rw [hsp] at hc
      exact hc
    · rw [hsp] at hc
      dsimp only at hc
      rcases hpi : pyIntOpt port with _ | n
      · rw [hpi] at hc
        exact hc
      · rw [hpi] at hc
        dsimp only at hc
        split at hc
        · obtain ⟨hnl, _⟩ := splitOnceRight_eq_some ':' nl host port hsp
          rw [hnl]
          exact List.mem_append.mpr (Or.inl hc)
        · exact hc
  · rw [portDrop, if_neg hcol] at hc
    exact hc

theorem portDrop_portDrop (S nl : Str) (hcnt : nl.count ':' ≤ 1) :
    portDrop S (portDrop S nl) = portDrop S nl := by
  by_cases hc : ':' ∈ nl
  · rcases hsp : splitOnceRight ':' nl with _ | ⟨host, port⟩
    · have hX : portDrop S nl = nl := by
        rw [portDrop, if_pos hc, hsp]
      rw [hX]
      exact hX
    · rcases hpi : pyIntOpt port with _ | n
      · have hX : portDrop S nl = nl := by
          rw [portDrop, if_pos hc, hsp]
          dsimp only
          rw [hpi]
        rw [hX]
        exact hX
      · by_cases hdef : (S = "http".data ∧ n = 80) ∨ (S = "https".data ∧ n = 443)
        · have hX : portDrop S nl = host := by
            rw [portDrop, if_pos hc, hsp]
            dsimp only
            rw [hpi]
            dsimp only
            rw [if_pos hdef]
          obtain ⟨hnl, hnp⟩ := splitOnceRight_eq_some ':' nl host port hsp
          have hhc : ':' ∉ host :=
            not_mem_left_of_count_le_one ':' host port hnp (by rw [← hnl]; exact hcnt)
          rw [hX, portDrop, if_neg hhc]
        · have hX : portDrop S nl = nl := by
            rw [portDrop, if_pos hc, hsp]
            dsimp only
            rw [hpi]
            dsimp only
            rw [if_neg hdef]
          rw [hX]
          exact hX
  · have hX : portDrop S nl = nl := by
      rw [portDrop, if_neg hc]
    rw [hX]
    exact hX

theorem asciiLower_portDrop (S x : Str) :
    asciiLower (portDrop S (asciiLower x)) = portDrop S (asciiLower x) := by
  apply asciiLower_fix
  intro c hc
  have hmem : c ∈ asciiLower x := portDrop_subset _ _ c hc
  rw [asciiLower, List.mem_map] at hmem
  obtain ⟨c0, _, he⟩ := hmem
  rw [← he]
  exact asciiLowerChar_idem c0

theorem take_one_append (S X : Str) (h : S ≠ []) :
    (S ++ X).take 1 = S.take 1 := by
  rcases S with _ | ⟨s0, Sr⟩
  · exact absurd rfl h
  · rfl

theorem pyUrlsplit_rebuilt_netloc (S N P Q : Str)
    (hSne : S ≠ []) (hS1 : (S.take 1).all isAsciiAlpha = true)
    (hSall : S.all isSchemeChar = true) (hSlow : asciiLower S = S)
    (hN : ∀ c ∈ N, isNetlocDelim c = false ∧ isUnsafeUrlChar c = false)
    (hNbr : ¬ (('[' ∈ N ∧ ']' ∉ N) ∨ (']' ∈ N ∧ '[' ∉ N)))
    (hP1 : P.take 1 = ['/'])
    (hPch : ∀ c ∈ P, c ≠ '#' ∧ c ≠ '?' ∧ isUnsafeUrlChar c = false)
    (hQ : ∀ c ∈ Q, isQuoteSafeChar c = true ∨ c = '=' ∨ c = '&')
    (hcond : N ≠ [] ∨ (S ≠ [] ∧ S ∈ usesNetloc ∧ P.take 2 ≠ ['/', '/'])) :
    pyUrlsplit (pyUrlunsplit S N P Q) = .ok ⟨S, N, P, Q, []⟩ := by
  have hPne : P ≠ [] := by
    intro he
    rw [he] at hP1
    cases hP1
  have hScolon : ':' ∉ S :=
    fun hm => schemeChar_not_colon _ (List.all_eq_true.mp hSall _ hm) rfl
  have hVu : pyUrlunsplit S N P Q =
      S ++ ':' :: ('/' :: '/' :: ((N ++ P) ++
        (if Q ≠ [] then '?' :: Q else []))) := by
    simp only [pyUrlunsplit]
    rw [if_neg (show ¬(P ≠ [] ∧ P.take 1 ≠ ['/']) from fun hc => hc.2 hP1),
      if_pos hcond, if_pos hSne]
    by_cases hQe : Q ≠ []
    · rw [if_pos hQe, if_pos hQe]
      simp [List.append_assoc]
    · rw [if_neg hQe, if_neg hQe]
      simp
  rw [hVu]
  have hfind : strFind ':' (S ++ ':' :: ('/' :: '/' :: ((N ++ P) ++
      (if Q ≠ [] then '?' :: Q else [])))) = some S.length :=
    strFind_append_cons ':' S _ hScolon
  have hclean : cleanUrl (S ++ ':' :: ('/' :: '/' :: ((N ++ P) ++
      (if Q ≠ [] then '?' :: Q else [])))) =
      S ++ ':' :: ('/' :: '/' :: ((N ++ P) ++
        (if Q ≠ [] then '?' :: Q else []))) := by
    apply cleanUrl_eq_self
    · rw [take_one_append _ _ hSne]
      intro c hc
      exact alpha_not_c0 c (List.all_eq_true.mp hS1 c hc)
    · intro c hc
      rcases List.mem_append.mp hc with h1 | h1
      · exact schemeChar_not_unsafe c (List.all_eq_true.mp hSall c h1)
      · rcases List.mem_cons.mp h1 with he | h2
        · subst he; decide
        · rcases List.mem_cons.mp h2 with he | h3
          · subst he; decide
          · rcases List.mem_cons.mp h3 with he | h4
            · subst he; decide
            · rcases List.mem_append.mp h4 with h5 | h5
              · rcases List.mem_append.mp h5 with h6 | h6
                · exact (hN c h6).2
                · exact (hPch c h6).2.2
              · by_cases hQe : Q ≠ []
                · rw [if_pos hQe] at h5
                  rcases List.mem_cons.mp h5 with he | h6
                  · subst he; decide
                  · exact (queryChar_not_bad c (hQ c h6)).1
                · rw [if_neg hQe] at h5
                  cases h5
  have hsplitS : splitScheme (S ++ ':' :: ('/' :: '/' :: ((N ++ P) ++
      (if Q ≠ [] then '?' :: Q else [])))) =
      (S, '/' :: '/' :: ((N ++ P) ++ (if Q ≠ [] then '?' :: Q else []))) := by
    rw [splitScheme, hfind]
    dsimp only
    rw [if_pos ⟨List.length_pos.mpr hSne,
      by rw [take_one_append _ _ hSne]; exact hS1,
      by rw [List.take_left' rfl]; exact hSall⟩]
    rw [List.take_left' rfl, hSlow]
    congr 1
    rw [show S ++ ':' :: ('/' :: '/' :: ((N ++ P) ++
        (if Q ≠ [] then '?' :: Q else []))) =
      S ++ (':' :: ('/' :: '/' :: ((N ++ P) ++
        (if Q ≠ [] then '?' :: Q else [])))) from rfl, List.drop_append 1]
    rfl
  have htw := takeWhile_append_of_stop (fun c => ¬ isNetlocDelim c) N
    (P ++ (if Q ≠ [] then '?' :: Q else []))
    (by
      intro c hc
      have h0 := (hN c hc).1
      simp [h0])
    (by
      rw [take_one_append _ _ hPne, hP1]
      intro t0 ht0
      rw [List.mem_singleton] at ht0
      subst ht0
      decide)
  have hhash : '#' ∉ P ++ (if Q ≠ [] then '?' :: Q else []) := by
    intro hm
    rcases List.mem_append.mp hm with h1 | h1
    · exact (hPch _ h1).1 rfl
    · by_cases hQe : Q ≠ []
      · rw [if_pos hQe] at h1
        rcases List.mem_cons.mp h1 with he | h2
        · cases he
        · exact (queryChar_not_bad _ (hQ _ h2)).2 rfl
      · rw [if_neg hQe] at h1
        cases h1
  have hqsplit : splitOnceLeft '?' (P ++ (if Q ≠ [] then '?' :: Q else [])) =
      if Q ≠ [] then some (P, Q) else none := by
    by_cases hQe : Q ≠ []
    · rw [if_pos hQe, if_pos hQe]
      exact splitOnceLeft_append_cons '?' P Q (fun hm => (hPch _ hm).2.1 rfl)
    · rw [if_neg hQe, if_neg hQe, List.append_nil]
      exact splitOnceLeft_of_not_mem '?' P (fun hm => (hPch _ hm).2.1 rfl)
  simp only [pyUrlsplit]
  rw [hclean, hsplitS]
  dsimp only
  rw [if_pos (show ('/' :: '/' :: ((N ++ P) ++
      (if Q ≠ [] then '?' :: Q else []))).take 2 = ['/', '/'] from rfl)]
  dsimp only
  rw [show ('/' :: '/' :: ((N ++ P) ++
      (if Q ≠ [] then '?' :: Q else []))).drop 2 =
    (N ++ P) ++ (if Q ≠ [] then '?' :: Q else []) from rfl]
  rw [List.append_assoc, htw.1, htw.2]
  rw [if_neg hNbr]
  rw [splitOnceLeft_of_not_mem '#' _ hhash]
  dsimp only
  rw [hqsplit]
  by_cases hQe : Q ≠ []
  · rw [if_pos hQe]
    dsimp only
    rfl
  · rw [if_neg hQe]
    dsimp only
    have hq0 : Q = [] := of_not_not hQe
    subst hq0
    have hpe : P ++ (if ([] : Str) ≠ [] then '?' :: ([] : Str) else []) = P := by
      simp
    rw [hpe]
    rfl

theorem pyUrlsplit_rebuilt_nonetloc (S P Q : Str)
    (hSne : S ≠ []) (hS1 : (S.take 1).all isAsciiAlpha = true)
    (hSall : S.all isSchemeChar = true) (hSlow : asciiLower S = S)
    (hP1 : P.take 1 = ['/']) (hP2 : P.take 2 ≠ ['/', '/'])
    (hPch : ∀ c ∈ P, c ≠ '#' ∧ c ≠ '?' ∧ isUnsafeUrlChar c = false)
    (hQ : ∀ c ∈ Q, isQuoteSafeChar c = true ∨ c = '=' ∨ c = '&')
    (hncond : ¬ (([] : Str) ≠ [] ∨ (S ≠ [] ∧ S ∈ usesNetloc ∧
      P.take 2 ≠ ['/', '/']))) :
    pyUrlsplit (pyUrlunsplit S [] P Q) = .ok ⟨S, [], P, Q, []⟩ := by
  have hPne : P ≠ [] := by
    intro he
    rw [he] at hP1
    cases hP1
  have hScolon : ':' ∉ S :=
    fun hm => schemeChar_not_colon _ (List.all_eq_true.mp hSall _ hm) rfl
  have hVu : pyUrlunsplit S [] P Q =
      S ++ ':' :: (P ++ (if Q ≠ [] then '?' :: Q else [])) := by
    simp only [pyUrlunsplit]
    rw [if_neg hncond, if_pos hSne]
    by_cases hQe : Q ≠ []
    · rw [if_pos hQe, if_pos hQe]
      simp
    · rw [if_neg hQe, if_neg hQe]
      simp
  rw [hVu]
  have hfind : strFind ':' (S ++ ':' :: (P ++
      (if Q ≠ [] then '?' :: Q else []))) = some S.length :=
    strFind_append_cons ':' S _ hScolon
  have hclean : cleanUrl (S ++ ':' :: (P ++
      (if Q ≠ [] then '?' :: Q else []))) =
      S ++ ':' :: (P ++ (if Q ≠ [] then '?' :: Q else [])) := by
    apply cleanUrl_eq_self
    · rw [take_one_append _ _ hSne]
      intro c hc
      exact alpha_not_c0 c (List.all_eq_true.mp hS1 c hc)
    · intro c hc
      rcases List.mem_append.mp hc with h1 | h1
      · exact schemeChar_not_unsafe c (List.all_eq_true.mp hSall c h1)
      · rcases List.mem_cons.mp h1 with he | h2
        · subst he; decide
        · rcases List.mem_append.mp h2 with h5 | h5
          · exact (hPch c h5).2.2
          · by_cases hQe : Q ≠ []
            · rw [if_pos hQe] at h5
              rcases List.mem_cons.mp h5 with he | h6
              · subst he; decide
              · exact (queryChar_not_bad c (hQ c h6)).1
            · rw [if_neg hQe] at h5
              cases h5
  have hsplitS : splitScheme (S ++ ':' :: (P ++
      (if Q ≠ [] then '?' :: Q else []))) =
      (S, P ++ (if Q ≠ [] then '?' :: Q else [])) := by
    rw [splitScheme, hfind]
    dsimp only
    rw [if_pos ⟨List.length_pos.mpr hSne,
      by rw [take_one_append _ _ hSne]; exact hS1,
      by rw [List.take_left' rfl]; exact hSall⟩]
    rw [List.take_left' rfl, hSlow]
    congr 1
    rw [show S ++ ':' :: (P ++ (if Q ≠ [] then '?' :: Q else [])) =
      S ++ (':' :: (P ++ (if Q ≠ [] then '?' :: Q else []))) from rfl,
      List.drop_append 1]
    rfl
  have htk2 : (P ++ (if Q ≠ [] then '?' :: Q else [])).take 2 ≠ ['/', '/'] := by
    by_cases hQe : Q ≠ []
    · rw [if_pos hQe]
      refine take2_append P ('?' :: Q) hP1 hP2 ?_
      intro hc
      rw [show ('?' :: Q).take 1 = ['?'] from rfl] at hc
      cases (List.cons.inj hc).1
    · rw [if_neg hQe, List.append_nil]
      exact hP2
  have hhash : '#' ∉ P ++ (if Q ≠ [] then '?' :: Q else []) := by
    intro hm
    rcases List.mem_append.mp hm with h1 | h1
    · exact (hPch _ h1).1 rfl
    · by_cases hQe : Q ≠ []
      · rw [if_pos hQe] at h1
        rcases List.mem_cons.mp h1 with he | h2
        · cases he
        · exact (queryChar_not_bad _ (hQ _ h2)).2 rfl
      · rw [if_neg hQe] at h1
        cases h1
  have hqsplit : splitOnceLeft '?' (P ++ (if Q ≠ [] then '?' :: Q else [])) =
      if Q ≠ [] then some (P, Q) else none := by
    by_cases hQe : Q ≠ []
    · rw [if_pos hQe, if_pos hQe]
      exact splitOnceLeft_append_cons '?' P Q (fun hm => (hPch _ hm).2.1 rfl)
    · rw [if_neg hQe, if_neg hQe, List.append_nil]
      exact splitOnceLeft_of_not_mem '?' P (fun hm => (hPch _ hm).2.1 rfl)
  simp only [pyUrlsplit]
  rw [hclean, hsplitS]
  dsimp only
  rw [if_neg htk2]
  dsimp only
  rw [if_neg (show ¬ (('[' ∈ ([] : Str) ∧ ']' ∉ ([] : Str)) ∨
      (']' ∈ ([] : Str) ∧ '[' ∉ ([] : Str))) from fun hc => by
    rcases hc with ⟨h1, _⟩ | ⟨h1, _⟩ <;> exact absurd h1 (List.not_mem_nil _))]
  rw [splitOnceLeft_of_not_mem '#' _ hhash]
  dsimp only
  rw [hqsplit]
  by_cases hQe : Q ≠ []
  · rw [if_pos hQe]
    dsimp only
    rfl
  · rw [if_neg hQe]
    dsimp only
    have hq0 : Q = [] := of_not_not hQe
    subst hq0
    have hpe : P ++ (if ([] : Str) ≠ [] then '?' :: ([] : Str) else []) = P := by
      simp
    rw [hpe]
    rfl

theorem asciiLowerChar_netlocDelim (c0 : Char) (h : isNetlocDelim c0 = false) :
    isNetlocDelim (asciiLowerChar c0) = false := by
  cases hd : isNetlocDelim (asciiLowerChar c0)
  · rfl
  · exfalso
    have hd2 : asciiLowerChar c0 = '/' ∨ asciiLowerChar c0 = '?' ∨
        asciiLowerChar c0 = '#' := of_decide_eq_true hd
    rcases hd2 with he | he | he <;>
      rw [(asciiLowerChar_eq_bad c0 _ (by decide) (by decide)).mp he] at h <;>
      exact absurd h (by decide)

theorem asciiLowerChar_unsafe (c0 : Char) (h : isUnsafeUrlChar c0 = false) :
    isUnsafeUrlChar (asciiLowerChar c0) = false := by
  cases hd : isUnsafeUrlChar (asciiLowerChar c0)
  · rfl
  · exfalso
    have hd2 : asciiLowerChar c0 = '\t' ∨ asciiLowerChar c0 = '\r' ∨
        asciiLowerChar c0 = '\n' := of_decide_eq_true hd
    rcases hd2 with he | he | he <;>
      rw [(asciiLowerChar_eq_bad c0 _ (by decide) (by decide)).mp he] at h <;>
      exact absurd h (by decide)

theorem portDrop_bracket (S nl : Str) (b : Char)
    (hb1 : isPyWhitespace b = false) (hb2 : b ≠ '+') (hb3 : b ≠ '-')
    (hb4 : isAsciiDigit b = false) (hb5 : b ≠ '_') (hb6 : b ≠ ':') :
    b ∈ portDrop S nl ↔ b ∈ nl := by
  constructor
  · exact portDrop_subset S nl b
  · intro hm
    by_cases hc : ':' ∈ nl
    · rw [portDrop, if_pos hc]
      rcases hsp : splitOnceRight ':' nl with _ | ⟨host, port⟩
      · exact hm
      · dsimp only
        rcases hpi : pyIntOpt port with _ | n
        · exact hm
        · dsimp only
          split
          · obtain ⟨hnl, _⟩ := splitOnceRight_eq_some ':' nl host port hsp
            rw [hnl] at hm
            rcases List.mem_append.mp hm with h1 | h1
            · exact h1
            · exfalso
              rcases List.mem_cons.mp h1 with he | h2
              · exact hb6 he
              · rcases pyIntOpt_chars port n hpi b h2 with h | h | h | h | h
                · rw [h] at hb1; cases hb1
                · exact hb2 h
                · exact hb3 h
                · rw [h] at hb4; cases hb4
                · exact hb5 h
          · exact hm
    · rw [portDrop, if_neg hc]
      exact hm

theorem normalizeUrl_fix (pats : List Str) (U V : Str) (sr : SplitResult)
    (hsr : pyUrlsplit U = .ok sr)
    (hcolon : sr.netloc.count ':' ≤ 1)
    (hsemi : ';' ∉ sr.path)
    (hV : normalizeUrl pats U = .ok V) :
    normalizeUrl pats V = .ok V := by
  obtain ⟨hnetf, hhashp, hqustp, hpunsafe, hqunsafe, hbr, hscheme⟩ :=
    pyUrlsplit_ok U sr hsr
  have hparse := pyUrlparse_of_urlsplit U sr hsr hsemi
  rw [normalizeUrl, hparse] at hV
  have hSgood : ∃ S2,
      (if sr.scheme ≠ [] then asciiLower sr.scheme else "http".data) = S2 ∧
      S2 ≠ [] ∧ (S2.take 1).all isAsciiAlpha = true ∧
      S2.all isSchemeChar = true ∧ asciiLower S2 = S2 := by
    rcases hscheme with hs0 | ⟨hsne, hs1, hsall, hslow⟩
    · exact ⟨"http".data, by rw [if_neg (fun hc => hc hs0)],
        by decide, by decide, by decide, by decide⟩
    · exact ⟨sr.scheme, by rw [if_pos hsne, hslow], hsne, hs1, hsall, hslow⟩
  obtain ⟨S2, hSe, hS2ne, hS2a, hS2s, hS2l⟩ := hSgood
  have hV2 : Except.ok (pyUrlunparse S2
      (portDrop S2 (asciiLower sr.netloc))
      (normalizePath sr.path) []
      (normalizeQuery pats sr.query)) = (Except.ok V : Except Unit Str) := by
    rw [← hSe]
    exact hV
  have hVe : V = pyUrlunparse S2 (portDrop S2 (asciiLower sr.netloc))
      (normalizePath sr.path) [] (normalizeQuery pats sr.query) :=
    (Except.ok.inj hV2).symm
  have hNfact : ∀ c ∈ portDrop S2 (asciiLower sr.netloc),
      isNetlocDelim c = false ∧ isUnsafeUrlChar c = false := by
    intro c hc
    have h1 : c ∈ asciiLower sr.netloc := portDrop_subset _ _ c hc
    rw [asciiLower, List.mem_map] at h1
    obtain ⟨c0, hc0, he⟩ := h1
    have h2 := hnetf c0 hc0
    rw [← he]
    exact ⟨asciiLowerChar_netlocDelim c0 h2.1, asciiLowerChar_unsafe c0 h2.2⟩
  have hlb : '[' ∈ portDrop S2 (asciiLower sr.netloc) ↔ '[' ∈ sr.netloc := by
    rw [portDrop_bracket _ _ _ (by decide) (by decide) (by decide) (by decide)
      (by decide) (by decide)]
    exact mem_asciiLower_bad '[' sr.netloc (by decide) (by decide)
  have hrb : ']' ∈ portDrop S2 (asciiLower sr.netloc) ↔ ']' ∈ sr.netloc := by
    rw [portDrop_bracket _ _ _ (by decide) (by decide) (by decide) (by decide)
      (by decide) (by decide)]
    exact mem_asciiLower_bad ']' sr.netloc (by decide) (by decide)
  have hNbr2 : ¬ (('[' ∈ portDrop S2 (asciiLower sr.netloc) ∧
        ']' ∉ portDrop S2 (asciiLower sr.netloc)) ∨
      (']' ∈ portDrop S2 (asciiLower sr.netloc) ∧
        '[' ∉ portDrop S2 (asciiLower sr.netloc))) := by
    intro hc
    apply hbr
    rcases hc with ⟨h1, h2⟩ | ⟨h1, h2⟩
    · exact Or.inl ⟨hlb.mp h1, fun hm => h2 (hrb.mpr hm)⟩
    · exact Or.inr ⟨hrb.mp h1, fun hm => h2 (hlb.mpr hm)⟩
  have hP1 := normalizePath_take1 sr.path
  have hP2 := normalizePath_take2 sr.path
  have hPch : ∀ c ∈ normalizePath sr.path,
      c ≠ '#' ∧ c ≠ '?' ∧ isUnsafeUrlChar c = false := by
    intro c hc
    rcases normalizePath_chars sr.path c hc with he | hm
    · subst he
      exact ⟨by decide, by decide, by decide⟩
    · exact ⟨fun h2 => hhashp (h2 ▸ hm), fun h2 => hqustp (h2 ▸ hm),
        hpunsafe c hm⟩
  have hQc := normalizeQuery_class pats sr.query
  have hsemi2 : ';' ∉ normalizePath sr.path := by
    intro hm
    rcases normalizePath_chars sr.path _ hm with he | hm2
    · cases he
    · exact hsemi hm2
  have hsplitV : pyUrlsplit V = .ok ⟨S2, portDrop S2 (asciiLower sr.netloc),
      normalizePath sr.path, normalizeQuery pats sr.query, []⟩ := by
    by_cases hA : portDrop S2 (asciiLower sr.netloc) ≠ [] ∨ S2 ∈ usesNetloc
    · rw [hVe, show pyUrlunparse S2 (portDrop S2 (asciiLower sr.netloc))
          (normalizePath sr.path) [] (normalizeQuery pats sr.query) =
        pyUrlunsplit S2 (portDrop S2 (asciiLower sr.netloc))
          (normalizePath sr.path) (normalizeQuery pats sr.query) from by
        rw [pyUrlunparse]
        rw [if_neg (fun hc => hc rfl)]]
      exact pyUrlsplit_rebuilt_netloc S2 _ _ _ hS2ne hS2a hS2s hS2l hNfact
        hNbr2 hP1 hPch hQc (hA.elim Or.inl (fun h => Or.inr ⟨hS2ne, h, hP2⟩))
    · have hN0 : portDrop S2 (asciiLower sr.netloc) = [] :=
        of_not_not (fun h => hA (Or.inl h))
      rw [hVe, hN0]
      rw [show pyUrlunparse S2 [] (normalizePath sr.path) []
          (normalizeQuery pats sr.query) =
        pyUrlunsplit S2 [] (normalizePath sr.path)
          (normalizeQuery pats sr.query) from by
        rw [pyUrlunparse]
        rw [if_neg (fun hc => hc rfl)]]
      refine pyUrlsplit_rebuilt_nonetloc S2 _ _ hS2ne hS2a hS2s hS2l hP1 hP2
        hPch hQc ?_
      intro hc
      rcases hc with h | h
      · exact h rfl
      · exact hA (Or.inr h.2.1)
  have hparse2 : pyUrlparse V = .ok ⟨S2, portDrop S2 (asciiLower sr.netloc),
      normalizePath sr.path, [], normalizeQuery pats sr.query, []⟩ :=
    pyUrlparse_of_urlsplit V _ hsplitV hsemi2
  rw [normalizeUrl, hparse2]
  show (Except.ok (pyUrlunparse
      (if S2 ≠ [] then asciiLower S2 else "http".data)
      (portDrop (if S2 ≠ [] then asciiLower S2 else "http".data)
        (asciiLower (portDrop S2 (asciiLower sr.netloc))))
      (normalizePath (normalizePath sr.path)) []
      (normalizeQuery pats (normalizeQuery pats sr.query))) : Except Unit Str) =
    Except.ok V
  rw [if_pos hS2ne, hS2l, asciiLower_portDrop,
    portDrop_portDrop S2 _ (by
      rw [count_asciiLower_bad ':' sr.netloc (by decide) (by decide)]
      exact hcolon),
    normalizePath_idem, normalizeQuery_idem, hVe]

/-- C4: the original idempotence claim fails. For the URL
`http://example.com:80:80/x` (netloc with two colons) one pass of
`normalize_url` drops the trailing default port, producing
`http://example.com:80/x`, and a second pass drops the remaining `:80`,
so `normalize_url (normalize_url U) ≠ normalize_url U`. -/
theorem normalize_url_not_idempotent :
    normalizeUrl [] "http://example.com:80:80/x".data =
      .ok "http://example.com:80/x".data ∧
    normalizeUrl [] "http://example.com:80/x".data =
      .ok "http://example.com/x".data ∧
    "http://example.com:80/x".data ≠ "http://example.com/x".data := by
  refine ⟨rfl, rfl, ?_⟩
  decide

/-- C4 (amended): `normalize_url` is idempotent on every URL whose
`urlsplit` netloc contains at most one `:` and whose path contains no `;`:
the output of one normalization pass is a fixpoint of `normalize_url`. -/
theorem normalize_url_idem (pats : List Str) (U V : Str) (sr : SplitResult)
    (hsr : pyUrlsplit U = .ok sr)
    (hcolon : sr.netloc.count ':' ≤ 1)
    (hsemi : ';' ∉ sr.path)
    (hV : normalizeUrl pats U = .ok V) :
    normalizeUrl pats V = .ok V :=
  normalizeUrl_fix pats U V sr hsr hcolon hsemi hV

theorem normalize_url_idem_witness :
    normalizeUrl [] "http://example.com/x".data =
      .ok "http://example.com/x".data := by
  refine normalize_url_idem [] "http://example.com:80/x".data
    "http://example.com/x".data
    ⟨"http".data, "example.com:80".data, "/x".data, [], []⟩ ?_ ?_ ?_ ?_
  · rfl
  · decide
  · decide
  · rfl
